import Mathlib

/-!
# gosqlite: ingestion pipeline, archive installer

A shallow embedding of `main.go` (package `main` of rfielding/gosqlite).

Modelling conventions

* A Go `string` is a Lean `String` (a sequence of runes); every suffix the
  program tests is ASCII, so byte-wise and rune-wise suffix tests agree on
  well-formed UTF-8 names.
* A Go `[]byte` and the content of a file are `List UInt8`.
* The file system below the working directory is a map from the path string
  the program builds (`parentDir + "/" + name`) to the bytes of the file.
* The table `filesearch` is the list of its rows in insertion order.
* Everything the program cannot decide by itself (directory creation, file
  creation, copying, reopening, the three thumbnail commands, the text
  extraction service, the label service, the `INSERT`) is an oracle of the
  environment `Env`, indexed by a clock that advances at every such operation,
  so two operations on the same arguments may have different outcomes.
* Go `int`/`int64` counters (`part`, `existingSize`) are `Nat`: they count
  chunks and bytes of one file and stay far below `2^63`.
-/

namespace Gosqlite

/-! ## Strings -/

/-- Go `strings.HasSuffix(s, suffix)`:
`len(s) >= len(suffix) && s[len(s)-len(suffix):] == suffix`. -/
def HasSuffix (s suffix : String) : Bool :=
  decide (suffix.length ≤ s.length) &&
    (s.data.drop (s.length - suffix.length) == suffix.data)

/-- Source `IsTextFile` (main.go 49-60): things that FTS5 can handle directly. -/
def IsTextFile (fName : String) : Bool :=
  if HasSuffix fName ".txt" then true
  else if HasSuffix fName ".json" then true
  else if HasSuffix fName ".html" then true
  else false

/-- Source `IsDoc` (main.go 63-90): things that Tika can handle. -/
def IsDoc (fName : String) : Bool :=
  if HasSuffix fName ".doc" then true
  else if HasSuffix fName ".ppt" then true
  else if HasSuffix fName ".xls" then true
  else if HasSuffix fName ".docx" then true
  else if HasSuffix fName ".pptx" then true
  else if HasSuffix fName ".xlsx" then true
  else if HasSuffix fName ".pdf" then true
  else if HasSuffix fName ".one" then true
  else false

/-- Source `IsVideo` (main.go 92-97). -/
def IsVideo (fName : String) : Bool :=
  if HasSuffix fName ".mp4" then true
  else false

/-- Source `IsImage` (main.go 99-113). -/
def IsImage (fName : String) : Bool :=
  if HasSuffix fName ".jpg" then true
  else if HasSuffix fName ".jpeg" then true
  else if HasSuffix fName ".png" then true
  else if HasSuffix fName ".gif" then true
  else false

/-- The five classes of the type classifier. -/
inductive FileClass
  | Document
  | Video
  | Image
  | PlainText
  | Opaque
  deriving DecidableEq, Repr

/-- The branch `postFileHandler` takes for `fullName` when `cascade` holds
(main.go 323, 360, 373, 403, 439): the tests are made in this order and the
first that holds returns. -/
def dispatchClass (fullName : String) : FileClass :=
  if IsDoc fullName then FileClass.Document
  else if IsVideo fullName then FileClass.Video
  else if IsImage fullName then FileClass.Image
  else if IsTextFile fullName then FileClass.PlainText
  else FileClass.Opaque

/-- Source `fmt.Sprintf("%s/%s", parentDir, name)` (main.go 281). -/
def fullNameOf (parentDir name : String) : String :=
  parentDir ++ "/" ++ name

/-- The name `n` ends, case-sensitively, with the text `t`. -/
def EndsWith (n t : String) : Prop :=
  t.data <:+ n.data

instance (n t : String) : Decidable (EndsWith n t) := by
  unfold EndsWith; infer_instance

/-- The endings of the class Document in the extension table. -/
def DocEnding (n : String) : Prop :=
  EndsWith n ".doc" ∨ EndsWith n ".ppt" ∨ EndsWith n ".xls" ∨ EndsWith n ".docx" ∨
    EndsWith n ".pptx" ∨ EndsWith n ".xlsx" ∨ EndsWith n ".pdf" ∨ EndsWith n ".one"

/-- The ending of the class Video in the extension table. -/
def VideoEnding (n : String) : Prop :=
  EndsWith n ".mp4"

/-- The endings of the class Image in the extension table. -/
def ImageEnding (n : String) : Prop :=
  EndsWith n ".jpg" ∨ EndsWith n ".jpeg" ∨ EndsWith n ".png" ∨ EndsWith n ".gif"

/-- The endings of the class PlainText in the extension table. -/
def TextEnding (n : String) : Prop :=
  EndsWith n ".txt" ∨ EndsWith n ".json" ∨ EndsWith n ".html"

/-! ## The world: artifact store, index, collaborators -/

/-- A Go `[]byte`. -/
abbrev Bytes := List UInt8

/-- One row of the table `filesearch`
(`cmd, path, name, part, original_path, original_name, content`). -/
structure IndexRecord where
  cmd : String
  path : String
  name : String
  part : Nat
  original_path : String
  original_name : String
  content : Bytes
  deriving DecidableEq, Repr

/-- What `io.Copy` sees of an `io.Reader`: the bytes it yields, and whether it
ends with a read error rather than `io.EOF`. -/
structure Stream where
  data : Bytes
  fails : Bool
  deriving DecidableEq, Repr

/-- The arguments of one call of `postFileHandler` (the stream apart). -/
structure IngestCall where
  command : String
  parentDir : String
  name : String
  originalParentDir : String
  originalName : String
  cascade : Bool
  deriving DecidableEq, Repr

/-- What the program does that an observer can see, in order. -/
inductive Event
  | ingest (c : IngestCall)
  | docExtract (fName : String)
  | pdfThumbnail (file : String)
  | videoThumbnail (file : String)
  | makeThumbnail (file : String)
  | detectLabels (file : String)
  | index (r : IndexRecord)
  deriving DecidableEq, Repr

/-- The errors `postFileHandler` returns through `HandleReturnedError`, by the
place that raised them; `depth` is not an error of the program: it marks a
run of the model that was given too little recursion depth. -/
inductive Err
  | mkdir
  | create
  | write
  | openFile
  | extract
  | writeExtract
  | thumbnail
  | writeThumbnail
  | labels
  | depth
  deriving DecidableEq, Repr

/-- The collaborators. The first argument of each oracle is the clock. -/
structure Env where
  /-- the global `useVisionAPI` -/
  useVisionAPI : Bool
  /-- `unicode.ToLower` on the runes from `utf8.RuneSelf` upwards -/
  lowerRune : Char → Char
  /-- `os.MkdirAll("." + parentDir, 0777)` fails -/
  mkdirAllErr : Nat → String → Bool
  /-- `os.Create("." + fullName)` fails -/
  createErr : Nat → String → Bool
  /-- `io.Copy(f, stream)` meets a write error after that many bytes -/
  copyErr : Nat → String → Option Nat
  /-- `os.Open("." + fullName)` fails -/
  openErr : Nat → String → Bool
  /-- `DocExtract(fName, rdr)`: the response body, or an error -/
  DocExtract : Nat → String → Bytes → Option Stream
  /-- `pdfThumbnail(file)`: the bytes `convert` printed, or an error -/
  pdfThumbnail : Nat → String → Option Bytes
  /-- `videoThumbnail(file)` -/
  videoThumbnail : Nat → String → Option Bytes
  /-- `makeThumbnail(file)` -/
  makeThumbnail : Nat → String → Option Bytes
  /-- `detectLabels(file)` -/
  detectLabels : Nat → String → Option Bytes
  /-- the `INSERT INTO filesearch` of `indexTextFile` fails -/
  indexErr : Nat → IndexRecord → Bool

/-- The state the handlers act on. -/
structure World where
  /-- regular files below the working directory, by path -/
  files : String → Option Bytes
  /-- rows of `filesearch`, oldest first -/
  db : List IndexRecord
  /-- events so far, oldest first -/
  trace : List Event
  /-- number of collaborator operations so far -/
  clock : Nat

/-- One collaborator operation has happened. -/
def World.tick (w : World) : World :=
  { w with clock := w.clock + 1 }

/-- Append an event to the trace. -/
def World.record (w : World) (e : Event) : World :=
  { w with trace := w.trace ++ [e] }

/-- The file at `path` now holds `b`. -/
def World.writeFile (w : World) (path : String) (b : Bytes) : World :=
  { w with files := fun p => if p = path then some b else w.files p }

/-- Size reported by `os.Stat` when it succeeds, else the initial `0`
(main.go 302-306). -/
def World.existingSize (w : World) (path : String) : Nat :=
  match w.files path with
  | some b => b.length
  | none => 0

/-- Content of the file at `path` as a reader sees it. -/
def World.content (w : World) (path : String) : Bytes :=
  (w.files path).getD []

/-- A world with no file, no row, no event. -/
def World.empty : World :=
  { files := fun _ => none, db := [], trace := [], clock := 0 }

/-- An environment in which nothing fails; the services return fixed bytes and
the label service is enabled. -/
def Env.ok : Env :=
  { useVisionAPI := true
    lowerRune := fun c => c
    mkdirAllErr := fun _ _ => false
    createErr := fun _ _ => false
    copyErr := fun _ _ => none
    openErr := fun _ _ => false
    DocExtract := fun _ _ b => some ⟨b, false⟩
    pdfThumbnail := fun _ _ => some [137, 80]
    videoThumbnail := fun _ _ => some [137, 80]
    makeThumbnail := fun _ _ => some [137, 80]
    detectLabels := fun _ _ => some [123, 125]
    indexErr := fun _ _ => false }

/-! ## Indexing -/

/-- Source `indexTextFile` (main.go 243-267): one `INSERT`; returns whether it
failed. -/
def indexTextFile (env : Env) (w : World) (command path name : String) (part : Nat)
    (originalPath originalName : String) (content : Bytes) : World × Bool :=
  let r : IndexRecord := ⟨command, path, name, part, originalPath, originalName, content⟩
  let w := w.record (Event.index r)
  if env.indexErr w.clock r then (w.tick, true)
  else ({ w.tick with db := w.db ++ [r] }, false)

/-- An open `*os.File` on a regular file: its bytes and the read offset. -/
structure File where
  content : Bytes
  pos : Nat
  deriving DecidableEq, Repr

/-- `f.Read(buffer)` with `len(buffer) = n` on a regular file: the bytes read
and whether the result is `io.EOF`; a read returns `min n remaining` bytes,
and `0, io.EOF` when nothing remains. -/
def File.Read (f : File) (n : Nat) : Bytes × Bool × File :=
  let rest := f.content.drop f.pos
  if rest.isEmpty then ([], true, f)
  else (rest.take n, false, { f with pos := f.pos + min n rest.length })

/-- `f.Seek(offset, 0)`. -/
def File.Seek (f : File) (offset : Nat) : File :=
  { f with pos := offset }

/-- Size of the read buffer, `4*1024` (main.go 424). -/
def bufferSize : Nat := 4 * 1024

/-- The loop of main.go 426-436. `fuel` bounds the number of iterations; each
iteration that does not break consumes at least one byte, so
`len(content) + 1` iterations always reach `io.EOF`. -/
def indexLoop (env : Env) (command path name originalPath originalName : String) :
    Nat → File → Nat → World → World
  | 0, _, _, w => w
  | fuel + 1, f, part, w =>
    match f.Read bufferSize with
    | (_, true, _) => w
    | (buf, false, f1) =>
      let w1 := (indexTextFile env w command path name part originalPath originalName buf).1
      indexLoop env command path name originalPath originalName fuel f1 (part + 1) w1

/-! ## Paths (Go package `path`) and `strings` helpers -/

/-- Go `strings.ToLower` on one rune below `utf8.RuneSelf`; other runes go
through the Unicode tables, here the parameter `lowerRune`. -/
def toLowerRune (lowerRune : Char → Char) (c : Char) : Char :=
  if c.toNat < 128 then
    (if 'A'.toNat ≤ c.toNat ∧ c.toNat ≤ 'Z'.toNat then Char.ofNat (c.toNat + 32) else c)
  else lowerRune c

/-- Go `strings.ToLower`. -/
def ToLower (lowerRune : Char → Char) (s : String) : String :=
  ⟨s.data.map (toLowerRune lowerRune)⟩

/-- The loop of Go `path.Ext`, run on the reversed path:
`for i := len(path) - 1; i >= 0 && path[i] != '/'; i--`, returning `path[i:]`
at the first `'.'`. `acc` holds `path[i+1:]`. -/
def extLoop : List Char → List Char → List Char
  | [], _ => []
  | c :: rest, acc =>
    if c = '/' then []
    else if c = '.' then c :: acc
    else extLoop rest (c :: acc)

/-- Go `path.Ext`. -/
def Ext (p : String) : String :=
  ⟨extLoop p.data.reverse []⟩

/-- The split of Go `path.Split`, first half: `path[:i+1]` for `i` the index
of the last `'/'` (the empty string when there is none). -/
def splitDir (p : List Char) : List Char :=
  (p.reverse.dropWhile (fun c => c ≠ '/')).reverse

/-- The inner loop of the `..` case of Go `path.Clean`, on the reversed
buffer: `out.w--; for out.w > dotdot && out.index(out.w) != '/' { out.w-- }`.
The byte `out.index(out.w)` is the one the last decrement dropped. -/
def cleanBacktrack (dotdot : Nat) : List Char → List Char
  | [] => []
  | c :: rest => if rest.length > dotdot ∧ c ≠ '/' then cleanBacktrack dotdot rest else rest

/-- The main loop `for r < n` of Go `path.Clean`: `path` is `path[r:]`, `out`
the written part of the buffer; the result is the buffer and `dotdot` when
the loop ends. Every iteration consumes at least one byte, so
`fuel = len(path) + 1` suffices. -/
def cleanLoop (rooted : Bool) : Nat → List Char → List Char → Nat → List Char × Nat
  | 0, _, out, dotdot => (out, dotdot)
  | _ + 1, [], out, dotdot => (out, dotdot)
  | fuel + 1, c :: rest, out, dotdot =>
    if c = '/' then
      cleanLoop rooted fuel rest out dotdot
    else if c = '.' ∧ (rest = [] ∨ rest.head? = some '/') then
      cleanLoop rooted fuel rest out dotdot
    else if c = '.' ∧ rest.head? = some '.' ∧ (rest.tail = [] ∨ rest.tail.head? = some '/') then
      if out.length > dotdot then
        cleanLoop rooted fuel rest.tail (cleanBacktrack dotdot out.reverse).reverse dotdot
      else if !rooted then
        let out2 := (if out.length > 0 then out ++ ['/'] else out) ++ ['.', '.']
        cleanLoop rooted fuel rest.tail out2 out2.length
      else
        cleanLoop rooted fuel rest.tail out dotdot
    else
      let out1 :=
        if (rooted && out.length != 1) || (!rooted && out.length != 0) then out ++ ['/'] else out
      cleanLoop rooted fuel ((c :: rest).dropWhile (fun x => x ≠ '/'))
        (out1 ++ (c :: rest).takeWhile (fun x => x ≠ '/')) dotdot

/-- Go `path.Clean`. -/
def Clean (p : String) : String :=
  match p.data with
  | [] => "."
  | c :: rest =>
    let out :=
      if c = '/' then (cleanLoop true (rest.length + 1) rest ['/'] 1).1
      else (cleanLoop false (rest.length + 2) (c :: rest) [] 0).1
    if out.length = 0 then "." else ⟨out⟩

/-- Go `path.Dir`: `dir, _ := Split(path); return Clean(dir)`. -/
def Dir (p : String) : String :=
  Clean ⟨splitDir p.data⟩

/-- Go `path.Base`. -/
def Base (p : String) : String :=
  if p = "" then "."
  else
    let stripped := p.data.reverse.dropWhile (fun c => c = '/')
    let last := stripped.takeWhile (fun c => c ≠ '/')
    if last = [] then "/" else ⟨last.reverse⟩

/-- The pieces of `s` between the occurrences of the byte `sep`; `cur` is the
piece being read, reversed. -/
def splitAux (sep : Char) : List Char → List Char → List String
  | [], cur => [⟨cur.reverse⟩]
  | c :: rest, cur =>
    if c = sep then ⟨cur.reverse⟩ :: splitAux sep rest []
    else splitAux sep rest (c :: cur)

/-- Go `strings.Split(s, sep)` for a separator of one byte. -/
def Split (s : String) (sep : Char) : List String :=
  splitAux sep s.data []

/-- Go `strings.Join(elems, sep)`. -/
def Join : List String → String → String
  | [], _ => ""
  | [a], _ => a
  | a :: b :: rest, sep => a ++ sep ++ Join (b :: rest) sep

/-! ## The ingestion controller -/

/-- `io.Copy(f, stream)` on the file just opened (main.go 316): the bytes join
what the open file holds; the result tells whether `err != nil`. -/
def ioCopy (env : Env) (w : World) (fullName : String) (stream : Stream) : World × Bool :=
  match env.copyErr w.clock fullName with
  | some k => ((w.writeFile fullName (w.content fullName ++ stream.data.take k)).tick, true)
  | none => ((w.writeFile fullName (w.content fullName ++ stream.data)).tick, stream.fails)

/-- The error a caller returns after a recursive call failed with `e`:
`HandleReturnedError` makes a new error, `wrapped`. A run of the model that
ran out of depth stays marked as such. -/
def wrapErr (e wrapped : Err) : Err :=
  if e = Err.depth then Err.depth else wrapped

/-- Source `postFileHandler` (main.go 270-440). The first argument bounds the
depth of the recursion; the result is the world afterwards and the returned
`error` (`none` is `nil`). -/
def postFileHandler (env : Env) :
    Nat → World → Stream → String → String → String → String → String → Bool →
      World × Option Err
  | 0, w, _, _, _, _, _, _, _ => (w, some Err.depth)
  | depth + 1, w0, stream, command, parentDir, name, originalParentDir, originalName,
      cascade =>
    let fullName := fullNameOf parentDir name
    let w1 := w0.record
      (Event.ingest ⟨command, parentDir, name, originalParentDir, originalName, cascade⟩)
    -- 297-300: os.MkdirAll
    if env.mkdirAllErr w1.clock parentDir then (w1.tick, some Err.mkdir)
    else
      let w2 := w1.tick
      -- 302-306: os.Stat
      let existingSize := w2.existingSize fullName
      -- 310-313: os.Create truncates
      if env.createErr w2.clock fullName then (w2.tick, some Err.create)
      else
        let w3 := (w2.writeFile fullName []).tick
        -- 316-320: io.Copy
        let copied := ioCopy env w3 fullName stream
        let w4 := copied.1
        if copied.2 then (w4, some Err.write)
        else if IsDoc fullName && cascade then
          -- 325-328: os.Open
          if env.openErr w4.clock fullName then (w4.tick, some Err.openFile)
          else
            let w5 := w4.tick.record (Event.docExtract fullName)
            -- 330-334: DocExtract
            match env.DocExtract w5.clock fullName (w5.content fullName) with
            | none => (w5.tick, some Err.extract)
            | some rdr =>
              let extractName := name ++ "--extract.txt"
              -- 337-340
              match postFileHandler env depth w5.tick rdr command parentDir extractName
                  originalParentDir originalName cascade with
              | (w6, some e) => (w6, some (wrapErr e Err.writeExtract))
              | (w6, none) =>
                -- 342-354
                let ext := ToLower env.lowerRune (Ext fullName)
                if ext = ".pdf" then
                  let w7 := w6.record (Event.pdfThumbnail ("./" ++ fullName))
                  match env.pdfThumbnail w7.clock ("./" ++ fullName) with
                  | none => (w7.tick, some Err.thumbnail)
                  | some png =>
                    let thumbnailName := name ++ "--thumbnail.png"
                    match postFileHandler env depth w7.tick ⟨png, false⟩ command parentDir
                        thumbnailName originalParentDir originalName false with
                    | (w8, some e) => (w8, some (wrapErr e Err.writeThumbnail))
                    | (w8, none) => (w8, none)
                else (w6, none)
        else if IsVideo fullName && cascade then
          -- 361-370
          let w5 := w4.record (Event.videoThumbnail ("./" ++ fullName))
          match env.videoThumbnail w5.clock ("./" ++ fullName) with
          | none => (w5.tick, some Err.thumbnail)
          | some png =>
            let thumbnailName := name ++ "--thumbnail.png"
            match postFileHandler env depth w5.tick ⟨png, false⟩ command parentDir
                thumbnailName originalParentDir originalName false with
            | (w6, some e) => (w6, some (wrapErr e Err.writeThumbnail))
            | (w6, none) => (w6, none)
        else if IsImage fullName && cascade then
          -- 375-383
          let w5 := w4.record (Event.makeThumbnail ("./" ++ fullName))
          match env.makeThumbnail w5.clock ("./" ++ fullName) with
          | none => (w5.tick, some Err.thumbnail)
          | some png =>
            let thumbnailName := name ++ "--thumbnail.png"
            match postFileHandler env depth w5.tick ⟨png, false⟩ command parentDir
                thumbnailName originalParentDir originalName false with
            | (w6, some e) => (w6, some (wrapErr e Err.writeThumbnail))
            | (w6, none) =>
              -- 386-398
              if env.useVisionAPI then
                let w7 := w6.record (Event.detectLabels ("./" ++ fullName))
                match env.detectLabels w7.clock ("./" ++ fullName) with
                | none => (w7.tick, some Err.labels)
                | some json =>
                  let labelName := name ++ "--labels.json"
                  match postFileHandler env depth w7.tick ⟨json, false⟩ command parentDir
                      labelName originalParentDir originalName cascade with
                  | (w8, some e) => (w8, if e = Err.depth then some Err.depth else none)
                  | (w8, none) => (w8, none)
              else (w6, none)
        else if IsTextFile fullName && cascade then
          -- 405-408: os.Open
          if env.openErr w4.clock fullName then (w4.tick, some Err.openFile)
          else
            let w5 := w4.tick
            let f : File := ⟨w5.content fullName, 0⟩
            -- 410-413
            let f1 := if existingSize > 0 then f.Seek existingSize else f
            -- 424-436
            (indexLoop env command (parentDir ++ "/") name (originalParentDir ++ "/")
              originalName (f1.content.length + 1) f1 0 w5, none)
        else (w4, none)

/-! ## The archive installer -/

/-- One entry of a tar stream as `tar.Reader` presents it: the header fields
the installer reads, and the entry's bytes as `io.Copy` reads them from the
tar reader. -/
structure TarEntry where
  Typeflag : Char
  Name : String
  body : Stream
  deriving DecidableEq, Repr

/-- Go `tar.TypeReg`. -/
def TypeReg : Char := '0'

/-- Go `tar.TypeDir`. -/
def TypeDir : Char := '5'

/-- How the loop of `postFilesHandler` ended: it reached `io.EOF`, it returned
after an ingestion error, or `t.Next()` returned another error with a nil
header, which `header.Typeflag` dereferences. -/
inductive Outcome
  | done
  | aborted (e : Err)
  | panicked
  deriving DecidableEq, Repr

/-- The arguments of the call at main.go 482 for the entry `e`
(main.go 477-482). -/
def entryCall (command parentDir name : String) (e : TarEntry) : IngestCall :=
  let tname := (Split e.Name '/').drop 1
  let tardir := Dir (parentDir ++ "/" ++ name ++ "/" ++ Join tname "/")
  let tarname := Base e.Name
  ⟨command, tardir, tarname, tardir, tarname, true⟩

/-- What the installer loop did: the world afterwards, the calls of
`postFileHandler` it made itself, oldest first, each with the error returned,
and how it ended. -/
structure InstallResult where
  world : World
  calls : List (IngestCall × Option Err)
  outcome : Outcome

/-- The loop of main.go 469-488 over the entries `t.Next()` yields;
`malformed` tells whether the stream ends with an error other than
`io.EOF`. -/
def installLoop (env : Env) (depth : Nat) (command parentDir name : String)
    (malformed : Bool) : List TarEntry → World → InstallResult
  | [], w => ⟨w, [], if malformed then Outcome.panicked else Outcome.done⟩
  | e :: es, w =>
    if e.Typeflag = TypeReg then
      let c := entryCall command parentDir name e
      match postFileHandler env depth w e.body c.command c.parentDir c.name
          c.originalParentDir c.originalName c.cascade with
      | (w1, some err) => ⟨w1, [(c, some err)], Outcome.aborted err⟩
      | (w1, none) =>
        let r := installLoop env depth command parentDir name malformed es w1
        ⟨r.world, (c, none) :: r.calls, r.outcome⟩
    else installLoop env depth command parentDir name malformed es w

/-! ## Reading the results -/

/-- Row `i` of the chunking of `rest`, numbered from `part`: the bytes
`[bufferSize*i, bufferSize*(i+1))` of `rest`. -/
def chunkRow (command path name originalPath originalName : String) (rest : Bytes)
    (part i : Nat) : IndexRecord :=
  ⟨command, path, name, part + i, originalPath, originalName,
    (rest.drop (bufferSize * i)).take bufferSize⟩

/-- The rows for the bytes `rest`, one for each started block of `bufferSize`
bytes, numbered `part, part+1, ...`. -/
def chunkRows (command path name originalPath originalName : String) (rest : Bytes)
    (part : Nat) : List IndexRecord :=
  (List.range ((rest.length + (bufferSize - 1)) / bufferSize)).map
    (chunkRow command path name originalPath originalName rest part)

/-- The rows of the insertions attempted in a stretch of the trace. -/
def indexAttempts : List Event → List IndexRecord
  | [] => []
  | Event.index r :: rest => r :: indexAttempts rest
  | _ :: rest => indexAttempts rest

/-- The calls of `postFileHandler` entered in a stretch of the trace. -/
def ingestCalls : List Event → List IngestCall
  | [] => []
  | Event.ingest c :: rest => c :: ingestCalls rest
  | _ :: rest => ingestCalls rest

/-- The events a run added to the trace of `w0`. -/
def newEvents (w0 w1 : World) : List Event :=
  w1.trace.drop w0.trace.length

/-- The rows a run added to the table of `w0`. -/
def newRows (w0 w1 : World) : List IndexRecord :=
  w1.db.drop w0.db.length

/-- No operation on the artifact store fails. -/
structure StoreOk (env : Env) : Prop where
  mkdir : ∀ t p, env.mkdirAllErr t p = false
  create : ∀ t p, env.createErr t p = false
  copy : ∀ t p, env.copyErr t p = none
  reopen : ∀ t p, env.openErr t p = false

/-- The world after main.go 281-321 when nothing failed: the call is on the
trace, the destination holds `data`, three operations went by. -/
def World.stored (w0 : World) (c : IngestCall) (data : Bytes) : World :=
  { files := fun p => if p = fullNameOf c.parentDir c.name then some data else w0.files p
    db := w0.db
    trace := w0.trace ++ [Event.ingest c]
    clock := w0.clock + 3 }

/-- The world after a Document and then its extract have been stored and the
extract has been read (main.go 281-340), when nothing failed: `data` is what
the document holds, `extract` what the extraction returned. -/
def World.afterExtract (env : Env) (w0 : World) (c : IngestCall) (data extract : Bytes) :
    World :=
  indexLoop env c.command (c.parentDir ++ "/") (c.name ++ "--extract.txt")
    (c.originalParentDir ++ "/") c.originalName (extract.length + 1)
    ⟨extract, w0.existingSize (fullNameOf c.parentDir (c.name ++ "--extract.txt"))⟩ 0
    ((((w0.stored c data).tick.record
      (Event.docExtract (fullNameOf c.parentDir c.name))).tick).stored
      ⟨c.command, c.parentDir, c.name ++ "--extract.txt", c.originalParentDir,
        c.originalName, c.cascade⟩ extract).tick

/-! ## Concrete runs -/

/-- The five bytes of `hello`. -/
def helloBytes : Bytes := [104, 101, 108, 108, 111]

/-- An environment in which nothing fails and the extraction service answers
`hello` for every document. -/
def Env.extractsHello : Env :=
  { Env.ok with DocExtract := fun _ _ _ => some ⟨helloBytes, false⟩ }

/-- An environment in which nothing fails but the label service. -/
def Env.labelServiceDown : Env :=
  { Env.ok with detectLabels := fun _ _ => none }

/-- An environment in which nothing fails but the creation of files whose
name ends with `--labels.json`. -/
def Env.labelStoreDown : Env :=
  { Env.ok with createErr := fun _ p => HasSuffix p "--labels.json" }

/-- A store in which `/files/a.txt` holds the one byte `1` (49), indexed as
part 0 by an earlier upload with the verb `append`. -/
def World.oneByteIndexed : World :=
  { files := fun p => if p = "/files/a.txt" then some [49] else none
    db := [⟨"append", "/files/", "a.txt", 0, "/files/", "a.txt", [49]⟩]
    trace := []
    clock := 0 }

/-- A store in which `/files/log.bin` holds the two bytes `1, 2`. -/
def World.twoBytes : World :=
  { files := fun p => if p = "/files/log.bin" then some [1, 2] else none
    db := []
    trace := []
    clock := 0 }

/-- A store left by an earlier upload of `/files/a.doc` whose extract was the
one byte `x` (120). -/
def World.oldExtract : World :=
  { files := fun p =>
      if p = "/files/a.doc" then some [1]
      else if p = "/files/a.doc--extract.txt" then some [120]
      else none
    db := [⟨"files", "/files/", "a.doc--extract.txt", 0, "/files/", "a.doc", [120]⟩]
    trace := []
    clock := 0 }

/-- The rows of `w1` are those of `w0` followed by rows that all satisfy `P`. -/
def RowsAdded (w0 w1 : World) (P : IndexRecord → Prop) : Prop :=
  ∃ X, w1.db = w0.db ++ X ∧ ∀ r ∈ X, P r

/-- The key a row gets from a call that chunks the artifact `name` of
`parentDir` for the root artifact `originalName` of `originalParentDir`
(main.go 431). -/
def RowKey (command parentDir name originalParentDir originalName : String)
    (r : IndexRecord) : Prop :=
  r.cmd = command ∧ r.path = parentDir ++ "/" ∧ r.name = name ∧
    r.original_path = originalParentDir ++ "/" ∧ r.original_name = originalName

/-! ## The branches of `postFileHandler`, one by one

The four branches of main.go 323-438 as functions of the world `w4` left by
`io.Copy` and of `recur`, the recursive call with the arguments that never
change (`command`, `parentDir`, `originalParentDir`, `originalName`) filled
in. `postFileHandler_succ` shows that `postFileHandler` is their
composition; they serve the proofs only. -/

/-- Main.go 323-358, the Document branch. -/
def docStep (env : Env) (recur : World → Stream → String → Bool → World × Option Err)
    (w4 : World) (fullName name : String) (cascade : Bool) : World × Option Err :=
  if env.openErr w4.clock fullName then (w4.tick, some Err.openFile)
  else
    let w5 := w4.tick.record (Event.docExtract fullName)
    match env.DocExtract w5.clock fullName (w5.content fullName) with
    | none => (w5.tick, some Err.extract)
    | some rdr =>
      match recur w5.tick rdr (name ++ "--extract.txt") cascade with
      | (w6, some e) => (w6, some (wrapErr e Err.writeExtract))
      | (w6, none) =>
        if ToLower env.lowerRune (Ext fullName) = ".pdf" then
          let w7 := w6.record (Event.pdfThumbnail ("./" ++ fullName))
          match env.pdfThumbnail w7.clock ("./" ++ fullName) with
          | none => (w7.tick, some Err.thumbnail)
          | some png =>
            match recur w7.tick ⟨png, false⟩ (name ++ "--thumbnail.png") false with
            | (w8, some e) => (w8, some (wrapErr e Err.writeThumbnail))
            | (w8, none) => (w8, none)
        else (w6, none)

/-- Main.go 360-371, the Video branch. -/
def videoStep (env : Env) (recur : World → Stream → String → Bool → World × Option Err)
    (w4 : World) (fullName name : String) : World × Option Err :=
  let w5 := w4.record (Event.videoThumbnail ("./" ++ fullName))
  match env.videoThumbnail w5.clock ("./" ++ fullName) with
  | none => (w5.tick, some Err.thumbnail)
  | some png =>
    match recur w5.tick ⟨png, false⟩ (name ++ "--thumbnail.png") false with
    | (w6, some e) => (w6, some (wrapErr e Err.writeThumbnail))
    | (w6, none) => (w6, none)

/-- Main.go 373-401, the Image branch. -/
def imageStep (env : Env) (recur : World → Stream → String → Bool → World × Option Err)
    (w4 : World) (fullName name : String) (cascade : Bool) : World × Option Err :=
  let w5 := w4.record (Event.makeThumbnail ("./" ++ fullName))
  match env.makeThumbnail w5.clock ("./" ++ fullName) with
  | none => (w5.tick, some Err.thumbnail)
  | some png =>
    match recur w5.tick ⟨png, false⟩ (name ++ "--thumbnail.png") false with
    | (w6, some e) => (w6, some (wrapErr e Err.writeThumbnail))
    | (w6, none) =>
      if env.useVisionAPI then
        let w7 := w6.record (Event.detectLabels ("./" ++ fullName))
        match env.detectLabels w7.clock ("./" ++ fullName) with
        | none => (w7.tick, some Err.labels)
        | some json =>
          match recur w7.tick ⟨json, false⟩ (name ++ "--labels.json") cascade with
          | (w8, some e) => (w8, if e = Err.depth then some Err.depth else none)
          | (w8, none) => (w8, none)
      else (w6, none)

/-- Main.go 403-438, the PlainText branch. -/
def textStep (env : Env) (w4 : World) (existingSize : Nat)
    (command parentDir name originalParentDir originalName : String) : World × Option Err :=
  if env.openErr w4.clock (fullNameOf parentDir name) then (w4.tick, some Err.openFile)
  else
    let w5 := w4.tick
    let f : File := ⟨w5.content (fullNameOf parentDir name), 0⟩
    let f1 := if existingSize > 0 then f.Seek existingSize else f
    (indexLoop env command (parentDir ++ "/") name (originalParentDir ++ "/")
      originalName (f1.content.length + 1) f1 0 w5, none)

/-- The world `io.Copy` leaves (main.go 281-317) and whether it failed, when
the directory and the file could be created. -/
def copyStep (env : Env) (w0 : World) (stream : Stream) (c : IngestCall) : World × Bool :=
  ioCopy env (((w0.record (Event.ingest c)).tick.writeFile
    (fullNameOf c.parentDir c.name) []).tick) (fullNameOf c.parentDir c.name) stream

/-- A path component as the claim on archive entries takes it: not empty,
without `'/'`, and neither `.` nor `..`. -/
def Proper (c : String) : Prop :=
  c.data ≠ [] ∧ '/' ∉ c.data ∧ c ≠ "." ∧ c ≠ ".."

instance (c : String) : Decidable (Proper c) := by
  unfold Proper; infer_instance

/-- The bytes of `/c1/c2/.../ck`. -/
def slashJoin : List String → List Char
  | [] => []
  | c :: cs => '/' :: (c.data ++ slashJoin cs)

/-- An archive with a directory entry and three regular entries; the second
regular entry has a name whose creation fails in `Env.labelStoreDown`. -/
def demoArchive : List TarEntry :=
  [⟨TypeDir, "root/", ⟨[], false⟩⟩,
   ⟨TypeReg, "root/a.txt", ⟨[1], false⟩⟩,
   ⟨TypeReg, "root/b--labels.json", ⟨[2], false⟩⟩,
   ⟨TypeReg, "root/c.txt", ⟨[3], false⟩⟩]

/-! ## The router -/

/-- What the handlers read of an `http.Request`: the method, `r.URL.Path`,
whether the query has `install=true`, the body as `io.Copy` reads it, and the
body as `tar.NewReader` presents it (its entries, and whether it ends with an
error other than `io.EOF`). -/
structure Request where
  Method : String
  Path : String
  install : Bool
  Body : Stream
  entries : List TarEntry
  malformed : Bool

/-- Source `postFilesHandler` (main.go 442-497). With fewer than two tokens
the handler calls `HandleError` with the nil `err`, whose `err.Error()`
panics. -/
def postFilesHandler (env : Env) (depth : Nat) (w : World) (r : Request)
    (pathTokens : List String) : InstallResult :=
  if pathTokens.length < 2 then ⟨w, [], Outcome.panicked⟩
  else
    let command := pathTokens.getD 1 ""
    let pathTokens := pathTokens.set 1 "files"
    let parentDir := Join (pathTokens.take (pathTokens.length - 1)) "/"
    let name := pathTokens.getD (pathTokens.length - 1) ""
    if r.install then
      installLoop env depth command parentDir name r.malformed r.entries w
    else
      match postFileHandler env depth w r.Body command parentDir name parentDir name true with
      | (w1, some err) =>
        ⟨w1, [(⟨command, parentDir, name, parentDir, name, true⟩, some err)],
          Outcome.aborted err⟩
      | (w1, none) =>
        ⟨w1, [(⟨command, parentDir, name, parentDir, name, true⟩, none)], Outcome.done⟩

/-- Go `http.StatusNotImplemented`. -/
def StatusNotImplemented : Nat := 501

/-- Go `http.StatusNotFound`. -/
def StatusNotFound : Nat := 404

/-- Where `rootRouter` sent a request: to `getHandler`, to `postFilesHandler`
(with what it did), or nowhere, answering with a bare status. -/
inductive Routed
  | get
  | posted (r : InstallResult)
  | status (code : Nat)

/-- Source `postHandler` (main.go 499-505). -/
def postHandler (env : Env) (depth : Nat) (w : World) (r : Request)
    (pathTokens : List String) : Routed :=
  if pathTokens.length > 2 ∧ pathTokens.getD 1 "" = "files" then
    Routed.posted (postFilesHandler env depth w r pathTokens)
  else Routed.status StatusNotImplemented

/-- Source `rootRouter` (main.go 774-785). -/
def rootRouter (env : Env) (depth : Nat) (w : World) (r : Request) : Routed :=
  let pathTokens := Split r.Path '/'
  if r.Method = "GET" then Routed.get
  else if r.Method = "POST" then postHandler env depth w r pathTokens
  else Routed.status StatusNotFound

/-- The calls of `postFileHandler` a routed request made from the handler
itself, oldest first. -/
def Routed.calls : Routed → List IngestCall
  | Routed.posted r => r.calls.map Prod.fst
  | _ => []

/-- The bare status a routed request was answered with, if any. -/
def Routed.code : Routed → Option Nat
  | Routed.status c => some c
  | _ => none

/-- A single-file upload of the one byte `1` to `path`. -/
def Request.upload (path : String) : Request :=
  ⟨"POST", path, false, ⟨[1], false⟩, [], false⟩

/-! ## Search -/

/-- Source `Node` (main.go 507-514); `Attributes` is nil in every node the
search handler makes and is left out. -/
structure Node where
  Path : String := ""
  Name : String := ""
  IsDir : Bool := false
  Context : String := ""
  Size : Nat := 0
  deriving DecidableEq, Repr

/-- Source `Listing` (main.go 516-519), without the nil `Attributes`. -/
structure Listing where
  Children : List Node
  deriving DecidableEq, Repr

/-- A row of the match query of `getSearchHandler` (main.go 547-551), as
`rows.Scan` reads it. -/
structure SearchRow where
  original_path : String
  original_name : String
  part : Nat
  highlighted : String
  deriving DecidableEq, Repr

/-- The loop of main.go 566-576: one `append` for each row. -/
def searchLoop : List SearchRow → Listing → Listing
  | [], listing => listing
  | row :: rows, listing =>
    searchLoop rows
      { Children := listing.Children ++
          [{ Path := row.original_path, Name := row.original_name, IsDir := false,
             Context := row.highlighted }] }

/-- The listing the JSON branch of `getSearchHandler` serialises
(main.go 559-577), for the rows the query returned. -/
def getSearchHandlerJson (rows : List SearchRow) : Listing :=
  searchLoop rows { Children := [{ Name := "files", IsDir := true }] }

/-- The items the HTML branch of `getSearchHandler` writes between `<ul>`
and `</ul>` (main.go 581-588), one `fmt.Sprintf` for each row. -/
def getSearchHandlerHtml (rows : List SearchRow) : List String :=
  rows.map fun row =>
    "<li><a href=\"" ++ row.original_path ++ row.original_name ++ "\">" ++
      row.original_path ++ row.original_name ++ " [part " ++ toString row.part ++
      "]</a><br>" ++ row.highlighted ++ "<br></li>"

/-- The node the search handler makes of a row (main.go 570-575). -/
def rowNode (row : SearchRow) : Node :=
  { Path := row.original_path, Name := row.original_name, IsDir := false,
    Context := row.highlighted }

/-! ## Archive entry names -/

/-- A component `path.Clean` drops without a trace: the empty one and `.`. -/
def Skipped (c : String) : Bool :=
  c = "" || c = "."

/-- The components of an entry name that decide its destination directory:
all but the first and the last (main.go 477-479). -/
def entryMid (entryName : String) : List String :=
  ((Split entryName '/').drop 1).dropLast

/-- An archive whose one regular entry climbs out of its upload directory. -/
def climbingArchive : List TarEntry :=
  [⟨TypeReg, "root/../../../etc/passwd", ⟨[7], false⟩⟩]

/-! ## Reading the calls off the trace -/

/-- The trace of `w1` is that of `w0` followed by events whose entries of
`postFileHandler` all satisfy `P`. -/
def CallsAdded (w0 w1 : World) (P : IngestCall → Prop) : Prop :=
  ∃ ev, w1.trace = w0.trace ++ ev ∧ ∀ c ∈ ingestCalls ev, P c

/-- A call that the dispatch of main.go 323-438 sends to no branch that
recurses: cascade is off, or the name passes none of the tests for Document,
Video and Image. -/
def Leaf (c : IngestCall) : Prop :=
  c.cascade = false ∨
    (IsDoc (fullNameOf c.parentDir c.name) = false ∧
      IsVideo (fullNameOf c.parentDir c.name) = false ∧
      IsImage (fullNameOf c.parentDir c.name) = false)

/-- What the recursive calls of a call on `name` look like: a thumbnail with
cascade off, or the extract or the labels of `name`, of class PlainText. -/
def Derived (name : String) (c : IngestCall) : Prop :=
  (c.name = name ++ "--thumbnail.png" ∧ c.cascade = false) ∨
    ((c.name = name ++ "--extract.txt" ∨ c.name = name ++ "--labels.json") ∧
      dispatchClass (fullNameOf c.parentDir c.name) = FileClass.PlainText)

end Gosqlite
namespace Gosqlite

theorem hasSuffix_iff (s t : String) : HasSuffix s t = true ↔ EndsWith s t := by
  unfold HasSuffix EndsWith
  rw [Bool.and_eq_true, decide_eq_true_iff, beq_iff_eq, List.suffix_iff_eq_drop]
  constructor
  · rintro ⟨_, h⟩
    exact h.symm
  · intro h
    refine ⟨?_, h.symm⟩
    have := congrArg List.length h
    simp only [List.length_drop] at this
    show t.data.length ≤ s.data.length
    omega

theorem fullNameOf_data (p n : String) :
    (fullNameOf p n).data = p.data ++ '/' :: n.data := by
  simp [fullNameOf, String.data_append]

/-- A text without `'/'` ends `parentDir/name` exactly when it ends `name`. -/
theorem endsWith_fullNameOf (p n t : String) (ht : '/' ∉ t.data) :
    EndsWith (fullNameOf p n) t ↔ EndsWith n t := by
  unfold EndsWith
  rw [fullNameOf_data]
  constructor
  · intro h
    have h2 : ('/' :: n.data) <:+ p.data ++ '/' :: n.data := List.suffix_append _ _
    rcases List.suffix_or_suffix_of_suffix h h2 with h3 | h3
    · rcases List.suffix_cons_iff.mp h3 with h4 | h4
      · exact absurd (h4 ▸ List.mem_cons_self _ _) ht
      · exact h4
    · exact absurd (h3.subset (List.mem_cons_self _ _)) ht
  · intro h
    exact h.trans ((List.suffix_cons _ _).trans (List.suffix_append _ _))

/-- Two endings of one name: one ends the other. -/
theorem endsWith_both {n a b : String} (ha : EndsWith n a) (hb : EndsWith n b) :
    EndsWith b a ∨ EndsWith a b :=
  List.suffix_or_suffix_of_suffix ha hb

end Gosqlite
namespace Gosqlite

theorem isDoc_iff (s : String) : IsDoc s = true ↔ DocEnding s := by
  unfold IsDoc DocEnding
  simp only [← hasSuffix_iff]
  by_cases h1 : HasSuffix s ".doc" = true <;> by_cases h2 : HasSuffix s ".ppt" = true <;>
  by_cases h3 : HasSuffix s ".xls" = true <;> by_cases h4 : HasSuffix s ".docx" = true <;>
  by_cases h5 : HasSuffix s ".pptx" = true <;> by_cases h6 : HasSuffix s ".xlsx" = true <;>
  by_cases h7 : HasSuffix s ".pdf" = true <;> by_cases h8 : HasSuffix s ".one" = true <;>
  simp [h1, h2, h3, h4, h5, h6, h7, h8]

theorem isVideo_iff (s : String) : IsVideo s = true ↔ VideoEnding s := by
  unfold IsVideo VideoEnding
  simp only [← hasSuffix_iff]
  by_cases h1 : HasSuffix s ".mp4" = true <;> simp [h1]

theorem isImage_iff (s : String) : IsImage s = true ↔ ImageEnding s := by
  unfold IsImage ImageEnding
  simp only [← hasSuffix_iff]
  by_cases h1 : HasSuffix s ".jpg" = true <;> by_cases h2 : HasSuffix s ".jpeg" = true <;>
  by_cases h3 : HasSuffix s ".png" = true <;> by_cases h4 : HasSuffix s ".gif" = true <;>
  simp [h1, h2, h3, h4]

theorem isTextFile_iff (s : String) : IsTextFile s = true ↔ TextEnding s := by
  unfold IsTextFile TextEnding
  simp only [← hasSuffix_iff]
  by_cases h1 : HasSuffix s ".txt" = true <;> by_cases h2 : HasSuffix s ".json" = true <;>
  by_cases h3 : HasSuffix s ".html" = true <;> simp [h1, h2, h3]

theorem docEnding_fullNameOf (p n : String) : DocEnding (fullNameOf p n) ↔ DocEnding n := by
  unfold DocEnding
  rw [endsWith_fullNameOf p n _ (by decide), endsWith_fullNameOf p n _ (by decide),
    endsWith_fullNameOf p n _ (by decide), endsWith_fullNameOf p n _ (by decide),
    endsWith_fullNameOf p n _ (by decide), endsWith_fullNameOf p n _ (by decide),
    endsWith_fullNameOf p n _ (by decide), endsWith_fullNameOf p n _ (by decide)]

theorem videoEnding_fullNameOf (p n : String) :
    VideoEnding (fullNameOf p n) ↔ VideoEnding n := by
  unfold VideoEnding
  rw [endsWith_fullNameOf p n _ (by decide)]

theorem imageEnding_fullNameOf (p n : String) :
    ImageEnding (fullNameOf p n) ↔ ImageEnding n := by
  unfold ImageEnding
  rw [endsWith_fullNameOf p n _ (by decide), endsWith_fullNameOf p n _ (by decide),
    endsWith_fullNameOf p n _ (by decide), endsWith_fullNameOf p n _ (by decide)]

theorem textEnding_fullNameOf (p n : String) :
    TextEnding (fullNameOf p n) ↔ TextEnding n := by
  unfold TextEnding
  rw [endsWith_fullNameOf p n _ (by decide), endsWith_fullNameOf p n _ (by decide),
    endsWith_fullNameOf p n _ (by decide)]

/-- No name has an ending of two classes. -/
theorem endings_disjoint (n : String) :
    (DocEnding n → ¬ VideoEnding n ∧ ¬ ImageEnding n ∧ ¬ TextEnding n) ∧
    (VideoEnding n → ¬ ImageEnding n ∧ ¬ TextEnding n) ∧
    (ImageEnding n → ¬ TextEnding n) := by
  have key : ∀ a b : String, ¬ (EndsWith b a ∨ EndsWith a b) →
      EndsWith n a → ¬ EndsWith n b := fun a b hab ha hb => hab (endsWith_both ha hb)
  unfold DocEnding VideoEnding ImageEnding TextEnding
  refine ⟨?_, ?_, ?_⟩
  · rintro (h | h | h | h | h | h | h | h) <;>
      refine ⟨?_, ?_, ?_⟩ <;>
      (try simp only [not_or]) <;>
      (repeat' constructor) <;>
      exact key _ _ (by decide) h
  · intro h
    refine ⟨?_, ?_⟩ <;> (try simp only [not_or]) <;> (repeat' constructor) <;>
      exact key _ _ (by decide) h
  · rintro (h | h | h | h) <;> simp only [not_or] <;> (repeat' constructor) <;>
      exact key _ _ (by decide) h

/-- The dispatch order read on four tests whose truth is known. -/
theorem dispatch_core (D V I T : Prop) (bd bv bi bt : Bool)
    (e1 : bd = true ↔ D) (e2 : bv = true ↔ V) (e3 : bi = true ↔ I) (e4 : bt = true ↔ T)
    (hd : D → ¬ V ∧ ¬ I ∧ ¬ T) (hv : V → ¬ I ∧ ¬ T) (hi : I → ¬ T) :
    ((if bd = true then FileClass.Document else if bv = true then FileClass.Video
        else if bi = true then FileClass.Image else if bt = true then FileClass.PlainText
        else FileClass.Opaque) = FileClass.Document ↔ D) ∧
    ((if bd = true then FileClass.Document else if bv = true then FileClass.Video
        else if bi = true then FileClass.Image else if bt = true then FileClass.PlainText
        else FileClass.Opaque) = FileClass.Video ↔ V) ∧
    ((if bd = true then FileClass.Document else if bv = true then FileClass.Video
        else if bi = true then FileClass.Image else if bt = true then FileClass.PlainText
        else FileClass.Opaque) = FileClass.Image ↔ I) ∧
    ((if bd = true then FileClass.Document else if bv = true then FileClass.Video
        else if bi = true then FileClass.Image else if bt = true then FileClass.PlainText
        else FileClass.Opaque) = FileClass.PlainText ↔ T) ∧
    ((if bd = true then FileClass.Document else if bv = true then FileClass.Video
        else if bi = true then FileClass.Image else if bt = true then FileClass.PlainText
        else FileClass.Opaque) = FileClass.Opaque ↔ ¬ D ∧ ¬ V ∧ ¬ I ∧ ¬ T) := by
  cases bd <;> cases bv <;> cases bi <;> cases bt <;> simp at e1 e2 e3 e4 <;>
    simp [e1, e2, e3, e4] <;> tauto

/-- C1: for every file name `n` (in any directory), the class the dispatch of
`postFileHandler` chooses for `parentDir/n` is Document iff `n` ends with one
of .doc .ppt .xls .docx .pptx .xlsx .pdf .one, Video iff it ends with .mp4,
Image iff it ends with .jpg .jpeg .png .gif, PlainText iff it ends with .txt
.json .html, and Opaque iff it has none of these endings; the tests are
case-sensitive. -/
theorem C1_dispatch_by_suffix (parentDir n : String) :
    (dispatchClass (fullNameOf parentDir n) = FileClass.Document ↔ DocEnding n) ∧
    (dispatchClass (fullNameOf parentDir n) = FileClass.Video ↔ VideoEnding n) ∧
    (dispatchClass (fullNameOf parentDir n) = FileClass.Image ↔ ImageEnding n) ∧
    (dispatchClass (fullNameOf parentDir n) = FileClass.PlainText ↔ TextEnding n) ∧
    (dispatchClass (fullNameOf parentDir n) = FileClass.Opaque ↔
      ¬ DocEnding n ∧ ¬ VideoEnding n ∧ ¬ ImageEnding n ∧ ¬ TextEnding n) :=
  dispatch_core _ _ _ _ _ _ _ _
    ((isDoc_iff (fullNameOf parentDir n)).trans (docEnding_fullNameOf parentDir n))
    ((isVideo_iff (fullNameOf parentDir n)).trans (videoEnding_fullNameOf parentDir n))
    ((isImage_iff (fullNameOf parentDir n)).trans (imageEnding_fullNameOf parentDir n))
    ((isTextFile_iff (fullNameOf parentDir n)).trans (textEnding_fullNameOf parentDir n))
    (endings_disjoint n).1 (endings_disjoint n).2.1 (endings_disjoint n).2.2

/-- C1, instance: `A.PDF` is Opaque, `a.pdf` is a Document. -/
theorem C1_upper_case_is_opaque :
    dispatchClass (fullNameOf "/files" "A.PDF") = FileClass.Opaque ∧
    dispatchClass (fullNameOf "/files" "a.pdf") = FileClass.Document := by
  decide

end Gosqlite
namespace Gosqlite

theorem chunkRows_nil (command path name oP oN : String) (part : Nat) :
    chunkRows command path name oP oN [] part = [] := by
  simp [chunkRows, bufferSize]

theorem chunkRows_cons (command path name oP oN : String) (rest : Bytes) (part : Nat)
    (h : rest ≠ []) :
    chunkRows command path name oP oN rest part =
      ⟨command, path, name, part, oP, oN, rest.take bufferSize⟩ ::
        chunkRows command path name oP oN (rest.drop bufferSize) (part + 1) := by
  have hlen : 0 < rest.length := List.length_pos.mpr h
  have hk : (rest.length + (bufferSize - 1)) / bufferSize =
      ((rest.drop bufferSize).length + (bufferSize - 1)) / bufferSize + 1 := by
    simp only [List.length_drop, bufferSize]
    omega
  unfold chunkRows
  rw [hk, List.range_succ_eq_map, List.map_cons, List.map_map]
  have h0 : chunkRow command path name oP oN rest part 0 =
      ⟨command, path, name, part, oP, oN, rest.take bufferSize⟩ := by
    simp [chunkRow]
  rw [h0]
  congr 1
  apply List.map_congr_left
  intro i _
  have e1 : part + (i + 1) = part + 1 + i := by omega
  have e2 : bufferSize * (i + 1) = bufferSize + bufferSize * i := by
    rw [Nat.mul_add, Nat.mul_one, Nat.add_comm]
  simp only [chunkRow, Function.comp, List.drop_drop, Nat.succ_eq_add_one, e1, e2]

end Gosqlite
namespace Gosqlite

theorem indexTextFile_trace (env : Env) (w : World) (command path name : String) (part : Nat)
    (oP oN : String) (buf : Bytes) :
    (indexTextFile env w command path name part oP oN buf).1.trace =
      w.trace ++ [Event.index ⟨command, path, name, part, oP, oN, buf⟩] := by
  unfold indexTextFile
  simp only [World.record, World.tick]
  split <;> rfl

theorem indexTextFile_files (env : Env) (w : World) (command path name : String) (part : Nat)
    (oP oN : String) (buf : Bytes) :
    (indexTextFile env w command path name part oP oN buf).1.files = w.files := by
  unfold indexTextFile
  simp only [World.record, World.tick]
  split <;> rfl

theorem indexTextFile_db (env : Env) (w : World) (command path name : String) (part : Nat)
    (oP oN : String) (buf : Bytes) :
    (indexTextFile env w command path name part oP oN buf).1.db = w.db ∨
    (indexTextFile env w command path name part oP oN buf).1.db =
      w.db ++ [⟨command, path, name, part, oP, oN, buf⟩] := by
  unfold indexTextFile
  simp only [World.record, World.tick]
  split
  · left; rfl
  · right; rfl

theorem indexTextFile_db_ok (env : Env) (hix : ∀ t r, env.indexErr t r = false) (w : World)
    (command path name : String) (part : Nat) (oP oN : String) (buf : Bytes) :
    (indexTextFile env w command path name part oP oN buf).1.db =
      w.db ++ [⟨command, path, name, part, oP, oN, buf⟩] := by
  unfold indexTextFile
  simp only [World.record, World.tick, hix]
  rfl

/-- What the read loop does, given fuel beyond the bytes left. -/
theorem indexLoop_spec (env : Env) (command path name oP oN : String) :
    ∀ (fuel : Nat) (content : Bytes) (pos part : Nat) (w : World),
      (content.drop pos).length < fuel →
      (indexLoop env command path name oP oN fuel ⟨content, pos⟩ part w).trace =
          w.trace ++ (chunkRows command path name oP oN (content.drop pos) part).map
            Event.index ∧
      (indexLoop env command path name oP oN fuel ⟨content, pos⟩ part w).files = w.files ∧
      (∃ X, (indexLoop env command path name oP oN fuel ⟨content, pos⟩ part w).db =
          w.db ++ X ∧ X.Sublist (chunkRows command path name oP oN (content.drop pos) part)) ∧
      ((∀ t r, env.indexErr t r = false) →
        (indexLoop env command path name oP oN fuel ⟨content, pos⟩ part w).db =
          w.db ++ chunkRows command path name oP oN (content.drop pos) part) := by
  intro fuel
  induction fuel with
  | zero => intro content pos part w h; exact absurd h (Nat.not_lt_zero _)
  | succ fuel ih =>
    intro content pos part w h
    by_cases hrest : content.drop pos = []
    · have hread : (File.mk content pos).Read bufferSize = ([], true, ⟨content, pos⟩) := by
        simp [File.Read, hrest]
      simp only [indexLoop, hread, hrest, chunkRows_nil, List.map_nil, List.append_nil,
        true_and, implies_true, and_true]
      exact ⟨[], by simp, List.Sublist.refl _⟩
    · have hread : (File.mk content pos).Read bufferSize =
          ((content.drop pos).take bufferSize, false,
            ⟨content, pos + min bufferSize (content.drop pos).length⟩) := by
        simp [File.Read, hrest]
      have hdrop : content.drop (pos + min bufferSize (content.drop pos).length) =
          (content.drop pos).drop bufferSize := by
        rw [List.drop_drop]
        by_cases hle : bufferSize ≤ (content.drop pos).length
        · rw [Nat.min_eq_left hle]
        · have hlt : (content.drop pos).length ≤ bufferSize := by omega
          rw [Nat.min_eq_right hlt]
          have h1 : content.drop (pos + (content.drop pos).length) = [] := by
            apply List.drop_eq_nil_of_le
            simp only [List.length_drop]
            omega
          have h2 : content.drop (pos + bufferSize) = [] := by
            apply List.drop_eq_nil_of_le
            simp only [List.length_drop] at hlt
            omega
          rw [h1, h2]
      have hfuel : (content.drop (pos + min bufferSize (content.drop pos).length)).length
          < fuel := by
        rw [hdrop, List.length_drop]
        have : 0 < (content.drop pos).length := List.length_pos.mpr hrest
        simp only [bufferSize]
        omega
      obtain ⟨i1, i2, ⟨X, i3, i3s⟩, i4⟩ := ih content
        (pos + min bufferSize (content.drop pos).length) (part + 1)
        (indexTextFile env w command path name part oP oN
          ((content.drop pos).take bufferSize)).1 hfuel
      simp only [indexLoop, hread]
      rw [chunkRows_cons _ _ _ _ _ _ _ hrest]
      rw [hdrop] at i1 i3s i4
      refine ⟨?_, ?_, ?_, ?_⟩
      · rw [i1, indexTextFile_trace]
        simp
      · rw [i2, indexTextFile_files]
      · rcases indexTextFile_db env w command path name part oP oN
          ((content.drop pos).take bufferSize) with hdb | hdb
        · exact ⟨X, by rw [i3, hdb], List.Sublist.cons _ i3s⟩
        · refine ⟨_ :: X, by rw [i3, hdb]; simp, List.Sublist.cons₂ _ i3s⟩
      · intro hix
        rw [i4 hix, indexTextFile_db_ok env hix]
        simp

end Gosqlite
namespace Gosqlite

theorem World.ext_fields {a b : World} (h1 : a.files = b.files) (h2 : a.db = b.db)
    (h3 : a.trace = b.trace) (h4 : a.clock = b.clock) : a = b := by
  cases a; cases b; simp_all

/-- The first part of `postFileHandler` when the store obeys. -/
theorem store_ok_world (env : Env) (hok : StoreOk env) (w0 : World) (stream : Stream)
    (c : IngestCall) :
    (ioCopy env (((w0.record (Event.ingest c)).tick.writeFile
        (fullNameOf c.parentDir c.name) []).tick) (fullNameOf c.parentDir c.name) stream) =
      (w0.stored c stream.data, stream.fails) := by
  unfold ioCopy
  rw [hok.copy]
  simp only [World.stored, World.writeFile, World.tick, World.record, World.content]
  congr 1
  apply World.ext_fields
  · funext p
    by_cases hp : p = fullNameOf c.parentDir c.name <;> simp [hp]
  · rfl
  · rfl
  · rfl

theorem postFileHandler_nocascade (env : Env) (hok : StoreOk env) (d : Nat) (w0 : World)
    (stream : Stream) (hs : stream.fails = false)
    (command parentDir name oP oN : String) :
    postFileHandler env (d + 1) w0 stream command parentDir name oP oN false =
      (w0.stored ⟨command, parentDir, name, oP, oN, false⟩ stream.data, none) := by
  have h := store_ok_world env hok w0 stream ⟨command, parentDir, name, oP, oN, false⟩
  simp only [postFileHandler, hok.mkdir, hok.create, Bool.false_eq_true, if_false,
    Bool.and_false, h, hs]

end Gosqlite
namespace Gosqlite

theorem existingSize_stored_other (w0 : World) (c : IngestCall) (data : Bytes) (p : String)
    (hp : p ≠ fullNameOf c.parentDir c.name) :
    (w0.stored c data).existingSize p = w0.existingSize p := by
  simp [World.existingSize, World.stored, hp]

theorem content_stored (w0 : World) (c : IngestCall) (data : Bytes) :
    (w0.stored c data).content (fullNameOf c.parentDir c.name) = data := by
  simp [World.content, World.stored]

/-- A PlainText name with cascade, when the store obeys: the artifact is
written and the read loop runs from the size the destination had before. -/
theorem postFileHandler_text (env : Env) (hok : StoreOk env) (d : Nat) (w0 : World)
    (stream : Stream) (hs : stream.fails = false)
    (command parentDir name oP oN : String)
    (h1 : IsDoc (fullNameOf parentDir name) = false)
    (h2 : IsVideo (fullNameOf parentDir name) = false)
    (h3 : IsImage (fullNameOf parentDir name) = false)
    (h4 : IsTextFile (fullNameOf parentDir name) = true) :
    postFileHandler env (d + 1) w0 stream command parentDir name oP oN true =
      (indexLoop env command (parentDir ++ "/") name (oP ++ "/") oN (stream.data.length + 1)
        ⟨stream.data, w0.existingSize (fullNameOf parentDir name)⟩ 0
        (w0.stored ⟨command, parentDir, name, oP, oN, true⟩ stream.data).tick, none) := by
  have h := store_ok_world env hok w0 stream ⟨command, parentDir, name, oP, oN, true⟩
  have he : ((w0.record (Event.ingest ⟨command, parentDir, name, oP, oN, true⟩)).tick).existingSize
      (fullNameOf parentDir name) = w0.existingSize (fullNameOf parentDir name) := rfl
  have hc : (w0.stored ⟨command, parentDir, name, oP, oN, true⟩ stream.data).tick.content
      (fullNameOf parentDir name) = stream.data :=
    content_stored w0 ⟨command, parentDir, name, oP, oN, true⟩ stream.data
  have hf : (if w0.existingSize (fullNameOf parentDir name) > 0 then
      (File.mk stream.data 0).Seek (w0.existingSize (fullNameOf parentDir name))
      else File.mk stream.data 0) =
      ⟨stream.data, w0.existingSize (fullNameOf parentDir name)⟩ := by
    by_cases hz : w0.existingSize (fullNameOf parentDir name) > 0
    · simp [hz, File.Seek]
    · have : w0.existingSize (fullNameOf parentDir name) = 0 := by omega
      simp [this]
  simp only [postFileHandler, hok.mkdir, hok.create, hok.reopen, Bool.false_eq_true, if_false,
    Bool.and_true, h, hs, h1, h2, h3, h4, if_true, he, hc, hf]

end Gosqlite
namespace Gosqlite

theorem endsWith_append (n s t : String) (h : EndsWith s t) : EndsWith (n ++ s) t := by
  unfold EndsWith at *
  rw [String.data_append]
  exact h.trans (List.suffix_append _ _)

theorem textEnding_extract (name : String) : TextEnding (name ++ "--extract.txt") :=
  Or.inl (endsWith_append name "--extract.txt" ".txt" (by decide))

theorem textEnding_labels (name : String) : TextEnding (name ++ "--labels.json") :=
  Or.inr (Or.inl (endsWith_append name "--labels.json" ".json" (by decide)))

/-- A name with a PlainText ending passes none of the three earlier tests. -/
theorem text_class_tests (parentDir n : String) (h : TextEnding n) :
    IsDoc (fullNameOf parentDir n) = false ∧ IsVideo (fullNameOf parentDir n) = false ∧
    IsImage (fullNameOf parentDir n) = false ∧ IsTextFile (fullNameOf parentDir n) = true := by
  obtain ⟨hd, hv, hi⟩ := endings_disjoint n
  refine ⟨?_, ?_, ?_, ?_⟩
  · rw [Bool.eq_false_iff]
    intro hc
    exact (hd ((docEnding_fullNameOf parentDir n).mp ((isDoc_iff _).mp hc))).2.2 h
  · rw [Bool.eq_false_iff]
    intro hc
    exact (hv ((videoEnding_fullNameOf parentDir n).mp ((isVideo_iff _).mp hc))).2 h
  · rw [Bool.eq_false_iff]
    intro hc
    exact hi ((imageEnding_fullNameOf parentDir n).mp ((isImage_iff _).mp hc)) h
  · exact (isTextFile_iff _).mpr ((textEnding_fullNameOf parentDir n).mpr h)

theorem fullNameOf_append_ne (p n s : String) (hs : s ≠ "") :
    fullNameOf p (n ++ s) ≠ fullNameOf p n := by
  intro h
  have h1 := congrArg String.length h
  simp only [fullNameOf, String.length_append] at h1
  have h2 : s.length = 0 := by omega
  apply hs
  have h3 : s.data = [] := List.length_eq_zero.mp h2
  exact String.ext h3

theorem fullNameOf_inj_name (p a b : String) (h : fullNameOf p a = fullNameOf p b) : a = b := by
  have h1 := congrArg String.data h
  simp only [fullNameOf_data] at h1
  have h2 := List.append_cancel_left h1
  exact String.ext (List.cons.inj h2).2

theorem append_inj_right (n a b : String) (h : n ++ a = n ++ b) : a = b := by
  have h1 := congrArg String.data h
  simp only [String.data_append] at h1
  exact String.ext (List.append_cancel_left h1)

end Gosqlite
namespace Gosqlite

theorem extLoop_body (xs rest acc : List Char) (h : ∀ x ∈ xs, x ≠ '/' ∧ x ≠ '.') :
    extLoop (xs ++ '.' :: rest) acc = '.' :: (xs.reverse ++ acc) := by
  induction xs generalizing acc with
  | nil => simp [extLoop]
  | cons x xs ih =>
    have hx := h x (List.mem_cons_self _ _)
    have ih2 := ih (x :: acc) (fun y hy => h y (List.mem_cons_of_mem _ hy))
    rw [List.cons_append, extLoop, if_neg hx.1, if_neg hx.2, ih2, List.reverse_cons,
      List.append_assoc, List.singleton_append]

/-- `path.Ext` of a path that ends with a dot followed by letters and digits
is that ending. -/
theorem ext_of_ending (full : String) (body : List Char)
    (hb : ∀ x ∈ body, x ≠ '/' ∧ x ≠ '.') (h : ('.' :: body) <:+ full.data) :
    Ext full = ⟨'.' :: body⟩ := by
  obtain ⟨pre, hpre⟩ := h
  unfold Ext
  rw [← hpre, List.reverse_append, List.reverse_cons, List.append_assoc,
    List.singleton_append,
    extLoop_body body.reverse pre.reverse [] (fun x hx => hb x (List.mem_reverse.mp hx))]
  simp

theorem toLower_ascii_lower (lr : Char → Char) (s : String)
    (h : ∀ c ∈ s.data, c.toNat < 128 ∧ ¬ ('A'.toNat ≤ c.toNat ∧ c.toNat ≤ 'Z'.toNat)) :
    ToLower lr s = s := by
  unfold ToLower
  apply String.ext
  show s.data.map (toLowerRune lr) = s.data
  conv_rhs => rw [← List.map_id s.data]
  apply List.map_congr_left
  intro c hc
  obtain ⟨h1, h2⟩ := h c hc
  unfold toLowerRune
  rw [if_pos h1, if_neg h2]
  rfl

/-- The test of main.go 342-343 on a Document name: it holds exactly when the
name ends with `.pdf`. -/
theorem pdf_test_iff (lr : Char → Char) (full : String) (hdoc : DocEnding full) :
    ToLower lr (Ext full) = ".pdf" ↔ EndsWith full ".pdf" := by
  have key : ∀ suf : String, (∃ body, suf.data = '.' :: body ∧ ∀ x ∈ body, x ≠ '/' ∧ x ≠ '.') →
      (∀ c ∈ suf.data, c.toNat < 128 ∧ ¬ ('A'.toNat ≤ c.toNat ∧ c.toNat ≤ 'Z'.toNat)) →
      EndsWith full suf → ToLower lr (Ext full) = suf := by
    intro suf ⟨body, hb1, hb2⟩ hlow hend
    have : Ext full = suf := by
      rw [ext_of_ending full body hb2 (hb1 ▸ hend)]
      exact String.ext hb1.symm
    rw [this]
    exact toLower_ascii_lower lr suf hlow
  have other : ∀ suf : String, ¬ (EndsWith ".pdf" suf ∨ EndsWith suf ".pdf") → suf ≠ ".pdf" →
      ToLower lr (Ext full) = suf → EndsWith full suf →
      (ToLower lr (Ext full) = ".pdf" ↔ EndsWith full ".pdf") := by
    intro suf hno hne heq hend
    constructor
    · intro h; exact absurd (heq.symm.trans h) hne
    · intro h; exact absurd (endsWith_both hend h) hno
  rcases hdoc with h | h | h | h | h | h | h | h
  · exact other ".doc" (by decide) (by decide) (key ".doc" ⟨_, rfl, by decide⟩ (by decide) h) h
  · exact other ".ppt" (by decide) (by decide) (key ".ppt" ⟨_, rfl, by decide⟩ (by decide) h) h
  · exact other ".xls" (by decide) (by decide) (key ".xls" ⟨_, rfl, by decide⟩ (by decide) h) h
  · exact other ".docx" (by decide) (by decide) (key ".docx" ⟨_, rfl, by decide⟩ (by decide) h) h
  · exact other ".pptx" (by decide) (by decide) (key ".pptx" ⟨_, rfl, by decide⟩ (by decide) h) h
  · exact other ".xlsx" (by decide) (by decide) (key ".xlsx" ⟨_, rfl, by decide⟩ (by decide) h) h
  · exact ⟨fun _ => h, fun _ => key ".pdf" ⟨_, rfl, by decide⟩ (by decide) h⟩
  · exact other ".one" (by decide) (by decide) (key ".one" ⟨_, rfl, by decide⟩ (by decide) h) h

end Gosqlite
namespace Gosqlite

@[simp] theorem World.record_clock (w : World) (e : Event) : (w.record e).clock = w.clock := rfl
@[simp] theorem World.record_files (w : World) (e : Event) : (w.record e).files = w.files := rfl
@[simp] theorem World.record_db (w : World) (e : Event) : (w.record e).db = w.db := rfl
@[simp] theorem World.record_trace (w : World) (e : Event) :
    (w.record e).trace = w.trace ++ [e] := rfl
@[simp] theorem World.tick_clock (w : World) : w.tick.clock = w.clock + 1 := rfl
@[simp] theorem World.tick_files (w : World) : w.tick.files = w.files := rfl
@[simp] theorem World.tick_db (w : World) : w.tick.db = w.db := rfl
@[simp] theorem World.tick_trace (w : World) : w.tick.trace = w.trace := rfl
@[simp] theorem World.stored_db (w : World) (c : IngestCall) (b : Bytes) :
    (w.stored c b).db = w.db := rfl
@[simp] theorem World.stored_trace (w : World) (c : IngestCall) (b : Bytes) :
    (w.stored c b).trace = w.trace ++ [Event.ingest c] := rfl
@[simp] theorem World.stored_clock (w : World) (c : IngestCall) (b : Bytes) :
    (w.stored c b).clock = w.clock + 3 := rfl
theorem World.stored_files (w : World) (c : IngestCall) (b : Bytes) (p : String) :
    (w.stored c b).files p =
      if p = fullNameOf c.parentDir c.name then some b else w.files p := rfl

/-- A Document name with cascade, when the store obeys and the extraction
answers `rdr`: the run, step by step. -/
theorem postFileHandler_doc (env : Env) (hok : StoreOk env) (d : Nat) (w0 : World)
    (stream : Stream) (hs : stream.fails = false)
    (command parentDir name oP oN : String)
    (hdoc : IsDoc (fullNameOf parentDir name) = true)
    (rdr : Stream) (hr : rdr.fails = false)
    (hext : ∀ t, env.DocExtract t (fullNameOf parentDir name) stream.data = some rdr) :
    postFileHandler env (d + 2) w0 stream command parentDir name oP oN true =
      (if EndsWith name ".pdf" then
        match env.pdfThumbnail
          (w0.afterExtract env ⟨command, parentDir, name, oP, oN, true⟩ stream.data
            rdr.data).clock ("./" ++ fullNameOf parentDir name) with
        | none =>
          (((w0.afterExtract env ⟨command, parentDir, name, oP, oN, true⟩ stream.data
            rdr.data).record (Event.pdfThumbnail ("./" ++ fullNameOf parentDir name))).tick,
            some Err.thumbnail)
        | some png =>
          ((((w0.afterExtract env ⟨command, parentDir, name, oP, oN, true⟩ stream.data
            rdr.data).record (Event.pdfThumbnail ("./" ++ fullNameOf parentDir name))).tick).stored
            ⟨command, parentDir, name ++ "--thumbnail.png", oP, oN, false⟩ png, none)
      else
        (w0.afterExtract env ⟨command, parentDir, name, oP, oN, true⟩ stream.data rdr.data,
          none)) := by
  have h := store_ok_world env hok w0 stream ⟨command, parentDir, name, oP, oN, true⟩
  have hc : ((w0.stored ⟨command, parentDir, name, oP, oN, true⟩ stream.data).tick.record
      (Event.docExtract (fullNameOf parentDir name))).content
      (fullNameOf parentDir name) = stream.data :=
    content_stored w0 ⟨command, parentDir, name, oP, oN, true⟩ stream.data
  obtain ⟨t1, t2, t3, t4⟩ := text_class_tests parentDir _ (textEnding_extract name)
  have hx := postFileHandler_text env hok d
    (((w0.stored ⟨command, parentDir, name, oP, oN, true⟩ stream.data).tick.record
      (Event.docExtract (fullNameOf parentDir name))).tick) rdr hr command parentDir
    (name ++ "--extract.txt") oP oN t1 t2 t3 t4
  have hsize : (((w0.stored ⟨command, parentDir, name, oP, oN, true⟩ stream.data).tick.record
      (Event.docExtract (fullNameOf parentDir name))).tick).existingSize
        (fullNameOf parentDir (name ++ "--extract.txt")) =
      w0.existingSize (fullNameOf parentDir (name ++ "--extract.txt")) :=
    existingSize_stored_other w0 ⟨command, parentDir, name, oP, oN, true⟩ stream.data _
      (fullNameOf_append_ne parentDir name "--extract.txt" (by decide))
  rw [hsize] at hx
  have hx2 : postFileHandler env (d + 1)
      (((w0.stored ⟨command, parentDir, name, oP, oN, true⟩ stream.data).tick.record
        (Event.docExtract (fullNameOf parentDir name))).tick) rdr command parentDir
      (name ++ "--extract.txt") oP oN true =
      (w0.afterExtract env ⟨command, parentDir, name, oP, oN, true⟩ stream.data rdr.data,
        none) := hx
  have hpdf := (pdf_test_iff env.lowerRune _ ((isDoc_iff _).mp hdoc)).trans
    (endsWith_fullNameOf parentDir name ".pdf" (by decide))
  rw [postFileHandler]
  simp only [hok.mkdir, hok.create, hok.reopen, Bool.false_eq_true, if_false,
    Bool.and_true, h, hs, hdoc, if_true, hc, hext, hx2]
  by_cases hp : EndsWith name ".pdf"
  · rw [if_pos hp, if_pos (hpdf.mpr hp)]
    simp only [World.record_clock]
    cases hth : env.pdfThumbnail
        (w0.afterExtract env ⟨command, parentDir, name, oP, oN, true⟩ stream.data rdr.data).clock
        ("./" ++ fullNameOf parentDir name) with
    | none => rfl
    | some png =>
      simp only []
      rw [postFileHandler_nocascade env hok d _ ⟨png, false⟩ rfl]
  · rw [if_neg hp, if_neg (fun hc => hp (hpdf.mp hc))]

end Gosqlite
namespace Gosqlite

theorem dispatch_text (f : String) (h : dispatchClass f = FileClass.PlainText) :
    IsDoc f = false ∧ IsVideo f = false ∧ IsImage f = false ∧ IsTextFile f = true := by
  unfold dispatchClass at h
  cases h1 : IsDoc f <;> cases h2 : IsVideo f <;> cases h3 : IsImage f <;>
    cases h4 : IsTextFile f <;> simp [h1, h2, h3, h4] at h ⊢

theorem dispatch_doc (f : String) (h : dispatchClass f = FileClass.Document) :
    IsDoc f = true := by
  unfold dispatchClass at h
  cases h1 : IsDoc f <;> cases h2 : IsVideo f <;> cases h3 : IsImage f <;>
    cases h4 : IsTextFile f <;> simp [h1, h2, h3, h4] at h ⊢

theorem dispatch_image (f : String) (h : dispatchClass f = FileClass.Image) :
    IsDoc f = false ∧ IsVideo f = false ∧ IsImage f = true := by
  unfold dispatchClass at h
  cases h1 : IsDoc f <;> cases h2 : IsVideo f <;> cases h3 : IsImage f <;>
    cases h4 : IsTextFile f <;> simp [h1, h2, h3, h4] at h ⊢

theorem newEvents_append (w0 w1 : World) (l : List Event) (h : w1.trace = w0.trace ++ l) :
    newEvents w0 w1 = l := by
  simp [newEvents, h]

theorem newRows_append (w0 w1 : World) (l : List IndexRecord) (h : w1.db = w0.db ++ l) :
    newRows w0 w1 = l := by
  simp [newRows, h]

theorem indexAttempts_map_index (l : List IndexRecord) :
    indexAttempts (l.map Event.index) = l := by
  induction l with
  | nil => rfl
  | cons a l ih => simp [indexAttempts, ih]

theorem indexAttempts_append (a b : List Event) :
    indexAttempts (a ++ b) = indexAttempts a ++ indexAttempts b := by
  induction a with
  | nil => rfl
  | cons x a ih => cases x <;> simp [indexAttempts, ih]

theorem ingestCalls_append (a b : List Event) :
    ingestCalls (a ++ b) = ingestCalls a ++ ingestCalls b := by
  induction a with
  | nil => rfl
  | cons x a ih => cases x <;> simp [ingestCalls, ih]

theorem ingestCalls_map_index (l : List IndexRecord) :
    ingestCalls (l.map Event.index) = [] := by
  induction l with
  | nil => rfl
  | cons a l ih => simp [ingestCalls, ih]

/-- The chunks of `rest`, put end to end, are `rest`. -/
theorem chunkRows_join (command path name oP oN : String) :
    ∀ (n : Nat) (rest : Bytes) (part : Nat), rest.length ≤ n →
      ((chunkRows command path name oP oN rest part).map IndexRecord.content).flatten = rest := by
  intro n
  induction n with
  | zero =>
    intro rest part h
    have : rest = [] := List.length_eq_zero.mp (Nat.le_zero.mp h)
    subst this
    simp [chunkRows_nil]
  | succ n ih =>
    intro rest part h
    by_cases hr : rest = []
    · subst hr; simp [chunkRows_nil]
    · rw [chunkRows_cons _ _ _ _ _ _ _ hr]
      have hl : (rest.drop bufferSize).length ≤ n := by
        have : 0 < rest.length := List.length_pos.mpr hr
        simp only [List.length_drop, bufferSize]
        omega
      simp only [List.map_cons, List.flatten_cons, ih _ (part + 1) hl, List.take_append_drop]

theorem chunkRows_length (command path name oP oN : String) (rest : Bytes) (part : Nat) :
    (chunkRows command path name oP oN rest part).length =
      (rest.length + (bufferSize - 1)) / bufferSize := by
  simp [chunkRows]

theorem chunkRows_get (command path name oP oN : String) (rest : Bytes) (part i : Nat)
    (h : i < (rest.length + (bufferSize - 1)) / bufferSize) :
    (chunkRows command path name oP oN rest part)[i]? =
      some (chunkRow command path name oP oN rest part i) := by
  simp [chunkRows, List.getElem?_range h]

end Gosqlite
namespace Gosqlite

/-- The events and files of the PlainText branch, when the store obeys. -/
theorem text_run (env : Env) (hok : StoreOk env) (d : Nat) (w0 : World)
    (stream : Stream) (hs : stream.fails = false) (command parentDir name oP oN : String)
    (htext : dispatchClass (fullNameOf parentDir name) = FileClass.PlainText) :
    (postFileHandler env (d + 1) w0 stream command parentDir name oP oN true).2 = none ∧
    newEvents w0 (postFileHandler env (d + 1) w0 stream command parentDir name oP oN true).1 =
      Event.ingest ⟨command, parentDir, name, oP, oN, true⟩ ::
        (chunkRows command (parentDir ++ "/") name (oP ++ "/") oN
          (stream.data.drop (w0.existingSize (fullNameOf parentDir name))) 0).map Event.index ∧
    (postFileHandler env (d + 1) w0 stream command parentDir name oP oN true).1.content
      (fullNameOf parentDir name) = stream.data ∧
    (newRows w0 (postFileHandler env (d + 1) w0 stream command parentDir name oP oN true).1).Sublist
      (chunkRows command (parentDir ++ "/") name (oP ++ "/") oN
          (stream.data.drop (w0.existingSize (fullNameOf parentDir name))) 0) ∧
    ((∀ t r, env.indexErr t r = false) →
      newRows w0 (postFileHandler env (d + 1) w0 stream command parentDir name oP oN true).1 =
        chunkRows command (parentDir ++ "/") name (oP ++ "/") oN
          (stream.data.drop (w0.existingSize (fullNameOf parentDir name))) 0) := by
  obtain ⟨h1, h2, h3, h4⟩ := dispatch_text _ htext
  rw [postFileHandler_text env hok d w0 stream hs command parentDir name oP oN h1 h2 h3 h4]
  obtain ⟨i1, i2, ⟨X, i3, i3s⟩, i4⟩ := indexLoop_spec env command (parentDir ++ "/") name
    (oP ++ "/") oN (stream.data.length + 1) stream.data
    (w0.existingSize (fullNameOf parentDir name)) 0
    (w0.stored ⟨command, parentDir, name, oP, oN, true⟩ stream.data).tick
    (by simp only [List.length_drop]; omega)
  refine ⟨rfl, ?_, ?_, ?_, ?_⟩
  · apply newEvents_append
    rw [i1]
    simp
  · simp only [World.content, i2, World.tick_files, World.stored_files, if_true, Option.getD_some]
  · rw [newRows_append w0 _ X (by rw [i3]; simp)]
    exact i3s
  · intro hix
    apply newRows_append
    rw [i4 hix]
    simp

theorem existingSize_none (w : World) (p : String) (h : w.files p = none) :
    w.existingSize p = 0 := by
  simp [World.existingSize, h]

/-- C6: an ingest of a PlainText name with cascade whose destination did not
exist, whose stream has `n` bytes and whose store operations succeed, returns
nil and attempts exactly `ceil(n/4096)` index insertions, in order, numbered
`0, 1, ...`; insertion `i` carries the bytes `[4096*i, min(4096*(i+1), n))` of
the stream, so every chunk has at most 4096 bytes, every chunk but the last
has exactly 4096, the chunks put end to end are the stream, and an empty
stream inserts nothing. -/
theorem C6_fresh_text_chunks (env : Env) (hok : StoreOk env) (d : Nat) (w0 : World)
    (stream : Stream) (hs : stream.fails = false) (command parentDir name oP oN : String)
    (htext : dispatchClass (fullNameOf parentDir name) = FileClass.PlainText)
    (hnew : w0.files (fullNameOf parentDir name) = none) :
    (postFileHandler env (d + 1) w0 stream command parentDir name oP oN true).2 = none ∧
    indexAttempts (newEvents w0
        (postFileHandler env (d + 1) w0 stream command parentDir name oP oN true).1) =
      (List.range ((stream.data.length + 4095) / 4096)).map (fun i =>
        (⟨command, parentDir ++ "/", name, i, oP ++ "/", oN,
          (stream.data.drop (4096 * i)).take 4096⟩ : IndexRecord)) ∧
    (∀ i, i < (stream.data.length + 4095) / 4096 →
      ((stream.data.drop (4096 * i)).take 4096).length ≤ 4096 ∧
      (i + 1 < (stream.data.length + 4095) / 4096 →
        ((stream.data.drop (4096 * i)).take 4096).length = 4096)) ∧
    ((List.range ((stream.data.length + 4095) / 4096)).map (fun i =>
        (stream.data.drop (4096 * i)).take 4096)).flatten = stream.data ∧
    (stream.data = [] → indexAttempts (newEvents w0
        (postFileHandler env (d + 1) w0 stream command parentDir name oP oN true).1) = []) := by
  obtain ⟨r1, r2, _, _, _⟩ := text_run env hok d w0 stream hs command parentDir name oP oN htext
  rw [existingSize_none w0 _ hnew, List.drop_zero] at r2
  have hatt : indexAttempts (newEvents w0
        (postFileHandler env (d + 1) w0 stream command parentDir name oP oN true).1) =
      (List.range ((stream.data.length + 4095) / 4096)).map (fun i =>
        (⟨command, parentDir ++ "/", name, i, oP ++ "/", oN,
          (stream.data.drop (4096 * i)).take 4096⟩ : IndexRecord)) := by
    rw [r2]
    simp only [indexAttempts, indexAttempts_map_index, chunkRows, bufferSize]
    apply List.map_congr_left
    intro i _
    simp [chunkRow, bufferSize]
  refine ⟨r1, hatt, ?_, ?_, ?_⟩
  · intro i hi
    refine ⟨by simp only [List.length_take]; omega, ?_⟩
    intro hi2
    simp only [List.length_take, List.length_drop]
    omega
  · have hj := chunkRows_join command (parentDir ++ "/") name (oP ++ "/") oN
      stream.data.length stream.data 0 (Nat.le_refl _)
    have he : (List.range ((stream.data.length + 4095) / 4096)).map (fun i =>
        (stream.data.drop (4096 * i)).take 4096) =
        (chunkRows command (parentDir ++ "/") name (oP ++ "/") oN stream.data 0).map
          IndexRecord.content := by
      simp only [chunkRows, bufferSize, List.map_map]
      apply List.map_congr_left
      intro i _
      simp [chunkRow, bufferSize]
    rw [he, hj]
  · intro he
    rw [hatt, he]
    rfl

/-- C6, witness: three bytes sent to the new file `/files/a.txt`. -/
theorem C6_fresh_text_chunks_witness :
    (postFileHandler Env.ok 1 World.empty ⟨[104, 105, 10], false⟩ "files" "/files" "a.txt"
      "/files" "a.txt" true).2 = none ∧
    indexAttempts (newEvents World.empty
        (postFileHandler Env.ok 1 World.empty ⟨[104, 105, 10], false⟩ "files" "/files" "a.txt"
          "/files" "a.txt" true).1) =
      [⟨"files", "/files/", "a.txt", 0, "/files/", "a.txt", [104, 105, 10]⟩] := by
  have h := C6_fresh_text_chunks Env.ok ⟨fun _ _ => rfl, fun _ _ => rfl, fun _ _ => rfl,
    fun _ _ => rfl⟩ 0 World.empty ⟨[104, 105, 10], false⟩ rfl "files" "/files" "a.txt"
    "/files" "a.txt" (by decide) rfl
  exact ⟨h.1, h.2.1.trans (by decide)⟩

end Gosqlite
namespace Gosqlite

/-- C4, counterexample: `/files/a.txt` holds `s = 1` byte indexed as part 0
(`m = 1`); an `append` of two bytes inserts one row, and that row has part 0,
not part 1. -/
theorem C4_append_numbering_restarts :
    World.oneByteIndexed.existingSize "/files/a.txt" = 1 ∧
    (postFileHandler Env.ok 1 World.oneByteIndexed ⟨[50, 51], false⟩ "append" "/files" "a.txt"
      "/files" "a.txt" true).2 = none ∧
    newRows World.oneByteIndexed
      (postFileHandler Env.ok 1 World.oneByteIndexed ⟨[50, 51], false⟩ "append" "/files" "a.txt"
        "/files" "a.txt" true).1 =
      [⟨"append", "/files/", "a.txt", 0, "/files/", "a.txt", [51]⟩] ∧
    ¬ ((newRows World.oneByteIndexed
      (postFileHandler Env.ok 1 World.oneByteIndexed ⟨[50, 51], false⟩ "append" "/files" "a.txt"
        "/files" "a.txt" true).1).map IndexRecord.part = [1]) := by
  decide

/-- C4, amended: an ingest with the verb `append` of a PlainText name with
cascade, whose destination held `s` bytes (the bytes `P`; `s > 0` included)
and whose store operations succeed, returns nil and attempts index insertions only for the bytes of the
resulting file beyond offset `s`, in blocks of 4096 bytes numbered
`0, 1, ...`: the numbering restarts at 0. The rows added to the table are
among those attempted, in the same order. -/
theorem C4_append_indexes_tail_from_zero (env : Env) (hok : StoreOk env) (d : Nat)
    (w0 : World) (stream : Stream) (hs : stream.fails = false)
    (parentDir name oP oN : String)
    (htext : dispatchClass (fullNameOf parentDir name) = FileClass.PlainText)
    (P : Bytes) (hP : w0.files (fullNameOf parentDir name) = some P) :
    (postFileHandler env (d + 1) w0 stream "append" parentDir name oP oN true).2 = none ∧
    indexAttempts (newEvents w0
        (postFileHandler env (d + 1) w0 stream "append" parentDir name oP oN true).1) =
      (List.range (((((postFileHandler env (d + 1) w0 stream "append" parentDir name oP oN
          true).1.content (fullNameOf parentDir name)).drop P.length).length + 4095) / 4096)).map
        (fun i => (⟨"append", parentDir ++ "/", name, i, oP ++ "/", oN,
          ((((postFileHandler env (d + 1) w0 stream "append" parentDir name oP oN
            true).1.content (fullNameOf parentDir name)).drop P.length).drop (4096 * i)).take
              4096⟩ : IndexRecord)) ∧
    (newRows w0 (postFileHandler env (d + 1) w0 stream "append" parentDir name oP oN
        true).1).Sublist
      (indexAttempts (newEvents w0
        (postFileHandler env (d + 1) w0 stream "append" parentDir name oP oN true).1)) := by
  obtain ⟨r1, r2, r3, r4, _⟩ :=
    text_run env hok d w0 stream hs "append" parentDir name oP oN htext
  have hsz : w0.existingSize (fullNameOf parentDir name) = P.length := by
    simp [World.existingSize, hP]
  rw [hsz] at r2 r4
  have hatt : indexAttempts (newEvents w0
        (postFileHandler env (d + 1) w0 stream "append" parentDir name oP oN true).1) =
      chunkRows "append" (parentDir ++ "/") name (oP ++ "/") oN
        (stream.data.drop P.length) 0 := by
    rw [r2]
    simp only [indexAttempts, indexAttempts_map_index]
  refine ⟨r1, ?_, ?_⟩
  · rw [hatt, r3]
    simp only [chunkRows, bufferSize]
    apply List.map_congr_left
    intro i _
    simp [chunkRow, bufferSize]
  · rw [hatt]
    exact r4

/-- C4, amended, witness: the run of the counterexample. -/
theorem C4_append_indexes_tail_from_zero_witness :
    indexAttempts (newEvents World.oneByteIndexed
        (postFileHandler Env.ok 1 World.oneByteIndexed ⟨[50, 51], false⟩ "append" "/files"
          "a.txt" "/files" "a.txt" true).1) =
      [⟨"append", "/files/", "a.txt", 0, "/files/", "a.txt", [51]⟩] := by
  have h := C4_append_indexes_tail_from_zero Env.ok ⟨fun _ _ => rfl, fun _ _ => rfl,
    fun _ _ => rfl, fun _ _ => rfl⟩ 0 World.oneByteIndexed ⟨[50, 51], false⟩ rfl "/files"
    "a.txt" "/files" "a.txt" (by decide) [49] (by decide)
  exact h.2.1.trans (by decide)

/-- C5, failing input: `/files/log.bin` holds `1, 2`; an ingest with the verb
`append` of the one byte `3` succeeds and leaves the file holding `3` alone,
not `1, 2, 3`: `os.Create` truncated it. -/
theorem C5_append_truncates :
    World.twoBytes.files "/files/log.bin" = some [1, 2] ∧
    (postFileHandler Env.ok 1 World.twoBytes ⟨[3], false⟩ "append" "/files" "log.bin"
      "/files" "log.bin" true).2 = none ∧
    (postFileHandler Env.ok 1 World.twoBytes ⟨[3], false⟩ "append" "/files" "log.bin"
      "/files" "log.bin" true).1.files "/files/log.bin" = some [3] := by
  decide

/-- C3, failing input: `/files/a.doc--extract.txt` holds one byte from an
earlier upload; a new upload of `/files/a.doc` with the verb `files`, whose
extraction is `hello`, leaves the extract file holding `hello` but inserts a
single row whose content is `ello`: the read loop skipped as many bytes as
the old extract had. -/
theorem C3_reupload_skips_old_size :
    (postFileHandler Env.extractsHello 2 World.oldExtract ⟨[1], false⟩ "files" "/files" "a.doc"
      "/files" "a.doc" true).2 = none ∧
    (postFileHandler Env.extractsHello 2 World.oldExtract ⟨[1], false⟩ "files" "/files" "a.doc"
      "/files" "a.doc" true).1.files "/files/a.doc--extract.txt" = some helloBytes ∧
    newRows World.oldExtract
      (postFileHandler Env.extractsHello 2 World.oldExtract ⟨[1], false⟩ "files" "/files" "a.doc"
        "/files" "a.doc" true).1 =
      [⟨"files", "/files/", "a.doc--extract.txt", 0, "/files/", "a.doc", [101, 108, 108, 111]⟩] ∧
    ((newRows World.oldExtract
      (postFileHandler Env.extractsHello 2 World.oldExtract ⟨[1], false⟩ "files" "/files" "a.doc"
        "/files" "a.doc" true).1).map IndexRecord.content).flatten ≠ helloBytes := by
  decide

end Gosqlite
namespace Gosqlite

/-- The first part of `postFileHandler` when its three store operations
succeed. -/
theorem store_step (env : Env) (w0 : World) (stream : Stream) (c : IngestCall)
    (hcp : env.copyErr (w0.clock + 1 + 1) (fullNameOf c.parentDir c.name) = none) :
    (ioCopy env (((w0.record (Event.ingest c)).tick.writeFile
        (fullNameOf c.parentDir c.name) []).tick) (fullNameOf c.parentDir c.name) stream) =
      (w0.stored c stream.data, stream.fails) := by
  unfold ioCopy
  have hclk : (((w0.record (Event.ingest c)).tick.writeFile
        (fullNameOf c.parentDir c.name) []).tick).clock = w0.clock + 1 + 1 := rfl
  rw [hclk, hcp]
  simp only [World.stored, World.writeFile, World.tick, World.record, World.content]
  congr 1
  apply World.ext_fields
  · funext p
    by_cases hp : p = fullNameOf c.parentDir c.name <;> simp [hp]
  · rfl
  · rfl
  · rfl

/-- C2, counterexample: the image `/files/a.png` is written and its thumbnail
is made and stored, the label service is enabled and its call returns an
error: the ingest returns an error, not nil. -/
theorem C2_label_service_error_returned :
    dispatchClass (fullNameOf "/files" "a.png") = FileClass.Image ∧
    Env.labelServiceDown.useVisionAPI = true ∧
    (postFileHandler Env.labelServiceDown 2 World.empty ⟨[1], false⟩ "files" "/files" "a.png"
      "/files" "a.png" true).1.files "/files/a.png" = some [1] ∧
    (postFileHandler Env.labelServiceDown 2 World.empty ⟨[1], false⟩ "files" "/files" "a.png"
      "/files" "a.png" true).1.files "/files/a.png--thumbnail.png" = some [137, 80] ∧
    (postFileHandler Env.labelServiceDown 2 World.empty ⟨[1], false⟩ "files" "/files" "a.png"
      "/files" "a.png" true).2 = some Err.labels := by
  decide

/-- C2, amended: an ingest of an Image name with cascade and the label service
enabled, in which the artifact write succeeds (directory, creation, copy),
the thumbnail is made and its ingestion returns nil, ending in the world `w6`:
if the label service then answers and the ingestion of `<name>--labels.json`
returns an error, the ingest of the image returns nil all the same; if the
call of the label service itself returns an error, the ingest returns that
error. -/
theorem C2_label_ingest_failure_swallowed (env : Env) (d : Nat) (w0 : World)
    (stream : Stream) (command parentDir name oP oN : String)
    (himg : dispatchClass (fullNameOf parentDir name) = FileClass.Image)
    (hvision : env.useVisionAPI = true)
    (hmk : env.mkdirAllErr w0.clock parentDir = false)
    (hcr : env.createErr (w0.clock + 1) (fullNameOf parentDir name) = false)
    (hcp : env.copyErr (w0.clock + 1 + 1) (fullNameOf parentDir name) = none)
    (hs : stream.fails = false)
    (png : Bytes)
    (hth : env.makeThumbnail (w0.clock + 3) ("./" ++ fullNameOf parentDir name) = some png)
    (w6 : World)
    (hti : postFileHandler env (d + 1)
      ((w0.stored ⟨command, parentDir, name, oP, oN, true⟩ stream.data).record
        (Event.makeThumbnail ("./" ++ fullNameOf parentDir name))).tick ⟨png, false⟩ command
      parentDir (name ++ "--thumbnail.png") oP oN false = (w6, none)) :
    (∀ (json : Bytes) (w8 : World) (e : Err),
      env.detectLabels w6.clock ("./" ++ fullNameOf parentDir name) = some json →
      postFileHandler env (d + 1)
        (w6.record (Event.detectLabels ("./" ++ fullNameOf parentDir name))).tick ⟨json, false⟩
        command parentDir (name ++ "--labels.json") oP oN true = (w8, some e) →
      e ≠ Err.depth ∧
      postFileHandler env (d + 2) w0 stream command parentDir name oP oN true = (w8, none)) ∧
    (env.detectLabels w6.clock ("./" ++ fullNameOf parentDir name) = none →
      (postFileHandler env (d + 2) w0 stream command parentDir name oP oN true).2 =
        some Err.labels) := by
  obtain ⟨h1, h2, h3⟩ := dispatch_image _ himg
  have h := store_step env w0 stream ⟨command, parentDir, name, oP, oN, true⟩ hcp
  have hunfold : postFileHandler env (d + 2) w0 stream command parentDir name oP oN true =
      match env.detectLabels w6.clock ("./" ++ fullNameOf parentDir name) with
      | none =>
        ((w6.record (Event.detectLabels ("./" ++ fullNameOf parentDir name))).tick,
          some Err.labels)
      | some json =>
        match postFileHandler env (d + 1)
          (w6.record (Event.detectLabels ("./" ++ fullNameOf parentDir name))).tick
          ⟨json, false⟩ command parentDir (name ++ "--labels.json") oP oN true with
        | (w8, some e) => (w8, if e = Err.depth then some Err.depth else none)
        | (w8, none) => (w8, none) := by
    rw [postFileHandler]
    simp only [World.record_clock, World.tick_clock, World.stored_clock, hmk, hcr, h, hs, h1, h2,
      h3, hvision,
      hth, hti, Bool.false_eq_true, if_false, if_true, Bool.and_true, Bool.true_and]
  refine ⟨?_, ?_⟩
  · intro json w8 e hlab hfail
    have hne : e ≠ Err.depth := by
      obtain ⟨t1, t2, t3, _⟩ := text_class_tests parentDir _ (textEnding_labels name)
      intro he
      subst he
      have := congrArg Prod.snd hfail
      rw [postFileHandler] at this
      simp only [t1, t2, t3, Bool.false_and, Bool.false_eq_true, if_false] at this
      split_ifs at this <;> simp at this
    refine ⟨hne, ?_⟩
    rw [hunfold, hlab]
    simp only [hfail, if_neg hne]
  · intro hlab
    rw [hunfold, hlab]

end Gosqlite
namespace Gosqlite

/-- C2, amended, witness: the creation of `/files/a.png--labels.json` fails;
the ingest of `/files/a.png` returns nil. -/
theorem C2_label_ingest_failure_swallowed_witness :
    dispatchClass (fullNameOf "/files" "a.png") = FileClass.Image ∧
    (postFileHandler Env.labelStoreDown 2 World.empty ⟨[1], false⟩ "files" "/files" "a.png"
      "/files" "a.png" true).2 = none ∧
    (postFileHandler Env.labelStoreDown 2 World.empty ⟨[1], false⟩ "files" "/files" "a.png"
      "/files" "a.png" true).1.files "/files/a.png--labels.json" = none := by
  have h := C2_label_ingest_failure_swallowed Env.labelStoreDown 0 World.empty ⟨[1], false⟩
    "files" "/files" "a.png" "/files" "a.png" (by decide) rfl rfl (by decide) rfl rfl
    [137, 80] rfl
    (postFileHandler Env.labelStoreDown 1
      ((World.empty.stored ⟨"files", "/files", "a.png", "/files", "a.png", true⟩ [1]).record
        (Event.makeThumbnail ("./" ++ fullNameOf "/files" "a.png"))).tick ⟨[137, 80], false⟩
      "files" "/files" ("a.png" ++ "--thumbnail.png") "/files" "a.png" false).1
    (Prod.ext rfl (by decide))
  have h2 := h.1 [123, 125]
    (postFileHandler Env.labelStoreDown 1
      (((postFileHandler Env.labelStoreDown 1
        ((World.empty.stored ⟨"files", "/files", "a.png", "/files", "a.png", true⟩ [1]).record
          (Event.makeThumbnail ("./" ++ fullNameOf "/files" "a.png"))).tick ⟨[137, 80], false⟩
        "files" "/files" ("a.png" ++ "--thumbnail.png") "/files" "a.png" false).1).record
          (Event.detectLabels ("./" ++ fullNameOf "/files" "a.png"))).tick ⟨[123, 125], false⟩
      "files" "/files" ("a.png" ++ "--labels.json") "/files" "a.png" true).1
    Err.create rfl (Prod.ext rfl (by decide))
  exact ⟨by decide, by rw [h2.2], by decide⟩

end Gosqlite
namespace Gosqlite

@[simp] theorem World.writeFile_db (w : World) (p : String) (b : Bytes) :
    (w.writeFile p b).db = w.db := rfl
@[simp] theorem World.writeFile_trace (w : World) (p : String) (b : Bytes) :
    (w.writeFile p b).trace = w.trace := rfl
@[simp] theorem World.writeFile_clock (w : World) (p : String) (b : Bytes) :
    (w.writeFile p b).clock = w.clock := rfl

@[simp] theorem ioCopy_db (env : Env) (w : World) (f : String) (s : Stream) :
    (ioCopy env w f s).1.db = w.db := by
  unfold ioCopy
  split <;> rfl

@[simp] theorem ioCopy_trace (env : Env) (w : World) (f : String) (s : Stream) :
    (ioCopy env w f s).1.trace = w.trace := by
  unfold ioCopy
  split <;> rfl

theorem RowsAdded.of_eq {w0 w1 : World} {P : IndexRecord → Prop} (h : w1.db = w0.db) :
    RowsAdded w0 w1 P :=
  ⟨[], by simp [h], by simp⟩

theorem RowsAdded.trans {w0 w1 w2 : World} {P : IndexRecord → Prop}
    (h1 : RowsAdded w0 w1 P) (h2 : RowsAdded w1 w2 P) : RowsAdded w0 w2 P := by
  obtain ⟨X, hX, hP⟩ := h1
  obtain ⟨Y, hY, hQ⟩ := h2
  refine ⟨X ++ Y, by rw [hY, hX, List.append_assoc], ?_⟩
  intro r hr
  rcases List.mem_append.mp hr with h | h
  · exact hP r h
  · exact hQ r h

theorem RowsAdded.mono {w0 w1 : World} {P Q : IndexRecord → Prop}
    (h : RowsAdded w0 w1 P) (hPQ : ∀ r, P r → Q r) : RowsAdded w0 w1 Q := by
  obtain ⟨X, hX, hP⟩ := h
  exact ⟨X, hX, fun r hr => hPQ r (hP r hr)⟩

theorem RowsAdded.db_eq_left {w0 w0' w1 : World} {P : IndexRecord → Prop}
    (h : RowsAdded w0' w1 P) (he : w0'.db = w0.db) : RowsAdded w0 w1 P := by
  obtain ⟨X, hX, hP⟩ := h
  exact ⟨X, by rw [hX, he], hP⟩

/-- Whatever the fuel, the read loop adds only rows with the key it was given. -/
theorem indexLoop_rows (env : Env) (command parentDir name oP oN : String) :
    ∀ (fuel : Nat) (f : File) (part : Nat) (w : World),
      RowsAdded w (indexLoop env command (parentDir ++ "/") name (oP ++ "/") oN fuel f part w)
        (RowKey command parentDir name oP oN) := by
  intro fuel
  induction fuel with
  | zero => intro f part w; exact RowsAdded.of_eq rfl
  | succ fuel ih =>
    intro f part w
    rw [indexLoop]
    split
    · exact RowsAdded.of_eq rfl
    · rename_i buf f1 _
      refine RowsAdded.trans ?_ (ih f1 (part + 1) _)
      rcases indexTextFile_db env w command (parentDir ++ "/") name part (oP ++ "/") oN buf
        with h | h
      · exact RowsAdded.of_eq h
      · refine ⟨[_], h, ?_⟩
        intro r hr
        rw [List.mem_singleton] at hr
        subst hr
        exact ⟨rfl, rfl, rfl, rfl, rfl⟩

/-- A call without cascade adds no row. -/
theorem nocascade_db (env : Env) (d : Nat) (w : World) (s : Stream)
    (command parentDir name oP oN : String) :
    (postFileHandler env d w s command parentDir name oP oN false).1.db = w.db := by
  cases d with
  | zero => rfl
  | succ d =>
    rw [postFileHandler]
    simp only [Bool.and_false, Bool.false_eq_true, if_false]
    split_ifs <;> simp

/-- A call on a PlainText name adds only rows with its own key. -/
theorem text_rows (env : Env) (d : Nat) (w : World) (s : Stream)
    (command parentDir name oP oN : String) (cascade : Bool)
    (h1 : IsDoc (fullNameOf parentDir name) = false)
    (h2 : IsVideo (fullNameOf parentDir name) = false)
    (h3 : IsImage (fullNameOf parentDir name) = false) :
    RowsAdded w (postFileHandler env d w s command parentDir name oP oN cascade).1
      (RowKey command parentDir name oP oN) := by
  cases d with
  | zero => exact RowsAdded.of_eq rfl
  | succ d =>
    rw [postFileHandler]
    simp only [h1, h2, h3, Bool.false_and, Bool.false_eq_true, if_false]
    split_ifs
    all_goals first
      | exact (indexLoop_rows env command parentDir name oP oN _ _ _ _).db_eq_left (by simp)
      | exact RowsAdded.of_eq (by simp)

end Gosqlite
namespace Gosqlite

/-- `postFileHandler` at a positive depth, as the composition of its steps. -/
theorem postFileHandler_succ (env : Env) (d : Nat) (w0 : World) (stream : Stream)
    (command parentDir name oP oN : String) (cascade : Bool) :
    postFileHandler env (d + 1) w0 stream command parentDir name oP oN cascade =
      if env.mkdirAllErr w0.clock parentDir then
        ((w0.record (Event.ingest ⟨command, parentDir, name, oP, oN, cascade⟩)).tick,
          some Err.mkdir)
      else if env.createErr (w0.clock + 1) (fullNameOf parentDir name) then
        ((w0.record (Event.ingest ⟨command, parentDir, name, oP, oN, cascade⟩)).tick.tick,
          some Err.create)
      else if (copyStep env w0 stream ⟨command, parentDir, name, oP, oN, cascade⟩).2 then
        ((copyStep env w0 stream ⟨command, parentDir, name, oP, oN, cascade⟩).1, some Err.write)
      else if IsDoc (fullNameOf parentDir name) && cascade then
        docStep env (fun w s n c => postFileHandler env d w s command parentDir n oP oN c)
          (copyStep env w0 stream ⟨command, parentDir, name, oP, oN, cascade⟩).1
          (fullNameOf parentDir name) name cascade
      else if IsVideo (fullNameOf parentDir name) && cascade then
        videoStep env (fun w s n c => postFileHandler env d w s command parentDir n oP oN c)
          (copyStep env w0 stream ⟨command, parentDir, name, oP, oN, cascade⟩).1
          (fullNameOf parentDir name) name
      else if IsImage (fullNameOf parentDir name) && cascade then
        imageStep env (fun w s n c => postFileHandler env d w s command parentDir n oP oN c)
          (copyStep env w0 stream ⟨command, parentDir, name, oP, oN, cascade⟩).1
          (fullNameOf parentDir name) name cascade
      else if IsTextFile (fullNameOf parentDir name) && cascade then
        textStep env (copyStep env w0 stream ⟨command, parentDir, name, oP, oN, cascade⟩).1
          (w0.existingSize (fullNameOf parentDir name)) command parentDir name oP oN
      else ((copyStep env w0 stream ⟨command, parentDir, name, oP, oN, cascade⟩).1, none) := by
  rw [postFileHandler]
  rfl

end Gosqlite
namespace Gosqlite

@[simp] theorem copyStep_db (env : Env) (w0 : World) (s : Stream) (c : IngestCall) :
    (copyStep env w0 s c).1.db = w0.db := by
  simp [copyStep]

theorem docStep_rows (env : Env) (recur : World → Stream → String → Bool → World × Option Err)
    (w4 : World) (fullName name : String) (cascade : Bool) (Q : IndexRecord → Prop)
    (hx : ∀ w s, RowsAdded w (recur w s (name ++ "--extract.txt") cascade).1 Q)
    (hn : ∀ w s n, (recur w s n false).1.db = w.db) :
    RowsAdded w4 (docStep env recur w4 fullName name cascade).1 Q := by
  unfold docStep
  by_cases h1 : env.openErr w4.clock fullName = true
  · rw [if_pos h1]
    exact RowsAdded.of_eq rfl
  · rw [if_neg h1]
    simp only []
    split
    · exact RowsAdded.of_eq rfl
    · rename_i rdr _
      have hx1 := hx (w4.tick.record (Event.docExtract fullName)).tick rdr
      split
      · rename_i w6 e heq
        rw [heq] at hx1
        exact hx1.db_eq_left rfl
      · rename_i w6 heq
        rw [heq] at hx1
        have hx2 : RowsAdded w4 w6 Q := hx1.db_eq_left rfl
        by_cases h2 : ToLower env.lowerRune (Ext fullName) = ".pdf"
        · rw [if_pos h2]
          split
          · exact hx2.trans (RowsAdded.of_eq rfl)
          · rename_i png _
            have hn1 := hn (w6.record (Event.pdfThumbnail ("./" ++ fullName))).tick
              ⟨png, false⟩ (name ++ "--thumbnail.png")
            split
            · rename_i w8 e heq2
              rw [heq2] at hn1
              exact hx2.trans (RowsAdded.of_eq hn1)
            · rename_i w8 heq2
              rw [heq2] at hn1
              exact hx2.trans (RowsAdded.of_eq hn1)
        · rw [if_neg h2]
          exact hx2

theorem videoStep_db (env : Env) (recur : World → Stream → String → Bool → World × Option Err)
    (w4 : World) (fullName name : String)
    (hn : ∀ w s n, (recur w s n false).1.db = w.db) :
    (videoStep env recur w4 fullName name).1.db = w4.db := by
  unfold videoStep
  simp only []
  split
  · rfl
  · rename_i png _
    have hn1 := hn (w4.record (Event.videoThumbnail ("./" ++ fullName))).tick
      ⟨png, false⟩ (name ++ "--thumbnail.png")
    split
    · rename_i w6 e heq
      rw [heq] at hn1
      exact hn1
    · rename_i w6 heq
      rw [heq] at hn1
      exact hn1

theorem imageStep_rows (env : Env) (recur : World → Stream → String → Bool → World × Option Err)
    (w4 : World) (fullName name : String) (cascade : Bool) (Q : IndexRecord → Prop)
    (hx : ∀ w s, RowsAdded w (recur w s (name ++ "--labels.json") cascade).1 Q)
    (hn : ∀ w s n, (recur w s n false).1.db = w.db) :
    RowsAdded w4 (imageStep env recur w4 fullName name cascade).1 Q := by
  unfold imageStep
  simp only []
  split
  · exact RowsAdded.of_eq rfl
  · rename_i png _
    have hn1 := hn (w4.record (Event.makeThumbnail ("./" ++ fullName))).tick
      ⟨png, false⟩ (name ++ "--thumbnail.png")
    split
    · rename_i w6 e heq
      rw [heq] at hn1
      exact RowsAdded.of_eq hn1
    · rename_i w6 heq
      rw [heq] at hn1
      have h46 : RowsAdded w4 w6 Q := RowsAdded.of_eq hn1
      by_cases hv : env.useVisionAPI = true
      · rw [if_pos hv]
        split
        · exact h46.trans (RowsAdded.of_eq rfl)
        · rename_i json _
          have hx1 := hx (w6.record (Event.detectLabels ("./" ++ fullName))).tick ⟨json, false⟩
          split
          · rename_i w8 e heq2
            rw [heq2] at hx1
            exact h46.trans (hx1.db_eq_left rfl)
          · rename_i w8 heq2
            rw [heq2] at hx1
            exact h46.trans (hx1.db_eq_left rfl)
      · rw [if_neg hv]
        exact h46

theorem textStep_rows (env : Env) (w4 : World) (existingSize : Nat)
    (command parentDir name oP oN : String) :
    RowsAdded w4 (textStep env w4 existingSize command parentDir name oP oN).1
      (RowKey command parentDir name oP oN) := by
  unfold textStep
  by_cases h1 : env.openErr w4.clock (fullNameOf parentDir name) = true
  · rw [if_pos h1]
    exact RowsAdded.of_eq rfl
  · rw [if_neg h1]
    exact (indexLoop_rows env command parentDir name oP oN _ _ _ _).db_eq_left rfl

end Gosqlite
namespace Gosqlite

theorem dispatch_of_doc (f : String) (h : IsDoc f = true) :
    dispatchClass f = FileClass.Document := by
  simp [dispatchClass, h]

theorem dispatch_of_image (f : String) (h1 : IsDoc f = false) (h2 : IsVideo f = false)
    (h3 : IsImage f = true) : dispatchClass f = FileClass.Image := by
  simp [dispatchClass, h1, h2, h3]

theorem dispatch_of_text (f : String) (h1 : IsDoc f = false) (h2 : IsVideo f = false)
    (h3 : IsImage f = false) (h4 : IsTextFile f = true) :
    dispatchClass f = FileClass.PlainText := by
  simp [dispatchClass, h1, h2, h3, h4]

/-- C7: for every call of `postFileHandler` (any depth of recursion, any
outcome of the collaborators), every row the call adds to the index, for the
file itself or for a derived artifact, has `cmd = command`,
`path = parentDir + "/"`, `original_path = originalParentDir + "/"` and
`original_name = originalName` of that call; its `name` is the name of the
artifact chunked: `name` itself for a PlainText name, `<name>--extract.txt`
for a Document, `<name>--labels.json` for an Image. -/
theorem C7_row_keys_survive_derivation (env : Env) (d : Nat) (w0 : World) (stream : Stream)
    (command parentDir name originalParentDir originalName : String) (cascade : Bool) :
    ∃ X : List IndexRecord,
      (postFileHandler env d w0 stream command parentDir name originalParentDir originalName
        cascade).1.db = w0.db ++ X ∧
      ∀ r ∈ X, r.cmd = command ∧ r.path = parentDir ++ "/" ∧
        r.original_path = originalParentDir ++ "/" ∧ r.original_name = originalName ∧
        ((dispatchClass (fullNameOf parentDir name) = FileClass.PlainText ∧ r.name = name) ∨
         (dispatchClass (fullNameOf parentDir name) = FileClass.Document ∧
            r.name = name ++ "--extract.txt") ∨
         (dispatchClass (fullNameOf parentDir name) = FileClass.Image ∧
            r.name = name ++ "--labels.json")) := by
  show RowsAdded w0 _ _
  cases d with
  | zero => exact RowsAdded.of_eq rfl
  | succ d =>
    rw [postFileHandler_succ]
    have hn : ∀ (w : World) (s : Stream) (n : String),
        ((fun w s n c => postFileHandler env d w s command parentDir n originalParentDir
          originalName c) w s n false).1.db = w.db :=
      fun w s n => nocascade_db env d w s command parentDir n originalParentDir originalName
    by_cases hmk : env.mkdirAllErr w0.clock parentDir = true
    · rw [if_pos hmk]; exact RowsAdded.of_eq rfl
    rw [if_neg hmk]
    by_cases hcr : env.createErr (w0.clock + 1) (fullNameOf parentDir name) = true
    · rw [if_pos hcr]; exact RowsAdded.of_eq rfl
    rw [if_neg hcr]
    by_cases hcp : (copyStep env w0 stream
        ⟨command, parentDir, name, originalParentDir, originalName, cascade⟩).2 = true
    · rw [if_pos hcp]; exact RowsAdded.of_eq (by simp)
    rw [if_neg hcp]
    by_cases hdoc : (IsDoc (fullNameOf parentDir name) && cascade) = true
    · rw [if_pos hdoc]
      have hd1 : IsDoc (fullNameOf parentDir name) = true := (Bool.and_eq_true _ _ ▸ hdoc).1
      obtain ⟨t1, t2, t3, _⟩ := text_class_tests parentDir _ (textEnding_extract name)
      refine (docStep_rows env _ _ _ _ _ _ ?_ hn).db_eq_left (by simp)
      intro w s
      refine (text_rows env d w s command parentDir (name ++ "--extract.txt") originalParentDir
        originalName cascade t1 t2 t3).mono ?_
      rintro r ⟨k1, k2, k3, k4, k5⟩
      exact ⟨k1, k2, k4, k5, Or.inr (Or.inl ⟨dispatch_of_doc _ hd1, k3⟩)⟩
    rw [if_neg hdoc]
    by_cases hvid : (IsVideo (fullNameOf parentDir name) && cascade) = true
    · rw [if_pos hvid]
      exact RowsAdded.of_eq (by rw [videoStep_db env _ _ _ _ hn]; simp)
    rw [if_neg hvid]
    by_cases himg : (IsImage (fullNameOf parentDir name) && cascade) = true
    · rw [if_pos himg]
      have hc : cascade = true := (Bool.and_eq_true _ _ ▸ himg).2
      have hi1 : IsImage (fullNameOf parentDir name) = true := (Bool.and_eq_true _ _ ▸ himg).1
      have hd0 : IsDoc (fullNameOf parentDir name) = false := by
        cases h : IsDoc (fullNameOf parentDir name)
        · rfl
        · simp [h, hc] at hdoc
      have hv0 : IsVideo (fullNameOf parentDir name) = false := by
        cases h : IsVideo (fullNameOf parentDir name)
        · rfl
        · simp [h, hc] at hvid
      obtain ⟨t1, t2, t3, _⟩ := text_class_tests parentDir _ (textEnding_labels name)
      refine (imageStep_rows env _ _ _ _ _ _ ?_ hn).db_eq_left (by simp)
      intro w s
      refine (text_rows env d w s command parentDir (name ++ "--labels.json") originalParentDir
        originalName cascade t1 t2 t3).mono ?_
      rintro r ⟨k1, k2, k3, k4, k5⟩
      exact ⟨k1, k2, k4, k5, Or.inr (Or.inr ⟨dispatch_of_image _ hd0 hv0 hi1, k3⟩)⟩
    rw [if_neg himg]
    by_cases htxt : (IsTextFile (fullNameOf parentDir name) && cascade) = true
    · rw [if_pos htxt]
      have hc : cascade = true := (Bool.and_eq_true _ _ ▸ htxt).2
      have ht1 : IsTextFile (fullNameOf parentDir name) = true :=
        (Bool.and_eq_true _ _ ▸ htxt).1
      have hd0 : IsDoc (fullNameOf parentDir name) = false := by
        cases h : IsDoc (fullNameOf parentDir name)
        · rfl
        · simp [h, hc] at hdoc
      have hv0 : IsVideo (fullNameOf parentDir name) = false := by
        cases h : IsVideo (fullNameOf parentDir name)
        · rfl
        · simp [h, hc] at hvid
      have hi0 : IsImage (fullNameOf parentDir name) = false := by
        cases h : IsImage (fullNameOf parentDir name)
        · rfl
        · simp [h, hc] at himg
      refine ((textStep_rows env _ _ command parentDir name originalParentDir
        originalName).mono ?_).db_eq_left (by simp)
      rintro r ⟨k1, k2, k3, k4, k5⟩
      exact ⟨k1, k2, k4, k5, Or.inl ⟨dispatch_of_text _ hd0 hv0 hi0 ht1, k3⟩⟩
    rw [if_neg htxt]
    exact RowsAdded.of_eq (by simp)

end Gosqlite
namespace Gosqlite

/-- The events up to the end of the ingestion of the extract. -/
theorem afterExtract_trace (env : Env) (w0 : World) (c : IngestCall) (data extract : Bytes) :
    (w0.afterExtract env c data extract).trace =
      w0.trace ++ ([Event.ingest c, Event.docExtract (fullNameOf c.parentDir c.name),
        Event.ingest ⟨c.command, c.parentDir, c.name ++ "--extract.txt", c.originalParentDir,
          c.originalName, c.cascade⟩] ++
        (chunkRows c.command (c.parentDir ++ "/") (c.name ++ "--extract.txt")
          (c.originalParentDir ++ "/") c.originalName
          (extract.drop (w0.existingSize (fullNameOf c.parentDir (c.name ++ "--extract.txt"))))
          0).map Event.index) := by
  unfold World.afterExtract
  rw [(indexLoop_spec env c.command (c.parentDir ++ "/") (c.name ++ "--extract.txt")
    (c.originalParentDir ++ "/") c.originalName (extract.length + 1) extract
    (w0.existingSize (fullNameOf c.parentDir (c.name ++ "--extract.txt"))) 0 _
    (by simp only [List.length_drop]; omega)).1]
  simp

theorem not_mem_map_index_pdf (l : List IndexRecord) (f : String) :
    Event.pdfThumbnail f ∉ l.map Event.index := by
  simp

theorem not_mem_map_index_ingest (l : List IndexRecord) (c : IngestCall) :
    Event.ingest c ∉ l.map Event.index := by
  simp

end Gosqlite
namespace Gosqlite

/-- C8: an ingest of a Document name with cascade, in which the store
operations succeed and the extraction answers `rdr` in full. The test of
main.go 342-343 holds exactly when the name ends with `.pdf`. The events of
the run are: the call, the extraction, the ingestion of the extract with its
index insertions, and then, exactly when the name ends with `.pdf`, the pdf
thumbnail command followed (when it succeeds) by the ingestion of
`<name>--thumbnail.png` in the same `parentDir` with cascade=false. So the
thumbnail is made only after the extract has been ingested; when the
thumbnail command fails the call returns an error, otherwise nil. `T` is the
clock at which the thumbnail command runs. -/
theorem C8_pdf_thumbnail_after_extract (env : Env) (hok : StoreOk env) (d : Nat) (w0 : World)
    (stream : Stream) (hs : stream.fails = false)
    (command parentDir name oP oN : String)
    (hdoc : dispatchClass (fullNameOf parentDir name) = FileClass.Document)
    (rdr : Stream) (hr : rdr.fails = false)
    (hext : ∀ t, env.DocExtract t (fullNameOf parentDir name) stream.data = some rdr) :
    (ToLower env.lowerRune (Ext (fullNameOf parentDir name)) = ".pdf" ↔ EndsWith name ".pdf") ∧
    ∃ (T : Nat) (rows : List IndexRecord),
      (¬ EndsWith name ".pdf" →
        newEvents w0 (postFileHandler env (d + 2) w0 stream command parentDir name oP oN true).1 =
          [Event.ingest ⟨command, parentDir, name, oP, oN, true⟩,
            Event.docExtract (fullNameOf parentDir name),
            Event.ingest ⟨command, parentDir, name ++ "--extract.txt", oP, oN, true⟩] ++
            rows.map Event.index ∧
        (postFileHandler env (d + 2) w0 stream command parentDir name oP oN true).2 = none) ∧
      (EndsWith name ".pdf" →
        (∀ png, env.pdfThumbnail T ("./" ++ fullNameOf parentDir name) = some png →
          newEvents w0
              (postFileHandler env (d + 2) w0 stream command parentDir name oP oN true).1 =
            [Event.ingest ⟨command, parentDir, name, oP, oN, true⟩,
              Event.docExtract (fullNameOf parentDir name),
              Event.ingest ⟨command, parentDir, name ++ "--extract.txt", oP, oN, true⟩] ++
              rows.map Event.index ++
              [Event.pdfThumbnail ("./" ++ fullNameOf parentDir name),
                Event.ingest ⟨command, parentDir, name ++ "--thumbnail.png", oP, oN, false⟩] ∧
          (postFileHandler env (d + 2) w0 stream command parentDir name oP oN true).1.files
            (fullNameOf parentDir (name ++ "--thumbnail.png")) = some png ∧
          (postFileHandler env (d + 2) w0 stream command parentDir name oP oN true).2 = none) ∧
        (env.pdfThumbnail T ("./" ++ fullNameOf parentDir name) = none →
          newEvents w0
              (postFileHandler env (d + 2) w0 stream command parentDir name oP oN true).1 =
            [Event.ingest ⟨command, parentDir, name, oP, oN, true⟩,
              Event.docExtract (fullNameOf parentDir name),
              Event.ingest ⟨command, parentDir, name ++ "--extract.txt", oP, oN, true⟩] ++
              rows.map Event.index ++
              [Event.pdfThumbnail ("./" ++ fullNameOf parentDir name)] ∧
          (postFileHandler env (d + 2) w0 stream command parentDir name oP oN true).2 =
            some Err.thumbnail)) ∧
      (Event.pdfThumbnail ("./" ++ fullNameOf parentDir name) ∈ newEvents w0
          (postFileHandler env (d + 2) w0 stream command parentDir name oP oN true).1 ↔
        EndsWith name ".pdf") ∧
      (∀ c ∈ ingestCalls (newEvents w0
          (postFileHandler env (d + 2) w0 stream command parentDir name oP oN true).1),
        c.name = name ++ "--thumbnail.png" →
          c = ⟨command, parentDir, name ++ "--thumbnail.png", oP, oN, false⟩) := by
  have hd := dispatch_doc _ hdoc
  have hpdf := (pdf_test_iff env.lowerRune _ ((isDoc_iff _).mp hd)).trans
    (endsWith_fullNameOf parentDir name ".pdf" (by decide))
  refine ⟨hpdf, (w0.afterExtract env ⟨command, parentDir, name, oP, oN, true⟩ stream.data
    rdr.data).clock, chunkRows command (parentDir ++ "/") (name ++ "--extract.txt")
      (oP ++ "/") oN
      (rdr.data.drop (w0.existingSize (fullNameOf parentDir (name ++ "--extract.txt")))) 0, ?_⟩
  have hrun := postFileHandler_doc env hok d w0 stream hs command parentDir name oP oN hd rdr hr
    hext
  have htr := afterExtract_trace env w0 ⟨command, parentDir, name, oP, oN, true⟩ stream.data
    rdr.data
  simp only [] at htr
  have hne1 : name ++ "--extract.txt" ≠ name ++ "--thumbnail.png" := by
    intro h
    exact absurd (append_inj_right _ _ _ h) (by decide)
  have hne2 : name ≠ name ++ "--thumbnail.png" := by
    intro h
    have := congrArg String.length h
    simp only [String.length_append] at this
    have h2 : "--thumbnail.png".length = 15 := by decide
    omega
  have hcalls0 : ingestCalls ([Event.ingest ⟨command, parentDir, name, oP, oN, true⟩,
            Event.docExtract (fullNameOf parentDir name),
            Event.ingest ⟨command, parentDir, name ++ "--extract.txt", oP, oN, true⟩] ++
            (chunkRows command (parentDir ++ "/") (name ++ "--extract.txt") (oP ++ "/") oN
              (rdr.data.drop (w0.existingSize (fullNameOf parentDir (name ++ "--extract.txt"))))
              0).map Event.index) =
      [⟨command, parentDir, name, oP, oN, true⟩,
        ⟨command, parentDir, name ++ "--extract.txt", oP, oN, true⟩] := by
    simp [ingestCalls_append, ingestCalls, ingestCalls_map_index]
  have hcalls1 : ingestCalls ([Event.ingest ⟨command, parentDir, name, oP, oN, true⟩,
            Event.docExtract (fullNameOf parentDir name),
            Event.ingest ⟨command, parentDir, name ++ "--extract.txt", oP, oN, true⟩] ++
            (chunkRows command (parentDir ++ "/") (name ++ "--extract.txt") (oP ++ "/") oN
              (rdr.data.drop (w0.existingSize (fullNameOf parentDir (name ++ "--extract.txt"))))
              0).map Event.index ++
            [Event.pdfThumbnail ("./" ++ fullNameOf parentDir name)]) =
      [⟨command, parentDir, name, oP, oN, true⟩,
        ⟨command, parentDir, name ++ "--extract.txt", oP, oN, true⟩] := by
    simp [ingestCalls_append, ingestCalls, ingestCalls_map_index]
  have hcalls2 : ingestCalls ([Event.ingest ⟨command, parentDir, name, oP, oN, true⟩,
            Event.docExtract (fullNameOf parentDir name),
            Event.ingest ⟨command, parentDir, name ++ "--extract.txt", oP, oN, true⟩] ++
            (chunkRows command (parentDir ++ "/") (name ++ "--extract.txt") (oP ++ "/") oN
              (rdr.data.drop (w0.existingSize (fullNameOf parentDir (name ++ "--extract.txt"))))
              0).map Event.index ++
            [Event.pdfThumbnail ("./" ++ fullNameOf parentDir name),
              Event.ingest ⟨command, parentDir, name ++ "--thumbnail.png", oP, oN, false⟩]) =
      [⟨command, parentDir, name, oP, oN, true⟩,
        ⟨command, parentDir, name ++ "--extract.txt", oP, oN, true⟩,
        ⟨command, parentDir, name ++ "--thumbnail.png", oP, oN, false⟩] := by
    simp [ingestCalls_append, ingestCalls, ingestCalls_map_index]
  by_cases hp : EndsWith name ".pdf"
  · rw [if_pos hp] at hrun
    cases hth : env.pdfThumbnail (w0.afterExtract env ⟨command, parentDir, name, oP, oN, true⟩
        stream.data rdr.data).clock ("./" ++ fullNameOf parentDir name) with
    | none =>
      rw [hth] at hrun
      simp only [] at hrun
      have hev : newEvents w0
          (postFileHandler env (d + 2) w0 stream command parentDir name oP oN true).1 =
          [Event.ingest ⟨command, parentDir, name, oP, oN, true⟩,
            Event.docExtract (fullNameOf parentDir name),
            Event.ingest ⟨command, parentDir, name ++ "--extract.txt", oP, oN, true⟩] ++
            (chunkRows command (parentDir ++ "/") (name ++ "--extract.txt") (oP ++ "/") oN
              (rdr.data.drop (w0.existingSize (fullNameOf parentDir (name ++ "--extract.txt"))))
              0).map Event.index ++
            [Event.pdfThumbnail ("./" ++ fullNameOf parentDir name)] :=
        newEvents_append w0 _ _ (by rw [hrun]; simp only [World.tick_trace,
          World.record_trace, htr, List.append_assoc])
      refine ⟨fun hn => absurd hp hn, fun _ => ⟨?_, ?_⟩, ?_, ?_⟩
      · intro png hpng; exact absurd hpng (by simp)
      · intro _
        refine ⟨?_, by rw [hrun]⟩
        rw [hev]
      · rw [hev]; simp [hp]
      · intro c hc hname
        rw [hev, hcalls1] at hc
        rcases List.mem_cons.mp hc with h | hc2
        · subst h; exact absurd hname hne2
        · rcases List.mem_cons.mp hc2 with h | hc3
          · subst h; exact absurd hname hne1
          · exact absurd hc3 (List.not_mem_nil _)
    | some png =>
      rw [hth] at hrun
      simp only [] at hrun
      have hev : newEvents w0
          (postFileHandler env (d + 2) w0 stream command parentDir name oP oN true).1 =
          [Event.ingest ⟨command, parentDir, name, oP, oN, true⟩,
            Event.docExtract (fullNameOf parentDir name),
            Event.ingest ⟨command, parentDir, name ++ "--extract.txt", oP, oN, true⟩] ++
            (chunkRows command (parentDir ++ "/") (name ++ "--extract.txt") (oP ++ "/") oN
              (rdr.data.drop (w0.existingSize (fullNameOf parentDir (name ++ "--extract.txt"))))
              0).map Event.index ++
            [Event.pdfThumbnail ("./" ++ fullNameOf parentDir name),
              Event.ingest ⟨command, parentDir, name ++ "--thumbnail.png", oP, oN, false⟩] :=
        newEvents_append w0 _ _ (by rw [hrun]; simp only [World.stored_trace, World.tick_trace,
          World.record_trace, htr, List.append_assoc, List.cons_append, List.nil_append])
      refine ⟨fun hn => absurd hp hn, fun _ => ⟨?_, ?_⟩, ?_, ?_⟩
      · intro png2 hpng
        have : png2 = png := by simpa using hpng.symm
        subst this
        refine ⟨?_, ?_, by rw [hrun]⟩
        · rw [hev]
        · rw [hrun]; simp [World.stored_files]
      · intro h; exact absurd h (by simp)
      · rw [hev]; simp [hp]
      · intro c hc hname
        rw [hev, hcalls2] at hc
        rcases List.mem_cons.mp hc with h | hc2
        · subst h; exact absurd hname hne2
        · rcases List.mem_cons.mp hc2 with h | hc3
          · subst h; exact absurd hname hne1
          · exact List.mem_singleton.mp hc3
  · rw [if_neg hp] at hrun
    have hev : newEvents w0
        (postFileHandler env (d + 2) w0 stream command parentDir name oP oN true).1 =
          [Event.ingest ⟨command, parentDir, name, oP, oN, true⟩,
            Event.docExtract (fullNameOf parentDir name),
            Event.ingest ⟨command, parentDir, name ++ "--extract.txt", oP, oN, true⟩] ++
            (chunkRows command (parentDir ++ "/") (name ++ "--extract.txt") (oP ++ "/") oN
              (rdr.data.drop (w0.existingSize (fullNameOf parentDir (name ++ "--extract.txt"))))
              0).map Event.index :=
      newEvents_append w0 _ _ (by rw [hrun]; exact htr)
    refine ⟨fun _ => ⟨?_, by rw [hrun]⟩, fun h => absurd h hp, ?_, ?_⟩
    · rw [hev]
    · rw [hev]; simp [hp]
    · intro c hc hname
      rw [hev, hcalls0] at hc
      rcases List.mem_cons.mp hc with h | hc2
      · subst h; exact absurd hname hne2
      · rcases List.mem_cons.mp hc2 with h | hc3
        · subst h; exact absurd hname hne1
        · exact absurd hc3 (List.not_mem_nil _)

end Gosqlite
namespace Gosqlite

/-- C8, witness: the one-byte document `/files/a.pdf` in an environment where
nothing fails and the extraction returns the byte sent. -/
theorem C8_pdf_thumbnail_after_extract_witness :
    dispatchClass (fullNameOf "/files" "a.pdf") = FileClass.Document ∧
    (ToLower Env.ok.lowerRune (Ext (fullNameOf "/files" "a.pdf")) = ".pdf" ↔
      EndsWith "a.pdf" ".pdf") ∧
    newEvents World.empty (postFileHandler Env.ok 2 World.empty ⟨[1], false⟩ "files" "/files"
        "a.pdf" "/files" "a.pdf" true).1 =
      [Event.ingest ⟨"files", "/files", "a.pdf", "/files", "a.pdf", true⟩,
        Event.docExtract "/files/a.pdf",
        Event.ingest ⟨"files", "/files", "a.pdf--extract.txt", "/files", "a.pdf", true⟩,
        Event.index ⟨"files", "/files/", "a.pdf--extract.txt", 0, "/files/", "a.pdf", [1]⟩,
        Event.pdfThumbnail ".//files/a.pdf",
        Event.ingest ⟨"files", "/files", "a.pdf--thumbnail.png", "/files", "a.pdf", false⟩] :=
  ⟨by decide,
    (C8_pdf_thumbnail_after_extract Env.ok
      ⟨fun _ _ => rfl, fun _ _ => rfl, fun _ _ => rfl, fun _ _ => rfl⟩ 0 World.empty
      ⟨[1], false⟩ rfl "files" "/files" "a.pdf" "/files" "a.pdf" (by decide) ⟨[1], false⟩ rfl
      (fun _ => rfl)).1,
    by decide⟩

end Gosqlite
namespace Gosqlite

/-- C9: for every tar stream, with `regs` its regular-file entries in stream
order: the calls of `postFileHandler` the installer makes are, in order and
once each, the calls for the first `K` entries of `regs` and for no other
entry (so never for a directory); every call but the last returned nil; if
the loop stopped on an error, the last call made is the one that returned it
(the first to fail) and no later entry was tried; otherwise every regular
entry was ingested and every call returned nil. -/
theorem C9_install_stops_at_first_error (env : Env) (d : Nat)
    (command parentDir name : String) (malformed : Bool) (entries : List TarEntry)
    (w : World) :
    (installLoop env d command parentDir name malformed entries w).calls.map Prod.fst =
      ((entries.filter (fun e => decide (e.Typeflag = TypeReg))).take
        (installLoop env d command parentDir name malformed entries w).calls.length).map
        (entryCall command parentDir name) ∧
    (installLoop env d command parentDir name malformed entries w).calls.length ≤
      (entries.filter (fun e => decide (e.Typeflag = TypeReg))).length ∧
    (∀ x ∈ (installLoop env d command parentDir name malformed entries w).calls.dropLast,
      x.2 = none) ∧
    (∀ e, (installLoop env d command parentDir name malformed entries w).outcome =
        Outcome.aborted e →
      ∃ c, (installLoop env d command parentDir name malformed entries w).calls.getLast? =
        some (c, some e)) ∧
    ((∀ e, (installLoop env d command parentDir name malformed entries w).outcome ≠
        Outcome.aborted e) →
      (installLoop env d command parentDir name malformed entries w).calls.map Prod.fst =
        (entries.filter (fun e => decide (e.Typeflag = TypeReg))).map
          (entryCall command parentDir name) ∧
      ∀ x ∈ (installLoop env d command parentDir name malformed entries w).calls,
        x.2 = none) := by
  induction entries generalizing w with
  | nil =>
    simp only [installLoop, List.filter_nil, List.map_nil, List.take_nil, List.length_nil,
      Nat.le_refl, List.dropLast_nil, List.not_mem_nil, false_implies, implies_true, true_and,
      and_true]
    intro e h
    split_ifs at h
  | cons e es ih =>
    by_cases hreg : e.Typeflag = TypeReg
    · have hfilt : (e :: es).filter (fun e => decide (e.Typeflag = TypeReg)) =
          e :: es.filter (fun e => decide (e.Typeflag = TypeReg)) := by
        simp [List.filter_cons, hreg]
      rw [hfilt]
      rw [installLoop, if_pos hreg]
      simp only []
      split
      · rename_i w1 err _
        refine ⟨by simp, by simp, by simp, ?_, ?_⟩
        · intro e2 h2
          simp only [Outcome.aborted.injEq] at h2
          subst h2
          exact ⟨_, rfl⟩
        · intro h2
          exact absurd rfl (h2 err)
      · rename_i w1 _
        obtain ⟨i1, i2, i3, i4, i5⟩ := ih w1
        refine ⟨?_, ?_, ?_, ?_, ?_⟩
        · simp only [List.map_cons, List.length_cons, List.take_succ_cons, i1]
        · simp only [List.length_cons]
          omega
        · intro x hx
          cases hc : (installLoop env d command parentDir name malformed es w1).calls with
          | nil => simp [hc] at hx
          | cons y ys =>
            rw [hc, List.dropLast_cons₂] at hx
            rcases List.mem_cons.mp hx with h | h
            · subst h; rfl
            · exact i3 x (by rw [hc]; exact h)
        · intro e2 h2
          obtain ⟨c, hc⟩ := i4 e2 h2
          refine ⟨c, ?_⟩
          cases hl : (installLoop env d command parentDir name malformed es w1).calls with
          | nil => simp [hl] at hc
          | cons y ys =>
            rw [hl] at hc
            rw [List.getLast?_cons_cons]
            exact hc
        · intro h2
          obtain ⟨j1, j2⟩ := i5 h2
          refine ⟨by simp only [List.map_cons, j1], ?_⟩
          intro x hx
          rcases List.mem_cons.mp hx with h | h
          · subst h; rfl
          · exact j2 x h
    · have hfilt : (e :: es).filter (fun e => decide (e.Typeflag = TypeReg)) =
          es.filter (fun e => decide (e.Typeflag = TypeReg)) := by
        simp [List.filter_cons, hreg]
      rw [hfilt]
      rw [installLoop, if_neg hreg]
      exact ih w

end Gosqlite
namespace Gosqlite

/-- An archive run: the directory entry causes no call, the first regular
entry is ingested, the second fails, the third is never tried. -/
theorem install_demo_run :
    (installLoop Env.labelStoreDown 2 "files" "/files" "up" false demoArchive
      World.empty).calls =
      [(⟨"files", "/files/up", "a.txt", "/files/up", "a.txt", true⟩, none),
       (⟨"files", "/files/up", "b--labels.json", "/files/up", "b--labels.json", true⟩,
         some Err.create)] ∧
    (installLoop Env.labelStoreDown 2 "files" "/files" "up" false demoArchive
      World.empty).outcome = Outcome.aborted Err.create ∧
    (installLoop Env.labelStoreDown 2 "files" "/files" "up" false demoArchive
      World.empty).world.files "/files/up/a.txt" = some [1] ∧
    (installLoop Env.labelStoreDown 2 "files" "/files" "up" false demoArchive
      World.empty).world.files "/files/up/c.txt" = none := by
  decide

end Gosqlite
namespace Gosqlite

theorem dropWhile_cons_length_lt (c : Char) (rest : List Char) (hc : c ≠ '/') :
    ((c :: rest).dropWhile (fun x => x ≠ '/')).length < (c :: rest).length := by
  have h1 : (c :: rest).dropWhile (fun x => decide (x ≠ '/')) =
      rest.dropWhile (fun x => decide (x ≠ '/')) := by
    simp [List.dropWhile_cons, hc]
  rw [h1]
  have := (List.dropWhile_suffix (fun x => decide (x ≠ '/')) (l := rest)).length_le
  simp only [List.length_cons]
  omega

/-- Beyond the length of the path, the fuel of the main loop of `Clean` does
not matter. -/
theorem cleanLoop_fuel (b : Bool) :
    ∀ (f1 f2 : Nat) (path out : List Char) (dd : Nat), path.length < f1 → path.length < f2 →
      cleanLoop b f1 path out dd = cleanLoop b f2 path out dd := by
  intro f1
  induction f1 with
  | zero => intro f2 path out dd h; exact absurd h (Nat.not_lt_zero _)
  | succ f1 ih =>
    intro f2 path out dd h1 h2
    cases f2 with
    | zero => exact absurd h2 (Nat.not_lt_zero _)
    | succ f2 =>
      cases path with
      | nil => rfl
      | cons c rest =>
        have hr1 : rest.length < f1 := by simp only [List.length_cons] at h1; omega
        have hr2 : rest.length < f2 := by simp only [List.length_cons] at h2; omega
        have ht1 : rest.tail.length < f1 := by simp only [List.length_tail]; omega
        have ht2 : rest.tail.length < f2 := by simp only [List.length_tail]; omega
        rw [cleanLoop, cleanLoop]
        by_cases c1 : c = '/'
        · rw [if_pos c1, if_pos c1]
          exact ih f2 rest out dd hr1 hr2
        rw [if_neg c1, if_neg c1]
        by_cases c2 : c = '.' ∧ (rest = [] ∨ rest.head? = some '/')
        · rw [if_pos c2, if_pos c2]
          exact ih f2 rest out dd hr1 hr2
        rw [if_neg c2, if_neg c2]
        by_cases c3 : c = '.' ∧ rest.head? = some '.' ∧
            (rest.tail = [] ∨ rest.tail.head? = some '/')
        · rw [if_pos c3, if_pos c3]
          split_ifs <;> exact ih f2 _ _ _ ht1 ht2
        rw [if_neg c3, if_neg c3]
        have hd := dropWhile_cons_length_lt c rest c1
        simp only [List.length_cons] at hd
        exact ih f2 _ _ _ (by omega) (by omega)

end Gosqlite
namespace Gosqlite

theorem head_append_slash (rest s : List Char) :
    (rest ++ '/' :: s = [] ∨ (rest ++ '/' :: s).head? = some '/') ↔
      (rest = [] ∨ rest.head? = some '/') := by
  cases rest with
  | nil => simp
  | cons a r => simp

theorem head_append_dot (rest s : List Char) :
    (rest ++ '/' :: s).head? = some '.' ↔ rest.head? = some '.' := by
  cases rest with
  | nil => simp
  | cons a r => simp

theorem takeWhile_append_slash (a s : List Char) :
    (a ++ '/' :: s).takeWhile (fun x => x ≠ '/') = a.takeWhile (fun x => x ≠ '/') := by
  induction a with
  | nil => simp [List.takeWhile_cons]
  | cons x a ih =>
    by_cases hx : x = '/'
    · simp [List.takeWhile_cons, hx]
    · simp only [List.cons_append, List.takeWhile_cons, hx, ne_eq, not_false_eq_true,
        decide_True, if_true, ih]

theorem dropWhile_append_slash (a s : List Char) :
    (a ++ '/' :: s).dropWhile (fun x => x ≠ '/') =
      a.dropWhile (fun x => x ≠ '/') ++ '/' :: s := by
  induction a with
  | nil => simp [List.dropWhile_cons]
  | cons x a ih =>
    by_cases hx : x = '/'
    · simp [List.dropWhile_cons, hx]
    · simp only [List.cons_append, List.dropWhile_cons, hx, ne_eq, not_false_eq_true,
        decide_True, if_true, ih]

/-- The main loop of `Clean` on a path followed by `/...`: it runs on the
path, then goes on from the state it reached. -/
theorem cleanLoop_append (b : Bool) :
    ∀ (fuel : Nat) (p s out : List Char) (dd : Nat), p.length < fuel →
      cleanLoop b (fuel + s.length + 1) (p ++ '/' :: s) out dd =
        cleanLoop b (s.length + 2) ('/' :: s) (cleanLoop b fuel p out dd).1
          (cleanLoop b fuel p out dd).2 := by
  intro fuel
  induction fuel with
  | zero => intro p s out dd h; exact absurd h (Nat.not_lt_zero _)
  | succ fuel ih =>
    intro p s out dd h
    cases p with
    | nil =>
      have hin : cleanLoop b (fuel + 1) [] out dd = (out, dd) := by rw [cleanLoop]
      rw [hin, List.nil_append]
      exact cleanLoop_fuel b _ _ _ _ _ (by simp only [List.length_cons]; omega)
        (by simp only [List.length_cons]; omega)
    | cons c rest =>
      have hr : rest.length < fuel := by simp only [List.length_cons] at h; omega
      have hfu : fuel + 1 + s.length + 1 = (fuel + s.length + 1) + 1 := by omega
      rw [hfu, List.cons_append]
      by_cases c1 : c = '/'
      · have hin : cleanLoop b (fuel + 1) (c :: rest) out dd = cleanLoop b fuel rest out dd := by
          rw [cleanLoop, if_pos c1]
        have hl : cleanLoop b ((fuel + s.length + 1) + 1) (c :: (rest ++ '/' :: s)) out dd =
            cleanLoop b (fuel + s.length + 1) (rest ++ '/' :: s) out dd := by
          rw [cleanLoop, if_pos c1]
        rw [hin, hl]
        exact ih rest s out dd hr
      by_cases c2 : c = '.' ∧ (rest = [] ∨ rest.head? = some '/')
      · have hin : cleanLoop b (fuel + 1) (c :: rest) out dd = cleanLoop b fuel rest out dd := by
          rw [cleanLoop, if_neg c1, if_pos c2]
        have hl : cleanLoop b ((fuel + s.length + 1) + 1) (c :: (rest ++ '/' :: s)) out dd =
            cleanLoop b (fuel + s.length + 1) (rest ++ '/' :: s) out dd := by
          rw [cleanLoop, if_neg c1, if_pos ⟨c2.1, (head_append_slash rest s).mpr c2.2⟩]
        rw [hin, hl]
        exact ih rest s out dd hr
      have c2' : ¬ (c = '.' ∧ (rest ++ '/' :: s = [] ∨ (rest ++ '/' :: s).head? = some '/')) :=
        fun hc => c2 ⟨hc.1, (head_append_slash rest s).mp hc.2⟩
      by_cases c3 : c = '.' ∧ rest.head? = some '.' ∧
          (rest.tail = [] ∨ rest.tail.head? = some '/')
      · obtain ⟨r0, rt, hrest⟩ : ∃ r0 rt, rest = r0 :: rt := by
          cases rest with
          | nil => simp at c3
          | cons r0 rt => exact ⟨r0, rt, rfl⟩
        subst hrest
        have ht : rt.length < fuel := by simp only [List.length_cons] at hr; omega
        have c3' : c = '.' ∧ (r0 :: rt ++ '/' :: s).head? = some '.' ∧
            ((r0 :: rt ++ '/' :: s).tail = [] ∨
              (r0 :: rt ++ '/' :: s).tail.head? = some '/') := by
          refine ⟨c3.1, c3.2.1, ?_⟩
          have := c3.2.2
          simp only [List.tail_cons] at this
          simp only [List.cons_append, List.tail_cons]
          exact (head_append_slash rt s).mpr this
        have hin : cleanLoop b (fuel + 1) (c :: r0 :: rt) out dd =
            if out.length > dd then
              cleanLoop b fuel rt (cleanBacktrack dd out.reverse).reverse dd
            else if !b then
              cleanLoop b fuel rt ((if out.length > 0 then out ++ ['/'] else out) ++ ['.', '.'])
                ((if out.length > 0 then out ++ ['/'] else out) ++ ['.', '.']).length
            else cleanLoop b fuel rt out dd := by
          rw [cleanLoop, if_neg c1, if_neg c2, if_pos c3]
          rfl
        have hl : cleanLoop b ((fuel + s.length + 1) + 1) (c :: (r0 :: rt ++ '/' :: s)) out dd =
            if out.length > dd then
              cleanLoop b (fuel + s.length + 1) (rt ++ '/' :: s)
                (cleanBacktrack dd out.reverse).reverse dd
            else if !b then
              cleanLoop b (fuel + s.length + 1) (rt ++ '/' :: s)
                ((if out.length > 0 then out ++ ['/'] else out) ++ ['.', '.'])
                ((if out.length > 0 then out ++ ['/'] else out) ++ ['.', '.']).length
            else cleanLoop b (fuel + s.length + 1) (rt ++ '/' :: s) out dd := by
          rw [cleanLoop, if_neg c1, if_neg c2', if_pos c3']
          rfl
        rw [hin, hl]
        split_ifs <;> exact ih rt s _ _ ht
      have c3' : ¬ (c = '.' ∧ (rest ++ '/' :: s).head? = some '.' ∧
            ((rest ++ '/' :: s).tail = [] ∨ (rest ++ '/' :: s).tail.head? = some '/')) := by
        rintro ⟨k1, k2, k3⟩
        have k2' := (head_append_dot rest s).mp k2
        obtain ⟨r0, rt, hrest⟩ : ∃ r0 rt, rest = r0 :: rt := by
          cases rest with
          | nil => simp at k2'
          | cons r0 rt => exact ⟨r0, rt, rfl⟩
        subst hrest
        simp only [List.cons_append, List.tail_cons] at k3
        exact c3 ⟨k1, k2', (head_append_slash rt s).mp k3⟩
      have e1 : (c :: (rest ++ '/' :: s)).takeWhile (fun x => x ≠ '/') =
          (c :: rest).takeWhile (fun x => x ≠ '/') := by
        rw [← List.cons_append, takeWhile_append_slash]
      have e2 : (c :: (rest ++ '/' :: s)).dropWhile (fun x => x ≠ '/') =
          (c :: rest).dropWhile (fun x => x ≠ '/') ++ '/' :: s := by
        rw [← List.cons_append, dropWhile_append_slash]
      have hin : cleanLoop b (fuel + 1) (c :: rest) out dd =
          cleanLoop b fuel ((c :: rest).dropWhile (fun x => x ≠ '/'))
            ((if (b && out.length != 1) || (!b && out.length != 0) then out ++ ['/'] else out) ++
              (c :: rest).takeWhile (fun x => x ≠ '/')) dd := by
        rw [cleanLoop, if_neg c1, if_neg c2, if_neg c3]
      have hl : cleanLoop b ((fuel + s.length + 1) + 1) (c :: (rest ++ '/' :: s)) out dd =
          cleanLoop b (fuel + s.length + 1)
            ((c :: rest).dropWhile (fun x => x ≠ '/') ++ '/' :: s)
            ((if (b && out.length != 1) || (!b && out.length != 0) then out ++ ['/'] else out) ++
              (c :: rest).takeWhile (fun x => x ≠ '/')) dd := by
        rw [cleanLoop, if_neg c1, if_neg c2', if_neg c3', e1, e2]
      rw [hin, hl]
      have hd := dropWhile_cons_length_lt c rest c1
      simp only [List.length_cons] at hd
      exact ih _ s _ _ (by omega)

end Gosqlite
namespace Gosqlite

theorem join_data (a : String) (l : List String) :
    (Join (a :: l) "/").data = a.data ++ slashJoin l := by
  induction l generalizing a with
  | nil => simp [Join, slashJoin]
  | cons b l ih =>
    rw [Join, String.data_append, String.data_append, ih b]
    simp [slashJoin]

theorem slashJoin_append (l : List String) (z : String) :
    slashJoin (l ++ [z]) = slashJoin l ++ '/' :: z.data := by
  induction l with
  | nil => simp [slashJoin]
  | cons a l ih => simp [slashJoin, ih]

theorem takeWhile_no_slash (c tail : List Char) (hc : '/' ∉ c)
    (ht : tail = [] ∨ tail.head? = some '/') :
    (c ++ tail).takeWhile (fun x => x ≠ '/') = c ∧
    (c ++ tail).dropWhile (fun x => x ≠ '/') = tail := by
  induction c with
  | nil =>
    rcases ht with h | h
    · subst h; simp
    · cases tail with
      | nil => simp
      | cons t ts =>
        simp only [List.head?_cons, Option.some.injEq] at h
        subst h
        simp [List.takeWhile_cons, List.dropWhile_cons]
  | cons x c ih =>
    have hx : x ≠ '/' := fun h => hc (h ▸ List.mem_cons_self _ _)
    obtain ⟨i1, i2⟩ := ih (fun h => hc (List.mem_cons_of_mem _ h))
    constructor
    · simp only [List.cons_append, List.takeWhile_cons, hx, ne_eq, not_false_eq_true,
        decide_True, if_true, i1]
    · simp only [List.cons_append, List.dropWhile_cons, hx, ne_eq, not_false_eq_true,
        decide_True, if_true, i2]

/-- One proper component after a slash: the loop appends `/` and the
component. -/
theorem cleanLoop_component (b : Bool) (c tail out : List Char) (dd f : Nat)
    (h0 : c ≠ []) (hs : '/' ∉ c) (h1 : c ≠ ['.']) (h2 : c ≠ ['.', '.'])
    (ht : tail = [] ∨ tail.head? = some '/') (hout : 2 ≤ out.length) :
    cleanLoop b (f + 2) ('/' :: (c ++ tail)) out dd =
      cleanLoop b f tail (out ++ '/' :: c) dd := by
  obtain ⟨k, ks, hk⟩ : ∃ k ks, c = k :: ks := by
    cases c with
    | nil => exact absurd rfl h0
    | cons k ks => exact ⟨k, ks, rfl⟩
  subst hk
  have hk1 : k ≠ '/' := fun h => hs (h ▸ List.mem_cons_self _ _)
  have hks : '/' ∉ ks := fun h => hs (List.mem_cons_of_mem _ h)
  rw [cleanLoop, if_pos rfl, List.cons_append, cleanLoop, if_neg hk1]
  have c2 : ¬ (k = '.' ∧ (ks ++ tail = [] ∨ (ks ++ tail).head? = some '/')) := by
    rintro ⟨e1, e2⟩
    cases ks with
    | nil => exact h1 (by rw [e1])
    | cons a as =>
      simp only [List.cons_append, List.head?_cons, Option.some.injEq, reduceCtorEq,
        false_or] at e2
      exact hks (e2 ▸ List.mem_cons_self _ _)
  have c3 : ¬ (k = '.' ∧ (ks ++ tail).head? = some '.' ∧
      ((ks ++ tail).tail = [] ∨ (ks ++ tail).tail.head? = some '/')) := by
    rintro ⟨e1, e2, e3⟩
    cases ks with
    | nil =>
      rcases ht with h | h
      · subst h; simp at e2
      · simp only [List.nil_append] at e2
        rw [h] at e2
        exact absurd e2 (by decide)
    | cons a as =>
      simp only [List.cons_append, List.head?_cons, Option.some.injEq] at e2
      simp only [List.cons_append, List.tail_cons] at e3
      cases as with
      | nil => exact h2 (by rw [e1, e2])
      | cons a2 as2 =>
        simp only [List.cons_append, List.head?_cons, Option.some.injEq, reduceCtorEq,
          false_or] at e3
        exact hks (List.mem_cons_of_mem _ (e3 ▸ List.mem_cons_self _ _))
  rw [if_neg c2, if_neg c3]
  obtain ⟨t1, t2⟩ := takeWhile_no_slash (k :: ks) tail hs ht
  simp only [List.cons_append] at t1 t2
  have hcond : ((b && out.length != 1) || (!b && out.length != 0)) = true := by
    have n1 : (out.length != 1) = true := by rw [bne_iff_ne]; omega
    have n0 : (out.length != 0) = true := by rw [bne_iff_ne]; omega
    cases b <;> simp [n1, n0]
  simp only [t1, t2, hcond, if_true, List.append_assoc, List.singleton_append]

theorem slashJoin_tail (l : List String) :
    slashJoin l ++ ['/'] = [] ∨ (slashJoin l ++ ['/']).head? = some '/' := by
  cases l with
  | nil => right; rfl
  | cons a l => right; rfl

/-- The loop on `/c1/.../ck/` with proper components appends `/c1/.../ck`. -/
theorem cleanLoop_components (b : Bool) (mid : List String) (hmid : ∀ c ∈ mid, Proper c) :
    ∀ (f : Nat) (out : List Char) (dd : Nat), (slashJoin mid ++ ['/']).length < f →
      2 ≤ out.length →
      (cleanLoop b f (slashJoin mid ++ ['/']) out dd).1 = out ++ slashJoin mid := by
  induction mid with
  | nil =>
    intro f out dd hf _
    cases f with
    | zero => exact absurd hf (Nat.not_lt_zero _)
    | succ f =>
      simp only [slashJoin, List.nil_append, List.append_nil]
      rw [cleanLoop, if_pos rfl]
      cases f <;> rfl
  | cons c cs ih =>
    intro f out dd hf hout
    obtain ⟨p1, p2, p3, p4⟩ := hmid c (List.mem_cons_self _ _)
    have hlen : (slashJoin (c :: cs) ++ ['/']).length =
        (slashJoin cs ++ ['/']).length + c.data.length + 1 := by
      simp [slashJoin]; omega
    have hpos : 0 < c.data.length := List.length_pos.mpr p1
    obtain ⟨g, hg⟩ : ∃ g, f = g + 2 := ⟨f - 2, by rw [hlen] at hf; omega⟩
    subst hg
    have hpath : slashJoin (c :: cs) ++ ['/'] = '/' :: (c.data ++ (slashJoin cs ++ ['/'])) := by
      simp [slashJoin]
    rw [hpath, cleanLoop_component b c.data _ out dd g p1 p2
      (fun h => p3 (String.ext h)) (fun h => p4 (String.ext h)) (slashJoin_tail cs) hout,
      ih (fun x hx => hmid x (List.mem_cons_of_mem _ hx)) g _ dd
        (by rw [hlen] at hf; omega) (by simp only [List.length_append]; omega)]
    simp [slashJoin]

end Gosqlite
namespace Gosqlite

theorem clean_of_data (p : String) (c : Char) (rest : List Char) (hp : p.data = c :: rest) :
    Clean p =
      if (if c = '/' then (cleanLoop true (rest.length + 1) rest ['/'] 1).1
          else (cleanLoop false (rest.length + 2) (c :: rest) [] 0).1).length = 0 then "."
      else ⟨if c = '/' then (cleanLoop true (rest.length + 1) rest ['/'] 1).1
          else (cleanLoop false (rest.length + 2) (c :: rest) [] 0).1⟩ := by
  unfold Clean
  rw [hp]

theorem slashJoin_slash (mid : List String) :
    ∃ s, slashJoin mid ++ ['/'] = '/' :: s := by
  cases mid with
  | nil => exact ⟨[], rfl⟩
  | cons a l => exact ⟨_, rfl⟩

/-- A clean path of two bytes or more, followed by `/c1/.../ck/` with proper
components, cleans to the path followed by `/c1/.../ck`. -/
theorem clean_extend (P : String) (mid : List String) (hclean : Clean P = P)
    (hlen : 2 ≤ P.data.length) (hmid : ∀ c ∈ mid, Proper c) :
    Clean ⟨P.data ++ (slashJoin mid ++ ['/'])⟩ = ⟨P.data ++ slashJoin mid⟩ := by
  obtain ⟨c0, prest, hP⟩ : ∃ c0 prest, P.data = c0 :: prest := by
    cases h : P.data with
    | nil => rw [h] at hlen; simp at hlen
    | cons c0 prest => exact ⟨c0, prest, rfl⟩
  obtain ⟨s, hs⟩ := slashJoin_slash mid
  have hdot : P ≠ "." := by
    intro h
    rw [h] at hlen
    exact absurd hlen (by decide)
  rw [clean_of_data P c0 prest hP] at hclean
  rw [clean_of_data ⟨P.data ++ (slashJoin mid ++ ['/'])⟩ c0 (prest ++ (slashJoin mid ++ ['/']))
    (by rw [hP]; rfl)]
  by_cases c1 : c0 = '/'
  · simp only [c1, if_true] at hclean ⊢
    have hst : (cleanLoop true (prest.length + 1) prest ['/'] 1).1 = P.data := by
      by_cases hz : (cleanLoop true (prest.length + 1) prest ['/'] 1).1.length = 0
      · rw [if_pos hz] at hclean
        exact absurd hclean.symm hdot
      · rw [if_neg hz] at hclean
        exact congrArg String.data hclean
    have hrun : (cleanLoop true ((prest ++ (slashJoin mid ++ ['/'])).length + 1)
        (prest ++ (slashJoin mid ++ ['/'])) ['/'] 1).1 = P.data ++ slashJoin mid := by
      rw [hs, cleanLoop_fuel true _ ((prest.length + 1) + s.length + 1) _ _ _
        (by simp) (by simp only [List.length_append, List.length_cons]; omega),
        cleanLoop_append true (prest.length + 1) prest s ['/'] 1 (by omega), hst, ← hs]
      exact cleanLoop_components true mid hmid _ _ _ (by rw [hs]; simp) hlen
    rw [hrun, if_neg (by simp only [List.length_append]; omega)]
  · simp only [c1, if_false] at hclean ⊢
    have hst : (cleanLoop false (prest.length + 2) (c0 :: prest) [] 0).1 = P.data := by
      by_cases hz : (cleanLoop false (prest.length + 2) (c0 :: prest) [] 0).1.length = 0
      · rw [if_pos hz] at hclean
        exact absurd hclean.symm hdot
      · rw [if_neg hz] at hclean
        exact congrArg String.data hclean
    have hrun : (cleanLoop false ((prest ++ (slashJoin mid ++ ['/'])).length + 2)
        (c0 :: (prest ++ (slashJoin mid ++ ['/']))) [] 0).1 = P.data ++ slashJoin mid := by
      rw [hs, ← List.cons_append, cleanLoop_fuel false _ ((prest.length + 2) + s.length + 1) _ _ _
        (by simp) (by simp only [List.length_append, List.length_cons]; omega),
        cleanLoop_append false (prest.length + 2) (c0 :: prest) s [] 0
          (by simp only [List.length_cons]; omega), hst, ← hs]
      exact cleanLoop_components false mid hmid _ _ _ (by rw [hs]; simp) hlen
    rw [hrun, if_neg (by simp only [List.length_append]; omega)]

end Gosqlite
namespace Gosqlite

theorem splitAux_no_sep (a rest cur : List Char) (ha : '/' ∉ a) :
    splitAux '/' (a ++ rest) cur = splitAux '/' rest (a.reverse ++ cur) := by
  induction a generalizing cur with
  | nil => rfl
  | cons x a ih =>
    have hx : x ≠ '/' := fun h => ha (h ▸ List.mem_cons_self _ _)
    rw [List.cons_append, splitAux, if_neg hx, ih _ (fun h => ha (List.mem_cons_of_mem _ h))]
    simp

theorem splitAux_slashJoin (l : List String) (hl : ∀ c ∈ l, '/' ∉ c.data) (cur : List Char) :
    splitAux '/' (slashJoin l) cur = ⟨cur.reverse⟩ :: l := by
  induction l generalizing cur with
  | nil => rfl
  | cons x xs ih =>
    rw [slashJoin, splitAux, if_pos rfl,
      splitAux_no_sep x.data _ [] (hl x (List.mem_cons_self _ _)),
      ih (fun c hc => hl c (List.mem_cons_of_mem _ hc))]
    simp

/-- `strings.Split` undoes `strings.Join` on components without `'/'`. -/
theorem split_join (a : String) (l : List String) (ha : '/' ∉ a.data)
    (hl : ∀ c ∈ l, '/' ∉ c.data) :
    Split (Join (a :: l) "/") '/' = a :: l := by
  unfold Split
  rw [join_data, splitAux_no_sep a.data _ [] ha, splitAux_slashJoin l hl]
  simp

theorem splitDir_last (X z : List Char) (hz : '/' ∉ z) :
    splitDir (X ++ '/' :: z) = X ++ ['/'] := by
  unfold splitDir
  have h1 : (X ++ '/' :: z).reverse = z.reverse ++ '/' :: X.reverse := by simp
  have h2 : (z.reverse ++ '/' :: X.reverse).dropWhile (fun c => c ≠ '/') = '/' :: X.reverse :=
    (takeWhile_no_slash z.reverse ('/' :: X.reverse)
      (fun h => hz (List.mem_reverse.mp h)) (Or.inr rfl)).2
  rw [h1, h2]
  simp

theorem base_last (p : String) (X z : List Char) (hp : p.data = X ++ '/' :: z)
    (hz0 : z ≠ []) (hz : '/' ∉ z) : Base p = ⟨z⟩ := by
  unfold Base
  have hne : p ≠ "" := by
    intro h
    rw [h] at hp
    cases X <;> simp at hp
  rw [if_neg hne, hp]
  have h1 : (X ++ '/' :: z).reverse = z.reverse ++ '/' :: X.reverse := by simp
  obtain ⟨y, ys, hy⟩ : ∃ y ys, z.reverse = y :: ys := by
    cases h : z.reverse with
    | nil => exact absurd (List.reverse_eq_nil_iff.mp h) hz0
    | cons y ys => exact ⟨y, ys, rfl⟩
  have hy1 : y ≠ '/' := by
    intro h
    apply hz
    rw [← List.mem_reverse, hy, h]
    exact List.mem_cons_self _ _
  have h2 : (z.reverse ++ '/' :: X.reverse).dropWhile (fun c => c = '/') =
      z.reverse ++ '/' :: X.reverse := by
    rw [hy]
    simp [List.dropWhile_cons, hy1]
  have h3 : (z.reverse ++ '/' :: X.reverse).takeWhile (fun c => c ≠ '/') = z.reverse :=
    (takeWhile_no_slash z.reverse ('/' :: X.reverse)
      (fun h => hz (List.mem_reverse.mp h)) (Or.inr rfl)).1
  simp only [h1, h2, h3]
  rw [if_neg (by rw [hy]; exact List.cons_ne_nil _ _)]
  simp

end Gosqlite
namespace Gosqlite

theorem slash_join_data (l : List String) (hl : l ≠ []) :
    '/' :: (Join l "/").data = slashJoin l := by
  cases l with
  | nil => exact absurd rfl hl
  | cons x xs => rw [join_data]; rfl

theorem installLoop_single (env : Env) (d : Nat) (command parentDir name : String)
    (e : TarEntry) (he : e.Typeflag = TypeReg) (w : World) :
    (installLoop env d command parentDir name false [e] w).calls.map Prod.fst =
      [entryCall command parentDir name e] := by
  rw [installLoop, if_pos he]
  simp only []
  split <;> rfl

/-- C10: for a regular tar entry named `c0/c1/.../cn` (`n >= 1`, here
`c1..c(n-1)` is `mid`) whose components are proper (not empty, no `/`, not
`.` or `..`), and for `parentDir`, `name` such that `parentDir/name` is a
clean path (`path.Clean` leaves it as it is) and `name` is not empty, the
installer calls `postFileHandler` with the directory
`parentDir/name/c1/.../c(n-1)`, the file name `cn`, the same two values as
`originalParentDir` and `originalName`, and cascade=true. -/
theorem C10_entry_destination (command parentDir name c0 cn : String) (mid : List String)
    (body : Stream)
    (hclean : Clean (parentDir ++ "/" ++ name) = parentDir ++ "/" ++ name)
    (hname : name ≠ "")
    (h0 : Proper c0) (hmid : ∀ c ∈ mid, Proper c) (hn : Proper cn) :
    entryCall command parentDir name ⟨TypeReg, Join (c0 :: (mid ++ [cn])) "/", body⟩ =
      ⟨command, Join ((parentDir ++ "/" ++ name) :: mid) "/", cn,
        Join ((parentDir ++ "/" ++ name) :: mid) "/", cn, true⟩ ∧
    ∀ (env : Env) (d : Nat) (w : World),
      (installLoop env d command parentDir name false
        [⟨TypeReg, Join (c0 :: (mid ++ [cn])) "/", body⟩] w).calls.map Prod.fst =
        [⟨command, Join ((parentDir ++ "/" ++ name) :: mid) "/", cn,
          Join ((parentDir ++ "/" ++ name) :: mid) "/", cn, true⟩] := by
  have hsplit : Split (Join (c0 :: (mid ++ [cn])) "/") '/' = c0 :: (mid ++ [cn]) := by
    apply split_join _ _ h0.2.1
    intro c hc
    rcases List.mem_append.mp hc with h | h
    · exact (hmid c h).2.1
    · rw [List.mem_singleton] at h
      subst h
      exact hn.2.1
  have hlen : 2 ≤ (parentDir ++ "/" ++ name).data.length := by
    have : name.data ≠ [] := fun h => hname (String.ext h)
    have := List.length_pos.mpr this
    simp only [String.data_append, List.length_append]
    have h1 : ['/'].length = 1 := rfl
    omega
  have hdata : (parentDir ++ "/" ++ name ++ "/" ++ Join (mid ++ [cn]) "/").data =
      ((parentDir ++ "/" ++ name).data ++ slashJoin mid) ++ '/' :: cn.data := by
    have h1 : (parentDir ++ "/" ++ name ++ "/" ++ Join (mid ++ [cn]) "/").data =
        (parentDir ++ "/" ++ name).data ++ '/' :: (Join (mid ++ [cn]) "/").data := by
      simp [String.data_append]
    rw [h1, slash_join_data _ (by simp), slashJoin_append, List.append_assoc]
  have hdir : Dir (parentDir ++ "/" ++ name ++ "/" ++ Join (mid ++ [cn]) "/") =
      Join ((parentDir ++ "/" ++ name) :: mid) "/" := by
    unfold Dir
    rw [hdata, splitDir_last _ _ hn.2.1, List.append_assoc, clean_extend _ mid hclean hlen hmid]
    exact String.ext (join_data _ _).symm
  have hbase : Base (Join (c0 :: (mid ++ [cn])) "/") = cn := by
    have hd : (Join (c0 :: (mid ++ [cn])) "/").data =
        (c0.data ++ slashJoin mid) ++ '/' :: cn.data := by
      rw [join_data, slashJoin_append, List.append_assoc]
    rw [base_last _ _ _ hd hn.1 hn.2.1]
  have hcall : entryCall command parentDir name
      ⟨TypeReg, Join (c0 :: (mid ++ [cn])) "/", body⟩ =
      ⟨command, Join ((parentDir ++ "/" ++ name) :: mid) "/", cn,
        Join ((parentDir ++ "/" ++ name) :: mid) "/", cn, true⟩ := by
    simp only [entryCall, hsplit, List.drop_succ_cons, List.drop_zero, hdir, hbase]
  refine ⟨hcall, ?_⟩
  intro env d w
  rw [installLoop_single env d command parentDir name _ rfl w, hcall]

/-- C10, witness: the entry `root/a/b.txt` installed at `/files/up`. -/
theorem C10_entry_destination_witness :
    Clean ("/files" ++ "/" ++ "up") = "/files" ++ "/" ++ "up" ∧
    entryCall "files" "/files" "up" ⟨TypeReg, "root/a/b.txt", ⟨[1], false⟩⟩ =
      ⟨"files", "/files/up/a", "b.txt", "/files/up/a", "b.txt", true⟩ := by
  have h := (C10_entry_destination "files" "/files" "up" "root" "b.txt" ["a"] ⟨[1], false⟩
    (by decide) (by decide) (by decide) (by decide) (by decide)).1
  exact ⟨by decide, h.trans (by decide)⟩

end Gosqlite

/-! ## The JSON listing of a search -/

namespace Gosqlite

theorem searchLoop_children : ∀ (rows : List SearchRow) (listing : Listing),
    (searchLoop rows listing).Children = listing.Children ++ rows.map rowNode := by
  intro rows
  induction rows with
  | nil => intro listing; simp [searchLoop]
  | cons row rows ih =>
    intro listing
    rw [searchLoop, ih]
    simp [rowNode]

/-- The children of the JSON listing of a search are the node `files`, a
directory, and then one node for each row, in row order. -/
theorem searchJson_children (rows : List SearchRow) :
    (getSearchHandlerJson rows).Children =
      { Name := "files", IsDir := true } :: rows.map rowNode := by
  unfold getSearchHandlerJson
  rw [searchLoop_children]
  rfl

/-- C11 (fails): for a query that returned the single row
`("/files/", "a.txt", 0, "<b>x</b>")` the JSON listing has two children: first
a node named `files` with `isDir = true` that comes from no row, then the node
of the row. The HTML branch of the same handler writes one item for that
row. -/
theorem C11_search_json_extra_node :
    (getSearchHandlerJson [⟨"/files/", "a.txt", 0, "<b>x</b>"⟩]).Children =
      [{ Name := "files", IsDir := true },
       { Path := "/files/", Name := "a.txt", IsDir := false, Context := "<b>x</b>" }] ∧
    (getSearchHandlerJson [⟨"/files/", "a.txt", 0, "<b>x</b>"⟩]).Children.length = 2 ∧
    (getSearchHandlerHtml [⟨"/files/", "a.txt", 0, "<b>x</b>"⟩]).length = 1 := by
  decide

end Gosqlite

/-! ## The router -/

namespace Gosqlite

theorem postFilesHandler_calls (env : Env) (depth : Nat) (w : World) (r : Request)
    (c : String) (ds : List String) (n : String) (hi : r.install = false) :
    (postFilesHandler env depth w r ("" :: c :: (ds ++ [n]))).calls.map Prod.fst =
      [⟨c, Join ("" :: "files" :: ds) "/", n, Join ("" :: "files" :: ds) "/", n, true⟩] := by
  have hlen : ¬ ("" :: c :: (ds ++ [n])).length < 2 := by simp
  have hset : ("" :: c :: (ds ++ [n])).set 1 "files" = "" :: "files" :: (ds ++ [n]) := rfl
  have htake : ("" :: "files" :: (ds ++ [n])).take
      (("" :: "files" :: (ds ++ [n])).length - 1) = "" :: "files" :: ds := by
    have h : ("" :: "files" :: (ds ++ [n])).length - 1 = ds.length + 2 := by simp
    rw [h]
    simp
  have hlast : ("" :: "files" :: (ds ++ [n])).getD
      (("" :: "files" :: (ds ++ [n])).length - 1) "" = n := by
    have h : ("" :: "files" :: (ds ++ [n])).length - 1 = ds.length + 2 := by simp
    rw [h]
    simp
  have hcmd : ("" :: c :: (ds ++ [n])).getD 1 "" = c := rfl
  unfold postFilesHandler
  rw [if_neg hlen]
  simp only [hset, htake, hlast, hcmd, hi]
  rw [if_neg (by decide)]
  split <;> rfl

/-- C12 (fails): a POST of `/append/a.txt` without `install=true` is answered
with the bare status 501 and makes no call of `postFileHandler`. -/
theorem C12_append_not_routed :
    (rootRouter Env.ok 2 World.empty (Request.upload "/append/a.txt")).calls = [] ∧
    (rootRouter Env.ok 2 World.empty (Request.upload "/append/a.txt")).code =
      some StatusNotImplemented := by
  decide

/-- C12 (amended): for a POST of `/c/d1/.../dk/n` (k ≥ 0, components without
`'/'`) without `install=true`: when `c` is `files` the router makes exactly one
call of `postFileHandler`, with command `files`, parentDir `/files/d1/.../dk`,
name `n`, the same originals and cascade = true; for every other `c` it makes
no call and answers with the status 501. -/
theorem C12_files_post_routed (env : Env) (depth : Nat) (w : World) (c : String)
    (ds : List String) (n : String) (body : Stream) (entries : List TarEntry)
    (malformed : Bool) (hc : '/' ∉ c.data) (hds : ∀ x ∈ ds, '/' ∉ x.data)
    (hn : '/' ∉ n.data) :
    (c = "files" →
      (rootRouter env depth w
        ⟨"POST", Join ("" :: c :: (ds ++ [n])) "/", false, body, entries, malformed⟩).calls =
        [⟨"files", Join ("" :: "files" :: ds) "/", n, Join ("" :: "files" :: ds) "/", n,
          true⟩]) ∧
    (c ≠ "files" →
      (rootRouter env depth w
        ⟨"POST", Join ("" :: c :: (ds ++ [n])) "/", false, body, entries, malformed⟩).calls =
        [] ∧
      (rootRouter env depth w
        ⟨"POST", Join ("" :: c :: (ds ++ [n])) "/", false, body, entries, malformed⟩).code =
        some StatusNotImplemented) := by
  have hsplit : Split (Join ("" :: c :: (ds ++ [n])) "/") '/' = "" :: c :: (ds ++ [n]) := by
    apply split_join
    · simp
    · intro x hx
      simp only [List.mem_cons, List.mem_append, List.not_mem_nil, or_false] at hx
      rcases hx with rfl | hx | rfl
      · exact hc
      · exact hds x hx
      · exact hn
  have hroute : rootRouter env depth w
      ⟨"POST", Join ("" :: c :: (ds ++ [n])) "/", false, body, entries, malformed⟩ =
      postHandler env depth w
        ⟨"POST", Join ("" :: c :: (ds ++ [n])) "/", false, body, entries, malformed⟩
        ("" :: c :: (ds ++ [n])) := by
    unfold rootRouter
    simp only [hsplit]
    rw [if_neg (by decide), if_pos trivial]
  have hcmd : ("" :: c :: (ds ++ [n])).getD 1 "" = c := rfl
  have hlen : ("" :: c :: (ds ++ [n])).length > 2 := by simp
  rw [hroute]
  unfold postHandler
  rw [hcmd]
  constructor
  · intro hf
    rw [if_pos ⟨hlen, hf⟩]
    show (postFilesHandler _ _ _ _ _).calls.map Prod.fst = _
    rw [postFilesHandler_calls env depth w _ c ds n rfl, hf]
  · intro hf
    rw [if_neg (fun h => hf h.2)]
    exact ⟨rfl, rfl⟩

theorem C12_files_post_routed_witness :
    (rootRouter Env.ok 2 World.empty
      ⟨"POST", Join ("" :: "files" :: (["d"] ++ ["a.txt"])) "/", false, ⟨[1], false⟩, [],
        false⟩).calls =
      [⟨"files", Join ("" :: "files" :: ["d"]) "/", "a.txt", Join ("" :: "files" :: ["d"]) "/",
        "a.txt", true⟩] :=
  (C12_files_post_routed Env.ok 2 World.empty "files" ["d"] "a.txt" ⟨[1], false⟩ [] false
    (by decide) (by decide) (by decide)).1 rfl

end Gosqlite

/-! ## Calls that only store -/

namespace Gosqlite

theorem dispatch_opaque (f : String) (h : dispatchClass f = FileClass.Opaque) :
    IsDoc f = false ∧ IsVideo f = false ∧ IsImage f = false ∧ IsTextFile f = false := by
  unfold dispatchClass at h
  cases h1 : IsDoc f <;> cases h2 : IsVideo f <;> cases h3 : IsImage f <;>
    cases h4 : IsTextFile f <;> simp [h1, h2, h3, h4] at h ⊢

/-- A call whose four dispatch tests fail runs main.go 281-321 and returns. -/
theorem postFileHandler_store_only (env : Env) (d : Nat) (w0 : World) (stream : Stream)
    (command parentDir name oP oN : String) (cascade : Bool)
    (h1 : (IsDoc (fullNameOf parentDir name) && cascade) = false)
    (h2 : (IsVideo (fullNameOf parentDir name) && cascade) = false)
    (h3 : (IsImage (fullNameOf parentDir name) && cascade) = false)
    (h4 : (IsTextFile (fullNameOf parentDir name) && cascade) = false) :
    postFileHandler env (d + 1) w0 stream command parentDir name oP oN cascade =
      if env.mkdirAllErr w0.clock parentDir then
        ((w0.record (Event.ingest ⟨command, parentDir, name, oP, oN, cascade⟩)).tick,
          some Err.mkdir)
      else if env.createErr (w0.clock + 1) (fullNameOf parentDir name) then
        ((w0.record (Event.ingest ⟨command, parentDir, name, oP, oN, cascade⟩)).tick.tick,
          some Err.create)
      else if (copyStep env w0 stream ⟨command, parentDir, name, oP, oN, cascade⟩).2 then
        ((copyStep env w0 stream ⟨command, parentDir, name, oP, oN, cascade⟩).1, some Err.write)
      else ((copyStep env w0 stream ⟨command, parentDir, name, oP, oN, cascade⟩).1, none) := by
  rw [postFileHandler_succ]
  simp only [h1, h2, h3, h4, Bool.false_eq_true, if_false]

@[simp] theorem copyStep_trace (env : Env) (w0 : World) (s : Stream) (c : IngestCall) :
    (copyStep env w0 s c).1.trace = w0.trace ++ [Event.ingest c] := by
  simp [copyStep]

theorem copyStep_files_other (env : Env) (w0 : World) (s : Stream) (c : IngestCall)
    (p : String) (hp : p ≠ fullNameOf c.parentDir c.name) :
    (copyStep env w0 s c).1.files p = w0.files p := by
  unfold copyStep ioCopy
  split <;> simp [World.writeFile, World.tick, World.record, hp]

theorem copyStep_ok (env : Env) (w0 : World) (s : Stream) (c : IngestCall)
    (hcopy : env.copyErr (w0.clock + 2) (fullNameOf c.parentDir c.name) = none) :
    (copyStep env w0 s c).2 = s.fails ∧
    (copyStep env w0 s c).1.files (fullNameOf c.parentDir c.name) = some s.data := by
  unfold copyStep ioCopy
  have hclk : (((w0.record (Event.ingest c)).tick.writeFile
      (fullNameOf c.parentDir c.name) []).tick).clock = w0.clock + 2 := by
    simp [World.writeFile, World.tick, World.record]
  rw [hclk, hcopy]
  simp [World.writeFile, World.tick, World.record, World.content]

/-- C13: a call of `postFileHandler` with cascade = false, or on a name of
class Opaque, adds to the trace its own entry only (no derivation service is
invoked, no recursive call is entered, no index insertion is attempted),
leaves the table of rows and every file but its destination as they were,
and, whenever `os.MkdirAll`, `os.Create` and `io.Copy` succeed, returns nil
with the destination holding the bytes of the stream. -/
theorem C13_store_only (env : Env) (d : Nat) (w0 : World) (stream : Stream)
    (command parentDir name oP oN : String) (cascade : Bool)
    (h : cascade = false ∨ dispatchClass (fullNameOf parentDir name) = FileClass.Opaque) :
    newEvents w0 (postFileHandler env (d + 1) w0 stream command parentDir name oP oN cascade).1 =
      [Event.ingest ⟨command, parentDir, name, oP, oN, cascade⟩] ∧
    (postFileHandler env (d + 1) w0 stream command parentDir name oP oN cascade).1.db = w0.db ∧
    (∀ p, p ≠ fullNameOf parentDir name →
      (postFileHandler env (d + 1) w0 stream command parentDir name oP oN cascade).1.files p =
        w0.files p) ∧
    (env.mkdirAllErr w0.clock parentDir = false →
      env.createErr (w0.clock + 1) (fullNameOf parentDir name) = false →
      env.copyErr (w0.clock + 2) (fullNameOf parentDir name) = none →
      stream.fails = false →
      (postFileHandler env (d + 1) w0 stream command parentDir name oP oN cascade).2 = none ∧
      (postFileHandler env (d + 1) w0 stream command parentDir name oP oN cascade).1.files
        (fullNameOf parentDir name) = some stream.data) := by
  have hflags : (IsDoc (fullNameOf parentDir name) && cascade) = false ∧
      (IsVideo (fullNameOf parentDir name) && cascade) = false ∧
      (IsImage (fullNameOf parentDir name) && cascade) = false ∧
      (IsTextFile (fullNameOf parentDir name) && cascade) = false := by
    rcases h with h | h
    · simp [h]
    · obtain ⟨a, b, c, e⟩ := dispatch_opaque _ h
      simp [a, b, c, e]
  obtain ⟨h1, h2, h3, h4⟩ := hflags
  rw [postFileHandler_store_only env d w0 stream command parentDir name oP oN cascade h1 h2 h3 h4]
  refine ⟨?_, ?_, ?_, ?_⟩
  · apply newEvents_append
    split_ifs <;> simp
  · split_ifs <;> simp
  · intro p hp
    have hc := copyStep_files_other env w0 stream ⟨command, parentDir, name, oP, oN, cascade⟩ p hp
    split_ifs
    · rfl
    · rfl
    · exact hc
    · exact hc
  · intro hmk hcr hcp hs
    obtain ⟨hc2, hcf⟩ :=
      copyStep_ok env w0 stream ⟨command, parentDir, name, oP, oN, cascade⟩ hcp
    rw [if_neg (by simp [hmk]), if_neg (by simp [hcr]), if_neg (by simp [hc2, hs])]
    exact ⟨rfl, hcf⟩

theorem C13_store_only_witness :
    dispatchClass (fullNameOf "/files" "a.bin") = FileClass.Opaque ∧
    newEvents World.empty
      (postFileHandler Env.ok (0 + 1) World.empty ⟨[1, 2], false⟩ "files" "/files" "a.bin"
        "/files" "a.bin" true).1 =
      [Event.ingest ⟨"files", "/files", "a.bin", "/files", "a.bin", true⟩] ∧
    (postFileHandler Env.ok (0 + 1) World.empty ⟨[1, 2], false⟩ "files" "/files" "a.bin"
      "/files" "a.bin" true).2 = none :=
  ⟨by decide,
    (C13_store_only Env.ok 0 World.empty ⟨[1, 2], false⟩ "files" "/files" "a.bin" "/files"
      "a.bin" true (Or.inr (by decide))).1,
    ((C13_store_only Env.ok 0 World.empty ⟨[1, 2], false⟩ "files" "/files" "a.bin" "/files"
      "a.bin" true (Or.inr (by decide))).2.2.2 rfl rfl rfl rfl).1⟩

end Gosqlite

/-! ## The depth of the recursion -/

namespace Gosqlite

theorem callsAdded_of_events {w0 w1 : World} {P : IngestCall → Prop} (ev : List Event)
    (h : w1.trace = w0.trace ++ ev) (hc : ingestCalls ev = []) : CallsAdded w0 w1 P :=
  ⟨ev, h, by simp [hc]⟩

theorem callsAdded_of_eq {w0 w1 : World} {P : IngestCall → Prop} (h : w1.trace = w0.trace) :
    CallsAdded w0 w1 P :=
  callsAdded_of_events [] (by simp [h]) rfl

theorem CallsAdded.chain {w0 w1 w2 : World} {P : IngestCall → Prop}
    (h1 : CallsAdded w0 w1 P) (h2 : CallsAdded w1 w2 P) : CallsAdded w0 w2 P := by
  obtain ⟨a, ha, hpa⟩ := h1
  obtain ⟨b, hb, hpb⟩ := h2
  refine ⟨a ++ b, by rw [hb, ha, List.append_assoc], ?_⟩
  intro c hc
  rw [ingestCalls_append, List.mem_append] at hc
  rcases hc with hc | hc
  · exact hpa c hc
  · exact hpb c hc

theorem indexLoop_calls (env : Env) (command path name oP oN : String) :
    ∀ (fuel : Nat) (f : File) (part : Nat) (w : World),
      ∃ ev, (indexLoop env command path name oP oN fuel f part w).trace = w.trace ++ ev ∧
        ingestCalls ev = [] := by
  intro fuel
  induction fuel with
  | zero => intro f part w; exact ⟨[], by simp [indexLoop], rfl⟩
  | succ fuel ih =>
    intro f part w
    rw [indexLoop]
    split
    · exact ⟨[], by simp, rfl⟩
    · rename_i buf f1 _
      obtain ⟨ev, hev, hc⟩ := ih f1 (part + 1)
        (indexTextFile env w command path name part oP oN buf).1
      refine ⟨Event.index ⟨command, path, name, part, oP, oN, buf⟩ :: ev, ?_, ?_⟩
      · simp only []
        rw [hev, indexTextFile_trace]
        simp
      · simpa [ingestCalls] using hc

theorem textStep_calls (env : Env) (w4 : World) (existingSize : Nat)
    (command parentDir name oP oN : String) :
    (textStep env w4 existingSize command parentDir name oP oN).2 ≠ some Err.depth ∧
    ∃ ev, (textStep env w4 existingSize command parentDir name oP oN).1.trace =
        w4.trace ++ ev ∧ ingestCalls ev = [] := by
  unfold textStep
  by_cases h1 : env.openErr w4.clock (fullNameOf parentDir name) = true
  · rw [if_pos h1]
    exact ⟨by simp, [], by simp, rfl⟩
  · rw [if_neg h1]
    refine ⟨by simp, ?_⟩
    obtain ⟨ev, hev, hc⟩ := indexLoop_calls env command (parentDir ++ "/") name (oP ++ "/") oN
      ((if existingSize > 0 then
          File.Seek ⟨w4.tick.content (fullNameOf parentDir name), 0⟩ existingSize
        else ⟨w4.tick.content (fullNameOf parentDir name), 0⟩).content.length + 1)
      (if existingSize > 0 then
          File.Seek ⟨w4.tick.content (fullNameOf parentDir name), 0⟩ existingSize
        else ⟨w4.tick.content (fullNameOf parentDir name), 0⟩) 0 w4.tick
    exact ⟨ev, by simpa using hev, hc⟩

/-- The shape of a leaf call at a positive depth: the recursion is not
reached. -/
theorem leaf_form (env : Env) (d : Nat) (w0 : World) (stream : Stream)
    (command parentDir name oP oN : String) (cascade : Bool)
    (hleaf : Leaf ⟨command, parentDir, name, oP, oN, cascade⟩) :
    postFileHandler env (d + 1) w0 stream command parentDir name oP oN cascade =
      if env.mkdirAllErr w0.clock parentDir then
        ((w0.record (Event.ingest ⟨command, parentDir, name, oP, oN, cascade⟩)).tick,
          some Err.mkdir)
      else if env.createErr (w0.clock + 1) (fullNameOf parentDir name) then
        ((w0.record (Event.ingest ⟨command, parentDir, name, oP, oN, cascade⟩)).tick.tick,
          some Err.create)
      else if (copyStep env w0 stream ⟨command, parentDir, name, oP, oN, cascade⟩).2 then
        ((copyStep env w0 stream ⟨command, parentDir, name, oP, oN, cascade⟩).1, some Err.write)
      else if IsTextFile (fullNameOf parentDir name) && cascade then
        textStep env (copyStep env w0 stream ⟨command, parentDir, name, oP, oN, cascade⟩).1
          (w0.existingSize (fullNameOf parentDir name)) command parentDir name oP oN
      else ((copyStep env w0 stream ⟨command, parentDir, name, oP, oN, cascade⟩).1, none) := by
  rw [postFileHandler_succ]
  rcases hleaf with h | ⟨h1, h2, h3⟩
  · simp only [] at h
    subst h
    simp only [Bool.and_false, Bool.false_eq_true, if_false]
  · simp only [] at h1 h2 h3
    simp only [h1, h2, h3, Bool.false_and, Bool.false_eq_true, if_false]

/-- A leaf call gives the same result at every positive depth, never runs out
of depth, and enters no call but itself. -/
theorem leaf_run (env : Env) (d : Nat) (w0 : World) (stream : Stream)
    (command parentDir name oP oN : String) (cascade : Bool)
    (hleaf : Leaf ⟨command, parentDir, name, oP, oN, cascade⟩) :
    postFileHandler env (d + 1) w0 stream command parentDir name oP oN cascade =
      postFileHandler env 1 w0 stream command parentDir name oP oN cascade ∧
    (postFileHandler env (d + 1) w0 stream command parentDir name oP oN cascade).2 ≠
      some Err.depth ∧
    ∃ ev, (postFileHandler env (d + 1) w0 stream command parentDir name oP oN cascade).1.trace =
        w0.trace ++ Event.ingest ⟨command, parentDir, name, oP, oN, cascade⟩ :: ev ∧
      ingestCalls ev = [] := by
  refine ⟨?_, ?_⟩
  · rw [leaf_form env d w0 stream command parentDir name oP oN cascade hleaf,
      leaf_form env 0 w0 stream command parentDir name oP oN cascade hleaf]
  · rw [leaf_form env d w0 stream command parentDir name oP oN cascade hleaf]
    obtain ⟨ht2, ev, hev, hc⟩ := textStep_calls env
      (copyStep env w0 stream ⟨command, parentDir, name, oP, oN, cascade⟩).1
      (w0.existingSize (fullNameOf parentDir name)) command parentDir name oP oN
    by_cases h1 : env.mkdirAllErr w0.clock parentDir = true
    · rw [if_pos h1]
      exact ⟨by simp, [], by simp, rfl⟩
    rw [if_neg h1]
    by_cases h2 : env.createErr (w0.clock + 1) (fullNameOf parentDir name) = true
    · rw [if_pos h2]
      exact ⟨by simp, [], by simp, rfl⟩
    rw [if_neg h2]
    by_cases h3 : (copyStep env w0 stream ⟨command, parentDir, name, oP, oN, cascade⟩).2 = true
    · rw [if_pos h3]
      exact ⟨by simp, [], by simp, rfl⟩
    rw [if_neg h3]
    by_cases h4 : (IsTextFile (fullNameOf parentDir name) && cascade) = true
    · rw [if_pos h4]
      refine ⟨ht2, ev, ?_, hc⟩
      rw [hev, copyStep_trace]
      simp
    · rw [if_neg h4]
      exact ⟨by simp, [], by simp, rfl⟩

end Gosqlite

namespace Gosqlite

theorem wrapErr_ne_depth (e wrapped : Err) (he : e ≠ Err.depth) (hw : wrapped ≠ Err.depth) :
    wrapErr e wrapped ≠ Err.depth := by
  unfold wrapErr
  rw [if_neg he]
  exact hw

theorem docStep_congr (env : Env)
    (r1 r2 : World → Stream → String → Bool → World × Option Err)
    (w4 : World) (fullName name : String) (cascade : Bool)
    (hx : ∀ w s, r1 w s (name ++ "--extract.txt") cascade =
      r2 w s (name ++ "--extract.txt") cascade)
    (hn : ∀ w s, r1 w s (name ++ "--thumbnail.png") false =
      r2 w s (name ++ "--thumbnail.png") false) :
    docStep env r1 w4 fullName name cascade = docStep env r2 w4 fullName name cascade := by
  unfold docStep
  simp only [hx, hn]

theorem videoStep_congr (env : Env)
    (r1 r2 : World → Stream → String → Bool → World × Option Err)
    (w4 : World) (fullName name : String)
    (hn : ∀ w s, r1 w s (name ++ "--thumbnail.png") false =
      r2 w s (name ++ "--thumbnail.png") false) :
    videoStep env r1 w4 fullName name = videoStep env r2 w4 fullName name := by
  unfold videoStep
  simp only [hn]

theorem imageStep_congr (env : Env)
    (r1 r2 : World → Stream → String → Bool → World × Option Err)
    (w4 : World) (fullName name : String) (cascade : Bool)
    (hx : ∀ w s, r1 w s (name ++ "--labels.json") cascade =
      r2 w s (name ++ "--labels.json") cascade)
    (hn : ∀ w s, r1 w s (name ++ "--thumbnail.png") false =
      r2 w s (name ++ "--thumbnail.png") false) :
    imageStep env r1 w4 fullName name cascade = imageStep env r2 w4 fullName name cascade := by
  unfold imageStep
  simp only [hx, hn]

theorem docStep_calls (env : Env) (recur : World → Stream → String → Bool → World × Option Err)
    (w4 : World) (fullName name : String) (cascade : Bool) (P : IngestCall → Prop)
    (hx : ∀ w s, (recur w s (name ++ "--extract.txt") cascade).2 ≠ some Err.depth ∧
      CallsAdded w (recur w s (name ++ "--extract.txt") cascade).1 P)
    (hn : ∀ w s, (recur w s (name ++ "--thumbnail.png") false).2 ≠ some Err.depth ∧
      CallsAdded w (recur w s (name ++ "--thumbnail.png") false).1 P) :
    (docStep env recur w4 fullName name cascade).2 ≠ some Err.depth ∧
    CallsAdded w4 (docStep env recur w4 fullName name cascade).1 P := by
  unfold docStep
  by_cases h1 : env.openErr w4.clock fullName = true
  · rw [if_pos h1]
    exact ⟨by simp, callsAdded_of_eq rfl⟩
  rw [if_neg h1]
  simp only []
  have h45 : CallsAdded w4 (w4.tick.record (Event.docExtract fullName)).tick P :=
    callsAdded_of_events [Event.docExtract fullName] (by simp) rfl
  split
  · exact ⟨by simp, h45⟩
  · rename_i rdr _
    have hx1 := hx (w4.tick.record (Event.docExtract fullName)).tick rdr
    split
    · rename_i w6 e heq
      rw [heq] at hx1
      refine ⟨?_, h45.chain hx1.2⟩
      have he : e ≠ Err.depth := fun h => hx1.1 (by rw [h])
      simpa using wrapErr_ne_depth e Err.writeExtract he (by decide)
    · rename_i w6 heq
      rw [heq] at hx1
      have h46 : CallsAdded w4 w6 P := h45.chain hx1.2
      by_cases hp : ToLower env.lowerRune (Ext fullName) = ".pdf"
      · rw [if_pos hp]
        have h67 : CallsAdded w6 (w6.record (Event.pdfThumbnail ("./" ++ fullName))).tick P :=
          callsAdded_of_events [Event.pdfThumbnail ("./" ++ fullName)] (by simp) rfl
        split
        · exact ⟨by simp, h46.chain h67⟩
        · rename_i png _
          have hn1 := hn (w6.record (Event.pdfThumbnail ("./" ++ fullName))).tick ⟨png, false⟩
          split
          · rename_i w8 e heq2
            rw [heq2] at hn1
            refine ⟨?_, (h46.chain h67).chain hn1.2⟩
            have he : e ≠ Err.depth := fun h => hn1.1 (by rw [h])
            simpa using wrapErr_ne_depth e Err.writeThumbnail he (by decide)
          · rename_i w8 heq2
            rw [heq2] at hn1
            exact ⟨by simp, (h46.chain h67).chain hn1.2⟩
      · rw [if_neg hp]
        exact ⟨by simp, h46⟩

theorem videoStep_calls (env : Env)
    (recur : World → Stream → String → Bool → World × Option Err)
    (w4 : World) (fullName name : String) (P : IngestCall → Prop)
    (hn : ∀ w s, (recur w s (name ++ "--thumbnail.png") false).2 ≠ some Err.depth ∧
      CallsAdded w (recur w s (name ++ "--thumbnail.png") false).1 P) :
    (videoStep env recur w4 fullName name).2 ≠ some Err.depth ∧
    CallsAdded w4 (videoStep env recur w4 fullName name).1 P := by
  unfold videoStep
  simp only []
  have h45 : CallsAdded w4 (w4.record (Event.videoThumbnail ("./" ++ fullName))).tick P :=
    callsAdded_of_events [Event.videoThumbnail ("./" ++ fullName)] (by simp) rfl
  split
  · exact ⟨by simp, h45⟩
  · rename_i png _
    have hn1 := hn (w4.record (Event.videoThumbnail ("./" ++ fullName))).tick ⟨png, false⟩
    split
    · rename_i w6 e heq
      rw [heq] at hn1
      refine ⟨?_, h45.chain hn1.2⟩
      have he : e ≠ Err.depth := fun h => hn1.1 (by rw [h])
      simpa using wrapErr_ne_depth e Err.writeThumbnail he (by decide)
    · rename_i w6 heq
      rw [heq] at hn1
      exact ⟨by simp, h45.chain hn1.2⟩

theorem imageStep_calls (env : Env)
    (recur : World → Stream → String → Bool → World × Option Err)
    (w4 : World) (fullName name : String) (cascade : Bool) (P : IngestCall → Prop)
    (hx : ∀ w s, (recur w s (name ++ "--labels.json") cascade).2 ≠ some Err.depth ∧
      CallsAdded w (recur w s (name ++ "--labels.json") cascade).1 P)
    (hn : ∀ w s, (recur w s (name ++ "--thumbnail.png") false).2 ≠ some Err.depth ∧
      CallsAdded w (recur w s (name ++ "--thumbnail.png") false).1 P) :
    (imageStep env recur w4 fullName name cascade).2 ≠ some Err.depth ∧
    CallsAdded w4 (imageStep env recur w4 fullName name cascade).1 P := by
  unfold imageStep
  simp only []
  have h45 : CallsAdded w4 (w4.record (Event.makeThumbnail ("./" ++ fullName))).tick P :=
    callsAdded_of_events [Event.makeThumbnail ("./" ++ fullName)] (by simp) rfl
  split
  · exact ⟨by simp, h45⟩
  · rename_i png _
    have hn1 := hn (w4.record (Event.makeThumbnail ("./" ++ fullName))).tick ⟨png, false⟩
    split
    · rename_i w6 e heq
      rw [heq] at hn1
      refine ⟨?_, h45.chain hn1.2⟩
      have he : e ≠ Err.depth := fun h => hn1.1 (by rw [h])
      simpa using wrapErr_ne_depth e Err.writeThumbnail he (by decide)
    · rename_i w6 heq
      rw [heq] at hn1
      have h46 : CallsAdded w4 w6 P := h45.chain hn1.2
      by_cases hv : env.useVisionAPI = true
      · rw [if_pos hv]
        have h67 : CallsAdded w6 (w6.record (Event.detectLabels ("./" ++ fullName))).tick P :=
          callsAdded_of_events [Event.detectLabels ("./" ++ fullName)] (by simp) rfl
        split
        · exact ⟨by simp, h46.chain h67⟩
        · rename_i json _
          have hx1 := hx (w6.record (Event.detectLabels ("./" ++ fullName))).tick ⟨json, false⟩
          split
          · rename_i w8 e heq2
            rw [heq2] at hx1
            refine ⟨?_, (h46.chain h67).chain hx1.2⟩
            have he : e ≠ Err.depth := fun h => hx1.1 (by rw [h])
            simp [he]
          · rename_i w8 heq2
            rw [heq2] at hx1
            exact ⟨by simp, (h46.chain h67).chain hx1.2⟩
      · rw [if_neg hv]
        exact ⟨by simp, h46⟩

end Gosqlite

namespace Gosqlite

theorem derived_leaf (name : String) (c : IngestCall) (h : Derived name c) : Leaf c := by
  rcases h with ⟨_, h⟩ | ⟨_, h⟩
  · exact Or.inl h
  · obtain ⟨h1, h2, h3, _⟩ := dispatch_text _ h
    exact Or.inr ⟨h1, h2, h3⟩

theorem derived_extract (command parentDir name oP oN : String) (cascade : Bool) :
    Derived name ⟨command, parentDir, name ++ "--extract.txt", oP, oN, cascade⟩ := by
  obtain ⟨h1, h2, h3, h4⟩ :=
    text_class_tests parentDir (name ++ "--extract.txt") (textEnding_extract name)
  exact Or.inr ⟨Or.inl rfl, dispatch_of_text _ h1 h2 h3 h4⟩

theorem derived_labels (command parentDir name oP oN : String) (cascade : Bool) :
    Derived name ⟨command, parentDir, name ++ "--labels.json", oP, oN, cascade⟩ := by
  obtain ⟨h1, h2, h3, h4⟩ :=
    text_class_tests parentDir (name ++ "--labels.json") (textEnding_labels name)
  exact Or.inr ⟨Or.inr rfl, dispatch_of_text _ h1 h2 h3 h4⟩

theorem derived_thumbnail (command parentDir name oP oN : String) :
    Derived name ⟨command, parentDir, name ++ "--thumbnail.png", oP, oN, false⟩ :=
  Or.inl ⟨rfl, rfl⟩

/-- A leaf call that satisfies `P` never runs out of depth and adds to the
trace no call but itself. -/
theorem leaf_calls_added (env : Env) (d : Nat) (w : World) (s : Stream) (c : IngestCall)
    (P : IngestCall → Prop) (hleaf : Leaf c) (hP : P c) :
    (postFileHandler env (d + 1) w s c.command c.parentDir c.name c.originalParentDir
      c.originalName c.cascade).2 ≠ some Err.depth ∧
    CallsAdded w (postFileHandler env (d + 1) w s c.command c.parentDir c.name
      c.originalParentDir c.originalName c.cascade).1 P := by
  obtain ⟨_, h2, ev, hev, hc⟩ := leaf_run env d w s c.command c.parentDir c.name
    c.originalParentDir c.originalName c.cascade hleaf
  refine ⟨h2, Event.ingest c :: ev, hev, ?_⟩
  intro x hx
  simp only [ingestCalls, hc, List.mem_singleton] at hx
  rw [hx]
  exact hP

theorem calls_after_copy (env : Env) (w0 w1 : World) (s : Stream) (c : IngestCall)
    (P : IngestCall → Prop) (h : CallsAdded (copyStep env w0 s c).1 w1 P) :
    ∃ ev, newEvents w0 w1 = Event.ingest c :: ev ∧ ∀ x ∈ ingestCalls ev, P x := by
  obtain ⟨ev, hev, hp⟩ := h
  refine ⟨ev, ?_, hp⟩
  apply newEvents_append
  rw [hev, copyStep_trace]
  simp

/-- The result of a call at depth 2 or more: it is the result at depth 2, it
is not the mark of exhausted depth, and the calls entered after the call's own
entry are all derived calls. -/
theorem depth_two (env : Env) (d : Nat) (w0 : World) (stream : Stream)
    (command parentDir name oP oN : String) (cascade : Bool) :
    postFileHandler env (d + 1 + 1) w0 stream command parentDir name oP oN cascade =
      postFileHandler env (0 + 1 + 1) w0 stream command parentDir name oP oN cascade ∧
    (postFileHandler env (d + 1 + 1) w0 stream command parentDir name oP oN cascade).2 ≠
      some Err.depth ∧
    ∃ ev, newEvents w0
        (postFileHandler env (d + 1 + 1) w0 stream command parentDir name oP oN cascade).1 =
        Event.ingest ⟨command, parentDir, name, oP, oN, cascade⟩ :: ev ∧
      ∀ c ∈ ingestCalls ev, Derived name c := by
  have hX : ∀ (k : Nat) (w : World) (s : Stream),
      (postFileHandler env (k + 1) w s command parentDir (name ++ "--extract.txt") oP oN
        cascade).2 ≠ some Err.depth ∧
      CallsAdded w (postFileHandler env (k + 1) w s command parentDir
        (name ++ "--extract.txt") oP oN cascade).1 (Derived name) := fun k w s =>
    leaf_calls_added env k w s ⟨command, parentDir, name ++ "--extract.txt", oP, oN, cascade⟩
      (Derived name) (derived_leaf name _ (derived_extract command parentDir name oP oN cascade))
      (derived_extract command parentDir name oP oN cascade)
  have hL : ∀ (k : Nat) (w : World) (s : Stream),
      (postFileHandler env (k + 1) w s command parentDir (name ++ "--labels.json") oP oN
        cascade).2 ≠ some Err.depth ∧
      CallsAdded w (postFileHandler env (k + 1) w s command parentDir
        (name ++ "--labels.json") oP oN cascade).1 (Derived name) := fun k w s =>
    leaf_calls_added env k w s ⟨command, parentDir, name ++ "--labels.json", oP, oN, cascade⟩
      (Derived name) (derived_leaf name _ (derived_labels command parentDir name oP oN cascade))
      (derived_labels command parentDir name oP oN cascade)
  have hT : ∀ (k : Nat) (w : World) (s : Stream),
      (postFileHandler env (k + 1) w s command parentDir (name ++ "--thumbnail.png") oP oN
        false).2 ≠ some Err.depth ∧
      CallsAdded w (postFileHandler env (k + 1) w s command parentDir
        (name ++ "--thumbnail.png") oP oN false).1 (Derived name) := fun k w s =>
    leaf_calls_added env k w s ⟨command, parentDir, name ++ "--thumbnail.png", oP, oN, false⟩
      (Derived name) (Or.inl rfl) (derived_thumbnail command parentDir name oP oN)
  have eX : ∀ (w : World) (s : Stream),
      postFileHandler env (d + 1) w s command parentDir (name ++ "--extract.txt") oP oN cascade =
      postFileHandler env (0 + 1) w s command parentDir (name ++ "--extract.txt") oP oN
        cascade := fun w s =>
    (leaf_run env d w s command parentDir (name ++ "--extract.txt") oP oN cascade
      (derived_leaf name _ (derived_extract command parentDir name oP oN cascade))).1
  have eL : ∀ (w : World) (s : Stream),
      postFileHandler env (d + 1) w s command parentDir (name ++ "--labels.json") oP oN cascade =
      postFileHandler env (0 + 1) w s command parentDir (name ++ "--labels.json") oP oN
        cascade := fun w s =>
    (leaf_run env d w s command parentDir (name ++ "--labels.json") oP oN cascade
      (derived_leaf name _ (derived_labels command parentDir name oP oN cascade))).1
  have eT : ∀ (w : World) (s : Stream),
      postFileHandler env (d + 1) w s command parentDir (name ++ "--thumbnail.png") oP oN false =
      postFileHandler env (0 + 1) w s command parentDir (name ++ "--thumbnail.png") oP oN
        false := fun w s =>
    (leaf_run env d w s command parentDir (name ++ "--thumbnail.png") oP oN false
      (Or.inl rfl)).1
  refine ⟨?_, ?_⟩
  · rw [postFileHandler_succ env (d + 1), postFileHandler_succ env (0 + 1)]
    rw [docStep_congr env
        (fun w s n c => postFileHandler env (d + 1) w s command parentDir n oP oN c)
        (fun w s n c => postFileHandler env (0 + 1) w s command parentDir n oP oN c)
        _ _ _ _ eX eT,
      videoStep_congr env
        (fun w s n c => postFileHandler env (d + 1) w s command parentDir n oP oN c)
        (fun w s n c => postFileHandler env (0 + 1) w s command parentDir n oP oN c)
        _ _ _ eT,
      imageStep_congr env
        (fun w s n c => postFileHandler env (d + 1) w s command parentDir n oP oN c)
        (fun w s n c => postFileHandler env (0 + 1) w s command parentDir n oP oN c)
        _ _ _ _ eL eT]
  · rw [postFileHandler_succ env (d + 1)]
    have hdoc := docStep_calls env
      (fun w s n c => postFileHandler env (d + 1) w s command parentDir n oP oN c)
      (copyStep env w0 stream ⟨command, parentDir, name, oP, oN, cascade⟩).1
      (fullNameOf parentDir name) name cascade (Derived name) (hX d) (hT d)
    have hvid := videoStep_calls env
      (fun w s n c => postFileHandler env (d + 1) w s command parentDir n oP oN c)
      (copyStep env w0 stream ⟨command, parentDir, name, oP, oN, cascade⟩).1
      (fullNameOf parentDir name) name (Derived name) (hT d)
    have himg := imageStep_calls env
      (fun w s n c => postFileHandler env (d + 1) w s command parentDir n oP oN c)
      (copyStep env w0 stream ⟨command, parentDir, name, oP, oN, cascade⟩).1
      (fullNameOf parentDir name) name cascade (Derived name) (hL d) (hT d)
    obtain ⟨ht2, tev, htev, htc⟩ := textStep_calls env
      (copyStep env w0 stream ⟨command, parentDir, name, oP, oN, cascade⟩).1
      (w0.existingSize (fullNameOf parentDir name)) command parentDir name oP oN
    by_cases h1 : env.mkdirAllErr w0.clock parentDir = true
    · rw [if_pos h1]
      exact ⟨by simp, [], newEvents_append _ _ _ (by simp), by simp [ingestCalls]⟩
    rw [if_neg h1]
    by_cases h2 : env.createErr (w0.clock + 1) (fullNameOf parentDir name) = true
    · rw [if_pos h2]
      exact ⟨by simp, [], newEvents_append _ _ _ (by simp), by simp [ingestCalls]⟩
    rw [if_neg h2]
    by_cases h3 : (copyStep env w0 stream ⟨command, parentDir, name, oP, oN, cascade⟩).2 = true
    · rw [if_pos h3]
      exact ⟨by simp, [], newEvents_append _ _ _ (by simp), by simp [ingestCalls]⟩
    rw [if_neg h3]
    by_cases h4 : (IsDoc (fullNameOf parentDir name) && cascade) = true
    · rw [if_pos h4]
      exact ⟨hdoc.1, calls_after_copy env w0 _ stream _ _ hdoc.2⟩
    rw [if_neg h4]
    by_cases h5 : (IsVideo (fullNameOf parentDir name) && cascade) = true
    · rw [if_pos h5]
      exact ⟨hvid.1, calls_after_copy env w0 _ stream _ _ hvid.2⟩
    rw [if_neg h5]
    by_cases h6 : (IsImage (fullNameOf parentDir name) && cascade) = true
    · rw [if_pos h6]
      exact ⟨himg.1, calls_after_copy env w0 _ stream _ _ himg.2⟩
    rw [if_neg h6]
    by_cases h7 : (IsTextFile (fullNameOf parentDir name) && cascade) = true
    · rw [if_pos h7]
      exact ⟨ht2, calls_after_copy env w0 _ stream _ _ (callsAdded_of_events tev htev htc)⟩
    · rw [if_neg h7]
      exact ⟨by simp, calls_after_copy env w0 _ stream _ _ (callsAdded_of_eq rfl)⟩

end Gosqlite

namespace Gosqlite

/-- C14: for every environment (any outcome of the store and of the derivation
services), world, stream, name, command and cascade flag, a call of
`postFileHandler` that may nest two levels or more returns what it returns
with two levels, and never the mark of exhausted depth: the recursion ends at
most one level below the top-level call. The calls entered after the call's
own entry are thumbnails with cascade = false, or the extract
(`--extract.txt`) or the labels (`--labels.json`) of the name, whose class is
PlainText; and each such call, at any positive depth in any world, never runs
out of depth and enters no call but itself. -/
theorem C14_recursion_ends_one_level_down (env : Env) (d : Nat) (w0 : World)
    (stream : Stream) (command parentDir name oP oN : String) (cascade : Bool) :
    postFileHandler env (d + 2) w0 stream command parentDir name oP oN cascade =
      postFileHandler env 2 w0 stream command parentDir name oP oN cascade ∧
    (postFileHandler env (d + 2) w0 stream command parentDir name oP oN cascade).2 ≠
      some Err.depth ∧
    (∃ ev, newEvents w0
        (postFileHandler env (d + 2) w0 stream command parentDir name oP oN cascade).1 =
        Event.ingest ⟨command, parentDir, name, oP, oN, cascade⟩ :: ev ∧
      ∀ c ∈ ingestCalls ev, Derived name c) ∧
    (∀ c, Derived name c → ∀ (k : Nat) (w : World) (s : Stream),
      (postFileHandler env (k + 1) w s c.command c.parentDir c.name c.originalParentDir
        c.originalName c.cascade).2 ≠ some Err.depth ∧
      ingestCalls (newEvents w (postFileHandler env (k + 1) w s c.command c.parentDir c.name
        c.originalParentDir c.originalName c.cascade).1) = [c]) := by
  obtain ⟨h1, h2, h3⟩ := depth_two env d w0 stream command parentDir name oP oN cascade
  refine ⟨h1, h2, h3, ?_⟩
  intro c hc k w s
  obtain ⟨_, hd, ev, hev, hcalls⟩ := leaf_run env k w s c.command c.parentDir c.name
    c.originalParentDir c.originalName c.cascade (derived_leaf name c hc)
  refine ⟨hd, ?_⟩
  rw [newEvents_append _ _ _ hev]
  simp [ingestCalls, hcalls]

theorem C14_recursion_ends_one_level_down_witness :
    ingestCalls (newEvents World.empty
      (postFileHandler Env.ok (0 + 1) World.empty ⟨[1], false⟩ "files" "/files"
        "a.png--thumbnail.png" "/files" "a.png" false).1) =
      [⟨"files", "/files", "a.png--thumbnail.png", "/files", "a.png", false⟩] :=
  ((C14_recursion_ends_one_level_down Env.ok 0 World.empty ⟨[], false⟩ "files" "/files" "a.png"
    "/files" "a.png" true).2.2.2
    ⟨"files", "/files", "a.png--thumbnail.png", "/files", "a.png", false⟩
    (Or.inl ⟨by decide, rfl⟩) 0 World.empty ⟨[1], false⟩).2

end Gosqlite

/-! ## Entry names of any shape -/

namespace Gosqlite

theorem splitAux_ne_nil (sep : Char) (l cur : List Char) : splitAux sep l cur ≠ [] := by
  induction l generalizing cur with
  | nil => simp [splitAux]
  | cons x l ih =>
    rw [splitAux]
    split
    · simp
    · exact ih _

/-- `strings.Split` returns at least one piece. -/
theorem split_length_pos (s : String) : 1 ≤ (Split s '/').length :=
  List.length_pos.mpr (splitAux_ne_nil _ _ _)

theorem splitAux_no_slash (l : List Char) :
    ∀ (cur : List Char), '/' ∉ cur → ∀ c ∈ splitAux '/' l cur, '/' ∉ c.data := by
  induction l with
  | nil =>
    intro cur hcur c hc
    simp only [splitAux, List.mem_singleton] at hc
    rw [hc]
    simpa using hcur
  | cons x l ih =>
    intro cur hcur c hc
    rw [splitAux] at hc
    by_cases hx : x = '/'
    · rw [if_pos hx, List.mem_cons] at hc
      rcases hc with hc | hc
      · rw [hc]
        simpa using hcur
      · exact ih [] (by simp) c hc
    · rw [if_neg hx] at hc
      refine ih (x :: cur) ?_ c hc
      intro h
      rcases List.mem_cons.mp h with h | h
      · exact hx h.symm
      · exact hcur h

/-- No piece `strings.Split` returns holds the separator. -/
theorem split_no_slash (s c : String) (hc : c ∈ Split s '/') : '/' ∉ c.data :=
  splitAux_no_slash s.data [] (by simp) c hc

/-- The loop on `/c1/.../ck/` whose components are free of `..`: it appends
the components that are neither empty nor `.`. -/
theorem cleanLoop_skipping (b : Bool) (mid : List String)
    (hmid : ∀ c ∈ mid, '/' ∉ c.data ∧ c ≠ "..") :
    ∀ (f : Nat) (out : List Char) (dd : Nat), (slashJoin mid ++ ['/']).length < f →
      2 ≤ out.length →
      (cleanLoop b f (slashJoin mid ++ ['/']) out dd).1 =
        out ++ slashJoin (mid.filter (fun c => !Skipped c)) := by
  induction mid with
  | nil =>
    intro f out dd hf _
    cases f with
    | zero => exact absurd hf (Nat.not_lt_zero _)
    | succ f =>
      simp only [slashJoin, List.nil_append, List.append_nil, List.filter_nil]
      rw [cleanLoop, if_pos rfl]
      cases f <;> rfl
  | cons c cs ih =>
    intro f out dd hf hout
    obtain ⟨p2, p4⟩ := hmid c (List.mem_cons_self _ _)
    have hcs : ∀ x ∈ cs, '/' ∉ x.data ∧ x ≠ ".." := fun x hx =>
      hmid x (List.mem_cons_of_mem _ hx)
    have hlen : (slashJoin (c :: cs) ++ ['/']).length =
        (slashJoin cs ++ ['/']).length + c.data.length + 1 := by
      simp [slashJoin]; omega
    have hpath : slashJoin (c :: cs) ++ ['/'] = '/' :: (c.data ++ (slashJoin cs ++ ['/'])) := by
      simp [slashJoin]
    obtain ⟨s, hs⟩ := slashJoin_slash cs
    by_cases e0 : c = ""
    · -- an empty component: the slash is skipped
      obtain ⟨g, hg⟩ : ∃ g, f = g + 1 := ⟨f - 1, by omega⟩
      subst hg
      have hskip : Skipped c = true := by simp [Skipped, e0]
      have hd : c.data = [] := by rw [e0]
      rw [hpath, hd, List.nil_append, cleanLoop, if_pos rfl,
        ih hcs g out dd (by rw [hlen, hd] at hf; simpa using hf) hout]
      simp [List.filter_cons, hskip]
    by_cases e1 : c = "."
    · -- a dot component: the slash and the dot are skipped
      obtain ⟨g, hg⟩ : ∃ g, f = g + 2 := ⟨f - 2, by rw [hlen] at hf; omega⟩
      subst hg
      have hskip : Skipped c = true := by simp [Skipped, e1]
      have hd : c.data = ['.'] := by rw [e1]
      have hstep : cleanLoop b (g + 1) ('.' :: (slashJoin cs ++ ['/'])) out dd =
          cleanLoop b g (slashJoin cs ++ ['/']) out dd := by
        rw [cleanLoop, if_neg (by decide), if_pos ⟨rfl, Or.inr (by rw [hs]; rfl)⟩]
      rw [hpath, hd, cleanLoop, if_pos rfl]
      show (cleanLoop b (g + 1) ('.' :: (slashJoin cs ++ ['/'])) out dd).1 = _
      rw [hstep, ih hcs g out dd (by rw [hlen, hd] at hf; simp at hf ⊢; omega) hout]
      simp [List.filter_cons, hskip]
    · -- a proper component is appended
      have p1 : c.data ≠ [] := fun h => e0 (String.ext h)
      have hpos : 0 < c.data.length := List.length_pos.mpr p1
      obtain ⟨g, hg⟩ : ∃ g, f = g + 2 := ⟨f - 2, by rw [hlen] at hf; omega⟩
      subst hg
      have hskip : Skipped c = false := by simp [Skipped, e0, e1]
      rw [hpath, cleanLoop_component b c.data _ out dd g p1 p2
        (fun h => e1 (String.ext h)) (fun h => p4 (String.ext h)) (slashJoin_tail cs) hout,
        ih hcs g _ dd
          (by rw [hlen] at hf; omega) (by simp only [List.length_append]; omega)]
      simp [List.filter_cons, hskip, slashJoin]

theorem kept_proper (mid : List String) (hmid : ∀ c ∈ mid, '/' ∉ c.data ∧ c ≠ "..") :
    ∀ c ∈ mid.filter (fun c => !Skipped c), Proper c := by
  intro c hc
  obtain ⟨hm, hk⟩ := List.mem_filter.mp hc
  obtain ⟨h1, h2⟩ := hmid c hm
  simp only [Skipped, Bool.not_eq_true', Bool.or_eq_false_iff, decide_eq_false_iff_not] at hk
  refine ⟨?_, h1, hk.2, h2⟩
  intro h
  exact hk.1 (String.ext h)

end Gosqlite

namespace Gosqlite

/-- A clean path of two bytes or more, followed by `/c1/.../ck/` whose
components are free of `..`, cleans to the path followed by the components
that are neither empty nor `.`. -/
theorem clean_skipping (P : String) (mid : List String) (hclean : Clean P = P)
    (hlen : 2 ≤ P.data.length) (hmid : ∀ c ∈ mid, '/' ∉ c.data ∧ c ≠ "..") :
    Clean ⟨P.data ++ (slashJoin mid ++ ['/'])⟩ =
      ⟨P.data ++ slashJoin (mid.filter (fun c => !Skipped c))⟩ := by
  obtain ⟨c0, prest, hP⟩ : ∃ c0 prest, P.data = c0 :: prest := by
    cases h : P.data with
    | nil => rw [h] at hlen; simp at hlen
    | cons c0 prest => exact ⟨c0, prest, rfl⟩
  obtain ⟨s, hs⟩ := slashJoin_slash mid
  have hdot : P ≠ "." := by
    intro h
    rw [h] at hlen
    exact absurd hlen (by decide)
  rw [clean_of_data P c0 prest hP] at hclean
  rw [clean_of_data ⟨P.data ++ (slashJoin mid ++ ['/'])⟩ c0 (prest ++ (slashJoin mid ++ ['/']))
    (by rw [hP]; rfl)]
  by_cases c1 : c0 = '/'
  · simp only [c1, if_true] at hclean ⊢
    have hst : (cleanLoop true (prest.length + 1) prest ['/'] 1).1 = P.data := by
      by_cases hz : (cleanLoop true (prest.length + 1) prest ['/'] 1).1.length = 0
      · rw [if_pos hz] at hclean
        exact absurd hclean.symm hdot
      · rw [if_neg hz] at hclean
        exact congrArg String.data hclean
    have hrun : (cleanLoop true ((prest ++ (slashJoin mid ++ ['/'])).length + 1)
        (prest ++ (slashJoin mid ++ ['/'])) ['/'] 1).1 =
        P.data ++ slashJoin (mid.filter (fun c => !Skipped c)) := by
      rw [hs, cleanLoop_fuel true _ ((prest.length + 1) + s.length + 1) _ _ _
        (by simp) (by simp only [List.length_append, List.length_cons]; omega),
        cleanLoop_append true (prest.length + 1) prest s ['/'] 1 (by omega), hst, ← hs]
      exact cleanLoop_skipping true mid hmid _ _ _ (by rw [hs]; simp) hlen
    rw [hrun, if_neg (by simp only [List.length_append]; omega)]
  · simp only [c1, if_false] at hclean ⊢
    have hst : (cleanLoop false (prest.length + 2) (c0 :: prest) [] 0).1 = P.data := by
      by_cases hz : (cleanLoop false (prest.length + 2) (c0 :: prest) [] 0).1.length = 0
      · rw [if_pos hz] at hclean
        exact absurd hclean.symm hdot
      · rw [if_neg hz] at hclean
        exact congrArg String.data hclean
    have hrun : (cleanLoop false ((prest ++ (slashJoin mid ++ ['/'])).length + 2)
        (c0 :: (prest ++ (slashJoin mid ++ ['/']))) [] 0).1 =
        P.data ++ slashJoin (mid.filter (fun c => !Skipped c)) := by
      rw [hs, ← List.cons_append, cleanLoop_fuel false _ ((prest.length + 2) + s.length + 1) _ _ _
        (by simp) (by simp only [List.length_append, List.length_cons]; omega),
        cleanLoop_append false (prest.length + 2) (c0 :: prest) s [] 0
          (by simp only [List.length_cons]; omega), hst, ← hs]
      exact cleanLoop_skipping false mid hmid _ _ _ (by rw [hs]; simp) hlen
    rw [hrun, if_neg (by simp only [List.length_append]; omega)]

/-- The directory of `P/<tname joined>` for pieces `tname` without `'/'`
whose inner ones are free of `..`. -/
theorem dir_of_pieces (P : String) (tname : List String) (hclean : Clean P = P)
    (hlen : 2 ≤ P.data.length) (hsl : ∀ c ∈ tname, '/' ∉ c.data)
    (hdots : ".." ∉ tname.dropLast) :
    Dir (P ++ "/" ++ Join tname "/") =
      Join (P :: tname.dropLast.filter (fun c => !Skipped c)) "/" := by
  have hmid : ∀ c ∈ tname.dropLast, '/' ∉ c.data ∧ c ≠ ".." := by
    intro c hc
    refine ⟨hsl c (List.dropLast_subset _ hc), ?_⟩
    intro h
    exact hdots (h ▸ hc)
  have hgoal : Clean ⟨P.data ++ (slashJoin tname.dropLast ++ ['/'])⟩ =
      Join (P :: tname.dropLast.filter (fun c => !Skipped c)) "/" := by
    rw [clean_skipping P _ hclean hlen hmid]
    exact String.ext (join_data _ _).symm
  unfold Dir
  by_cases hnil : tname = []
  · subst hnil
    have hdata : (P ++ "/" ++ Join [] "/").data = P.data ++ '/' :: [] := by
      simp [Join, String.data_append]
    rw [hdata, splitDir_last _ _ (by simp)]
    exact hgoal
  · have hsplit : tname = tname.dropLast ++ [tname.getLast hnil] :=
      (List.dropLast_append_getLast hnil).symm
    have hlast : '/' ∉ (tname.getLast hnil).data := hsl _ (List.getLast_mem hnil)
    have hdata : (P ++ "/" ++ Join tname "/").data =
        (P.data ++ slashJoin tname.dropLast) ++ '/' :: (tname.getLast hnil).data := by
      have h1 : (P ++ "/" ++ Join tname "/").data = P.data ++ '/' :: (Join tname "/").data := by
        simp [String.data_append]
      rw [h1, slash_join_data _ hnil]
      conv_lhs => rw [hsplit]
      rw [slashJoin_append, List.append_assoc]
    rw [hdata, splitDir_last _ _ hlast, List.append_assoc]
    exact hgoal

end Gosqlite

namespace Gosqlite

/-- C15 (fails): the regular entry `root/../../../etc/passwd`, installed at
the clean target `/files/up`, is sent to the directory `/etc`, which is not
`/files/up` or below it; when no operation fails the installer writes the
entry's bytes to `/etc/passwd`. -/
theorem C15_dotdot_entry_escapes :
    Clean ("/files" ++ "/" ++ "up") = "/files" ++ "/" ++ "up" ∧
    (entryCall "files" "/files" "up"
      ⟨TypeReg, "root/../../../etc/passwd", ⟨[7], false⟩⟩).parentDir = "/etc" ∧
    ¬ ("/files/up".data <+: "/etc".data) ∧
    (installLoop Env.ok 2 "files" "/files" "up" false climbingArchive World.empty).world.files
      "/etc/passwd" = some [7] := by
  decide

/-- C15 (amended): for every regular tar entry name whatsoever,
`strings.Split` returns at least one piece, so `tname[1:]` is defined; and
when no piece of the name other than the first and the last is `..`, for
every `parentDir` and `name` such that `parentDir/name` is a clean path and
`name` is not empty, the installer's destination directory is
`parentDir/name` followed by the pieces between the first and the last that
are neither empty nor `.`: it is `parentDir/name` itself or a path below
it. -/
theorem C15_entry_stays_below (command parentDir name : String) (e : TarEntry)
    (hclean : Clean (parentDir ++ "/" ++ name) = parentDir ++ "/" ++ name)
    (hname : name ≠ "") (hdots : ".." ∉ entryMid e.Name) :
    1 ≤ (Split e.Name '/').length ∧
    (entryCall command parentDir name e).parentDir =
      Join ((parentDir ++ "/" ++ name) ::
        (entryMid e.Name).filter (fun c => !Skipped c)) "/" ∧
    (∀ c ∈ (entryMid e.Name).filter (fun c => !Skipped c), Proper c) ∧
    (parentDir ++ "/" ++ name).data <+: (entryCall command parentDir name e).parentDir.data := by
  have hlen : 2 ≤ (parentDir ++ "/" ++ name).data.length := by
    have : name.data ≠ [] := fun h => hname (String.ext h)
    have := List.length_pos.mpr this
    simp only [String.data_append, List.length_append]
    have h1 : ['/'].length = 1 := rfl
    omega
  have hsl : ∀ c ∈ (Split e.Name '/').drop 1, '/' ∉ c.data := fun c hc =>
    split_no_slash e.Name c (List.mem_of_mem_drop hc)
  have hdir : (entryCall command parentDir name e).parentDir =
      Join ((parentDir ++ "/" ++ name) ::
        (entryMid e.Name).filter (fun c => !Skipped c)) "/" :=
    dir_of_pieces (parentDir ++ "/" ++ name) ((Split e.Name '/').drop 1) hclean hlen hsl hdots
  have hmid : ∀ c ∈ entryMid e.Name, '/' ∉ c.data ∧ c ≠ ".." := by
    intro c hc
    refine ⟨hsl c (List.dropLast_subset _ hc), ?_⟩
    intro h
    exact hdots (h ▸ hc)
  refine ⟨split_length_pos e.Name, hdir, kept_proper _ hmid, ?_⟩
  rw [hdir, join_data]
  exact List.prefix_append _ _

theorem C15_entry_stays_below_witness :
    Clean ("/files" ++ "/" ++ "up") = "/files" ++ "/" ++ "up" ∧
    ".." ∉ entryMid "root//./a/b.txt" ∧
    (entryCall "files" "/files" "up" ⟨TypeReg, "root//./a/b.txt", ⟨[1], false⟩⟩).parentDir =
      "/files/up/a" := by
  have h := (C15_entry_stays_below "files" "/files" "up"
    ⟨TypeReg, "root//./a/b.txt", ⟨[1], false⟩⟩ (by decide) (by decide) (by decide)).2.1
  exact ⟨by decide, by decide, h.trans (by decide)⟩

end Gosqlite
